import Mathlib

/-! GoTools: `Ellipse` and the Gordon-surface driver

A shallow embedding of `gotools-core/src/geometry/Ellipse.C` and of
`gotools-core/app/creators/testGordonSurface.C`, with the loft parameters
declared in `gotools-core/include/GoTools/creators/LoftSurfaceCreator.h` and
the Gordon surface that the driver builds.

`double` values are taken as exact numbers: elements of a linearly ordered
field `K`.  The functions and the constant of the C maths library that the
code calls (`M_PI`, `sqrt`, `cos`, `sin`) are a parameter `m : Libm K`, so
every definition below is computable (over `ℚ`, for instance) and each
result can be read over `ℝ` with the real `π`, `√`, `cos` and `sin`.
-/

namespace Go

/-! ## The C maths library -/

/-- The part of `<cmath>` used by `Ellipse.C`. -/
structure Libm (K : Type) where
  M_PI : K
  sqrt : K → K
  cos : K → K
  sin : K → K

/-- The `fabs` of `<cmath>`. -/
def fabs {K : Type} [LinearOrderedField K] (x : K) : K :=
  if x < 0 then -x else x

/-- What the exact-number reading assumes of `sqrt`: on non-negative
arguments it is the non-negative square root. -/
structure Libm.SqrtExact {K : Type} [LinearOrderedField K] (m : Libm K) : Prop where
  sqrt_nonneg : ∀ x : K, 0 ≤ x → 0 ≤ m.sqrt x
  sqrt_mul_self : ∀ x : K, 0 ≤ x → m.sqrt x * m.sqrt x = x

/-! ## Exceptions and mutating member functions -/

/-- Outcome of a member function that mutates `*this` and may `THROW`:
the object as the call leaves it, and the message when it threw. -/
structure Res (σ : Type) where
  state : σ
  thrown : Option String

/-! ## `Ellipse` -/

/-- A `Go::Point`: coordinates of run-time dimension. -/
structure Point (K : Type) where
  coords : List K
deriving DecidableEq

section PointOps

variable {K : Type} [LinearOrderedField K]

/-- Modelled from the spec: `Point::dimension()` of the absent `Point.h`,
the number of coordinates. -/
def Point.dimension (p : Point K) : Nat := p.coords.length

/-- Modelled from the spec: `Point::operator[]` of the absent `Point.h`
(reading outside the point is given the value `0`). -/
def Point.get (p : Point K) (i : Nat) : K := p.coords.getD i 0

/-- Modelled from the spec: `Point::operator+` of the absent `Point.h`,
coordinate by coordinate. -/
def Point.add (p q : Point K) : Point K := ⟨List.zipWith (· + ·) p.coords q.coords⟩

/-- Modelled from the spec: `Point::operator-` of the absent `Point.h`,
coordinate by coordinate. -/
def Point.sub (p q : Point K) : Point K := ⟨List.zipWith (· - ·) p.coords q.coords⟩

/-- Modelled from the spec: `operator*(double, Point)` of the absent
`Point.h`, the multiple of a point. -/
def Point.smul (a : K) (p : Point K) : Point K := ⟨p.coords.map (a * ·)⟩

/-- Modelled from the spec: `Point::operator*(Point)` of the absent
`Point.h`, the scalar product. -/
def Point.dot (p q : Point K) : K := (List.zipWith (· * ·) p.coords q.coords).sum

/-- Modelled from the spec: `Point::length()` of the absent `Point.h`, the
Euclidean norm `sqrt(p * p)`. -/
def Point.length (m : Libm K) (p : Point K) : K := m.sqrt (p.dot p)

/-- Modelled from the spec: `Point::normalize()` of the absent `Point.h`:
every coordinate is divided by `length()`.  (For the zero vector the C++
code divides by zero; the field division used here then gives `0`.) -/
def Point.normalize (m : Libm K) (p : Point K) : Point K :=
  ⟨p.coords.map (· / p.length m)⟩

/-- Modelled from the spec: `Point::cross(Point)` of the absent `Point.h`,
the vector product of two 3D points. -/
def Point.cross (p q : Point K) : Point K :=
  ⟨[p.get 1 * q.get 2 - p.get 2 * q.get 1,
    p.get 2 * q.get 0 - p.get 0 * q.get 2,
    p.get 0 * q.get 1 - p.get 1 * q.get 0]⟩

/-- The part of `d` orthogonal to `n`, written as in `setSpanningVectors`:
`d - (d * n) * n`. -/
def Point.planeProjection (d n : Point K) : Point K := d.sub (Point.smul (d.dot n) n)

end PointOps

/-- The data members of `Go::Ellipse` (with `isReversed_` of its base
class `ElementaryCurve`). -/
structure Ellipse (K : Type) where
  centre_ : Point K
  vec1_ : Point K
  vec2_ : Point K
  normal_ : Point K
  r1_ : K
  r2_ : K
  startparam_ : K
  endparam_ : K
  isReversed_ : Bool

section setParamBounds

variable {K : Type} [LinearOrderedField K]

/-- The local `fuzzy` of `setParamBounds`: `1.0e-12`. -/
def fuzzy : K := 1 / 10 ^ 12

/-- The snapping `setParamBounds` applies to each of its two arguments:
`if (fabs(par) < fuzzy) par = 0.0; else if (fabs(2.0*M_PI-par) < fuzzy) par = 2.0*M_PI;` -/
def snapParam (m : Libm K) (par : K) : K :=
  if fabs par < fuzzy then 0
  else if fabs (2 * m.M_PI - par) < fuzzy then 2 * m.M_PI
  else par

/-- The member function `Ellipse::setParamBounds(double startpar, double endpar)`. -/
def Ellipse.setParamBounds (m : Libm K) (e : Ellipse K) (startpar endpar : K) :
    Res (Ellipse K) :=
  let startpar := snapParam m startpar
  let endpar := snapParam m endpar
  if startpar ≥ endpar then
    ⟨e, some "First parameter must be strictly less than second."⟩
  else if startpar < -2 * m.M_PI ∨ endpar > 2 * m.M_PI then
    ⟨e, some "Parameters must be in [-2pi, 2pi]."⟩
  else if endpar - startpar > 2 * m.M_PI then
    ⟨e, some "(endpar - startpar) must not exceed 2pi."⟩
  else
    ⟨{ e with startparam_ := startpar, endparam_ := endpar }, none⟩

/-- A request `(startpar, endpar)` is malformed: wrong order, outside
`[-2π, 2π]`, or longer than `2π`. -/
def malformed (m : Libm K) (startpar endpar : K) : Prop :=
  startpar ≥ endpar ∨ startpar < -2 * m.M_PI ∨ endpar > 2 * m.M_PI ∨
    endpar - startpar > 2 * m.M_PI

/-- The argument is one that `snapParam` replaces or may replace: it lies
within `fuzzy` of `0` or of `2π`. -/
def nearSnap (m : Libm K) (par : K) : Prop :=
  fabs par < fuzzy ∨ fabs (2 * m.M_PI - par) < fuzzy

end setParamBounds

section EllipseOps

variable {K : Type} [LinearOrderedField K]

/-- The member function `Ellipse::dimension()`. -/
def Ellipse.dimension (e : Ellipse K) : Nat := e.centre_.dimension

/-- Modelled from the spec: `ElementaryCurve::reverseParameterDirection()`
of the absent base class; it toggles the reversed flag. -/
def Ellipse.reverseParameterDirection (e : Ellipse K) : Ellipse K :=
  { e with isReversed_ := !e.isReversed_ }

/-- The member function `Ellipse::setSpanningVectors()`.  The test
`tmp.length() == 0.0` is read on exact numbers, where it holds exactly for a
direction parallel to the normal; on rounded `double`s the computed `tmp` of
such a direction need not be zero, so the theorems below that describe the
3D frame or a successful construction assume a direction that is not
parallel to the normal, and none relies on the exception being raised. -/
def Ellipse.setSpanningVectors (m : Libm K) (e : Ellipse K) : Res (Ellipse K) :=
  let dim := e.centre_.dimension
  if dim = 2 then
    let vec2 : Point K := ⟨[-(e.vec1_.get 1), e.vec1_.get 0]⟩
    ⟨{ e with vec1_ := e.vec1_.normalize m, vec2_ := vec2.normalize m }, none⟩
  else if dim = 3 then
    let tmp := e.vec1_.sub (Point.smul (e.vec1_.dot e.normal_) e.normal_)
    if tmp.length m = 0 then
      ⟨e, some "X-axis parallel to normal."⟩
    else
      let vec1 := tmp
      let vec2 := e.normal_.cross vec1
      ⟨{ e with vec1_ := vec1.normalize m, vec2_ := vec2.normalize m }, none⟩
  else
    ⟨e, some "Dimension must be 2 or 3"⟩

/-- The constructor
`Ellipse::Ellipse(centre, direction, normal, r1, r2, isReversed)`.
The member initialisers leave `vec2_` an empty point and (in the base
class) `isReversed_` false. -/
def Ellipse.ctor (m : Libm K) (centre direction normal : Point K) (r1 r2 : K)
    (isReversed : Bool) : Except String (Ellipse K) :=
  let e0 : Ellipse K :=
    { centre_ := centre, vec1_ := direction, vec2_ := ⟨[]⟩, normal_ := normal,
      r1_ := r1, r2_ := r2, startparam_ := 0, endparam_ := 2 * m.M_PI,
      isReversed_ := false }
  if e0.centre_.dimension ≠ 3 then
    .error "Dimension must be 3."
  else
    let e1 := if e0.dimension = 3 then { e0 with normal_ := e0.normal_.normalize m } else e0
    match e1.setSpanningVectors m with
    | ⟨_, some msg⟩ => .error msg
    | ⟨e2, none⟩ => .ok (if isReversed then e2.reverseParameterDirection else e2)

/-- The ellipse the constructor returns when it does not throw. -/
def ctorResult (m : Libm K) (centre direction normal : Point K) (r1 r2 : K)
    (isReversed : Bool) : Ellipse K :=
  { centre_ := centre,
    vec1_ := (direction.planeProjection (normal.normalize m)).normalize m,
    vec2_ := ((normal.normalize m).cross
      (direction.planeProjection (normal.normalize m))).normalize m,
    normal_ := normal.normalize m, r1_ := r1, r2_ := r2,
    startparam_ := 0, endparam_ := 2 * m.M_PI, isReversed_ := isReversed }

/-- The numbers `Ellipse::read` extracts from its stream with `operator>>`,
in the order it reads them, and whether the stream was `good()` at entry.
`centre i`, `normal i` and `vec1 i` are the `i`-th number read into the
respective point. -/
structure EllipseStream (K : Type) where
  good : Bool
  dim : Nat
  r1 : K
  r2 : K
  centre : Nat → K
  normal : Nat → K
  vec1 : Nat → K
  startparam : K
  endparam : K
  isReversed : Int

/-- A point after `resize(dim)` and `is >> point`: the first `dim` numbers
read. -/
def Point.readFrom (dim : Nat) (f : Nat → K) : Point K := ⟨(List.range dim).map f⟩

/-- The local `pareps` of `read`: `1.0e-4`. -/
def pareps : K := 1 / 10 ^ 4

/-- The member function `Ellipse::read(std::istream& is)`. -/
def Ellipse.read (m : Libm K) (e : Ellipse K) (is : EllipseStream K) : Res (Ellipse K) :=
  if !is.good then
    ⟨e, some "Invalid geometry file!"⟩
  else
    let e := { e with r1_ := is.r1, r2_ := is.r2,
                      centre_ := Point.readFrom is.dim is.centre,
                      normal_ := Point.readFrom is.dim is.normal,
                      vec1_ := Point.readFrom is.dim is.vec1 }
    let e := if is.dim = 3 then { e with normal_ := e.normal_.normalize m } else e
    match e.setSpanningVectors m with
    | ⟨e, some msg⟩ => ⟨e, some msg⟩
    | ⟨e, none⟩ =>
      let e := { e with startparam_ := is.startparam, endparam_ := is.endparam }
      let e := if fabs e.startparam_ < pareps then { e with startparam_ := 0 } else e
      let e := if fabs (e.endparam_ - 2 * m.M_PI) < pareps then
                 { e with endparam_ := 2 * m.M_PI } else e
      let e := { e with isReversed_ := false }
      if is.isReversed = 0 then
        ⟨e, none⟩
      else if is.isReversed = 1 then
        ⟨e.reverseParameterDirection, none⟩
      else
        ⟨e, some "Swapped flag must be 0 or 1"⟩

/-- The member function `Ellipse::clone()`. -/
def Ellipse.clone (m : Libm K) (e : Ellipse K) : Except String (Ellipse K) :=
  match Ellipse.ctor m e.centre_ e.vec1_ e.normal_ e.r1_ e.r2_ e.isReversed_ with
  | .error msg => .error msg
  | .ok ellipse =>
    match ellipse.setParamBounds m e.startparam_ e.endparam_ with
    | ⟨_, some msg⟩ => .error msg
    | ⟨ellipse, none⟩ => .ok ellipse

/-- The member function `Ellipse::subCurve(from_par, to_par, fuzzy)`. -/
def Ellipse.subCurve (m : Libm K) (e : Ellipse K) (from_par to_par : K) :
    Except String (Ellipse K) :=
  match e.clone m with
  | .error msg => .error msg
  | .ok ellipse =>
    match ellipse.setParamBounds m from_par to_par with
    | ⟨_, some msg⟩ => .error msg
    | ⟨ellipse, none⟩ => .ok ellipse

/-- The member function `Ellipse::isDegenerate(degenerate_epsilon)`. -/
def Ellipse.isDegenerate (e : Ellipse K) (degenerate_epsilon : K) : Bool :=
  decide (e.r1_ < degenerate_epsilon) || decide (e.r2_ < degenerate_epsilon)

/-- The parameter invariant of the spec's data model:
`-2π ≤ startparam_ < endparam_ ≤ 2π` and `endparam_ - startparam_ ≤ 2π`. -/
def Ellipse.paramInvariant (m : Libm K) (e : Ellipse K) : Prop :=
  -2 * m.M_PI ≤ e.startparam_ ∧ e.startparam_ < e.endparam_ ∧
    e.endparam_ ≤ 2 * m.M_PI ∧ e.endparam_ - e.startparam_ ≤ 2 * m.M_PI

/-- The member function `Ellipse::write(std::ostream& os)`: the numbers it
emits, in the order it emits them (dimension, radii, centre, normal, `vec1_`,
the two parameters and the reversed flag as `0` or `1`), taken as exact
numbers and handed to a reader as a stream that is `good()`. -/
def Ellipse.write (e : Ellipse K) : EllipseStream K :=
  { good := true, dim := e.dimension, r1 := e.r1_, r2 := e.r2_,
    centre := e.centre_.get, normal := e.normal_.get, vec1 := e.vec1_.get,
    startparam := e.startparam_, endparam := e.endparam_,
    isReversed := if !e.isReversed_ then 0 else 1 }

/-- The frame invariant of the spec's data model for a 2D or 3D ellipse:
`vec1_`, `vec2_` and `normal_` have the dimension of the centre, `vec1_` is a
unit vector, in 2D `vec2_` is `vec1_` rotated by +90 degrees, and in 3D the
normal is a unit vector orthogonal to `vec1_` with `vec2_ = normal_ x vec1_`
(a right-handed orthonormal frame). -/
def Ellipse.validFrame (m : Libm K) (e : Ellipse K) : Prop :=
  e.vec1_.dimension = e.dimension ∧ e.vec2_.dimension = e.dimension ∧
  e.normal_.dimension = e.dimension ∧ e.vec1_.length m = 1 ∧
  ((e.dimension = 2 ∧ e.vec2_ = ⟨[-(e.vec1_.get 1), e.vec1_.get 0]⟩) ∨
   (e.dimension = 3 ∧ e.normal_.length m = 1 ∧ e.vec1_.dot e.normal_ = 0 ∧
      e.vec2_ = e.normal_.cross e.vec1_))

end EllipseOps

/-- A record of a 3D ellipse (unit circle of the `xy`-plane) whose parameter
interval is written as `5 1`. -/
def badIntervalStream {K : Type} [LinearOrderedField K] : EllipseStream K :=
  { good := true, dim := 3, r1 := 1, r2 := 1, centre := fun _ => 0,
    normal := fun i => if i = 2 then 1 else 0,
    vec1 := fun i => if i = 0 then 1 else 0,
    startparam := 5, endparam := 1, isReversed := 0 }

/-- A 2D ellipse object whose given direction `vec1_` is the zero vector, as
`read` leaves it before it calls `setSpanningVectors`. -/
def zeroDirection2D {K : Type} [LinearOrderedField K] (m : Libm K) : Ellipse K :=
  { centre_ := ⟨[0, 0]⟩, vec1_ := ⟨[0, 0]⟩, vec2_ := ⟨[]⟩, normal_ := ⟨[0, 0]⟩,
    r1_ := 1, r2_ := 1, startparam_ := 0, endparam_ := 2 * m.M_PI, isReversed_ := false }

/-- A 2D ellipse object with given direction `(3, 4)`. -/
def direction2D {K : Type} [LinearOrderedField K] (m : Libm K) : Ellipse K :=
  { centre_ := ⟨[0, 0]⟩, vec1_ := ⟨[3, 4]⟩, vec2_ := ⟨[]⟩, normal_ := ⟨[0, 0]⟩,
    r1_ := 1, r2_ := 1, startparam_ := 0, endparam_ := 2 * m.M_PI, isReversed_ := false }

/-- The arc of the unit circle of the `xy`-plane over `[π/4, π/2]`. -/
def eighthArc {K : Type} [LinearOrderedField K] (m : Libm K) : Ellipse K :=
  { centre_ := ⟨[0, 0, 0]⟩, vec1_ := ⟨[1, 0, 0]⟩, vec2_ := ⟨[0, 1, 0]⟩,
    normal_ := ⟨[0, 0, 1]⟩, r1_ := 1, r2_ := 1,
    startparam_ := m.M_PI / 4, endparam_ := m.M_PI / 2, isReversed_ := false }

/-- The arc of the unit circle of the `xy`-plane over `[-π/2, π/2]`. -/
def halfArc {K : Type} [LinearOrderedField K] (m : Libm K) : Ellipse K :=
  { centre_ := ⟨[0, 0, 0]⟩, vec1_ := ⟨[1, 0, 0]⟩, vec2_ := ⟨[0, 1, 0]⟩,
    normal_ := ⟨[0, 0, 1]⟩, r1_ := 1, r2_ := 1,
    startparam_ := -(m.M_PI / 2), endparam_ := m.M_PI / 2, isReversed_ := false }

/-- The reversed arc of the unit circle of the `xy`-plane over
`[0.00005, 1]`, whose start lies within `1e-4` of `0`. -/
def shortStartArc {K : Type} [LinearOrderedField K] : Ellipse K :=
  { centre_ := ⟨[0, 0, 0]⟩, vec1_ := ⟨[1, 0, 0]⟩, vec2_ := ⟨[0, 1, 0]⟩,
    normal_ := ⟨[0, 0, 1]⟩, r1_ := 1, r2_ := 1,
    startparam_ := 1 / 20000, endparam_ := 1, isReversed_ := true }

/-- The unit circle in 2D with the full interval `[0, 2π]`, as `read` builds
it from a 2D record. -/
def unitCircle2D {K : Type} [LinearOrderedField K] (m : Libm K) : Ellipse K :=
  { centre_ := ⟨[0, 0]⟩, vec1_ := ⟨[1, 0]⟩, vec2_ := ⟨[0, 1]⟩, normal_ := ⟨[0, 0]⟩,
    r1_ := 1, r2_ := 1, startparam_ := 0, endparam_ := 2 * m.M_PI, isReversed_ := false }

/-- An ellipse value to call member functions on: the unit circle of the
`xy`-plane with the full interval `[0, 2π]`. -/
def unitCircle {K : Type} [LinearOrderedField K] (m : Libm K) : Ellipse K :=
  { centre_ := ⟨[0, 0, 0]⟩, vec1_ := ⟨[1, 0, 0]⟩, vec2_ := ⟨[0, 1, 0]⟩,
    normal_ := ⟨[0, 0, 1]⟩, r1_ := 1, r2_ := 1,
    startparam_ := 0, endparam_ := 2 * m.M_PI, isReversed_ := false }

/-! ## `createSplineCurve` -/

/-- Modelled from the spec: the data of a `SplineCurve` of the absent
`SplineCurve.h`, as its constructor
`SplineCurve(ncoefs, order, knots, coefs, dim, rational)` stores them; for a
rational curve `coefs` holds `dim + 1` numbers per control point, the
weighted coordinates followed by the weight. -/
structure SplineCurve (K : Type) where
  ncoefs : Nat
  order : Nat
  knots : List K
  coefs : List K
  dim : Nat
  rational : Bool

section createSplineCurve

variable {K : Type} [LinearOrderedField K]

/-- The array `et[12]` of `createSplineCurve` after the knot-vector loop. -/
def Ellipse.et (m : Libm K) : List K :=
  let factor := 2 * m.M_PI
  let et : List K := List.replicate 12 0
  let et := et.set 0 0
  let et := [1, 2].foldl (fun et i =>
    ((((et.set i 0).set (2 + i) (factor * 0.25)).set (4 + i) (factor * 0.5)).set
      (6 + i) (factor * 0.75)).set (8 + i) factor) et
  et.set 11 factor

/-- The array `coef[36]` of `createSplineCurve` after the vertices have been
written (entries the code does not write are left `0`). -/
def Ellipse.coef (m : Libm K) (e : Ellipse K) : List K :=
  let tworoot := m.sqrt 2
  let weight := 1 / tworoot
  let coef : List K := List.replicate 36 0
  let dim := e.dimension
  let axis1 := Point.smul e.r1_ e.vec1_
  let axis2 := Point.smul e.r2_ e.vec2_
  if dim = 2 then
    let coef := (List.range 2).foldl (fun coef i =>
      ((((((((coef.set i (e.centre_.get i + axis1.get i)).set
        (3 + i) (weight * (e.centre_.get i + axis1.get i + axis2.get i))).set
        (6 + i) (e.centre_.get i + axis2.get i)).set
        (9 + i) (weight * (e.centre_.get i - axis1.get i + axis2.get i))).set
        (12 + i) (e.centre_.get i - axis1.get i)).set
        (15 + i) (weight * (e.centre_.get i - axis1.get i - axis2.get i))).set
        (18 + i) (e.centre_.get i - axis2.get i)).set
        (21 + i) (weight * (e.centre_.get i + axis1.get i - axis2.get i))).set
        (24 + i) (e.centre_.get i + axis1.get i)) coef
    ((((((((coef.set 2 1).set 5 weight).set 8 1).set 11 weight).set 14 1).set
      17 weight).set 20 1).set 23 weight).set 26 1
  else
    let coef := (List.range 3).foldl (fun coef i =>
      ((((((((coef.set i (e.centre_.get i + axis1.get i)).set
        (4 + i) (weight * (e.centre_.get i + axis1.get i + axis2.get i))).set
        (8 + i) (e.centre_.get i + axis2.get i)).set
        (12 + i) (weight * (e.centre_.get i - axis1.get i + axis2.get i))).set
        (16 + i) (e.centre_.get i - axis1.get i)).set
        (20 + i) (weight * (e.centre_.get i - axis1.get i - axis2.get i))).set
        (24 + i) (e.centre_.get i - axis2.get i)).set
        (28 + i) (weight * (e.centre_.get i + axis1.get i - axis2.get i))).set
        (32 + i) (e.centre_.get i + axis1.get i)) coef
    ((((((((coef.set 3 1).set 7 weight).set 11 1).set 15 weight).set 19 1).set
      23 weight).set 27 1).set 31 weight).set 35 1

/-- The local `curve` of `createSplineCurve`:
`SplineCurve curve(ncoefs, order, et, coef, dim, rational)` with `ncoefs = 9`,
`order = 3`, `rational = true`; the constructor takes the first
`ncoefs * (dim + 1)` numbers of `coef`. -/
def Ellipse.canonicalCurve (m : Libm K) (e : Ellipse K) : SplineCurve K :=
  { ncoefs := 9, order := 3, knots := Ellipse.et m,
    coefs := (e.coef m).take (9 * (e.dimension + 1)),
    dim := e.dimension, rational := true }

/-- Modelled from the spec: the weight of control point `k` of a rational
`SplineCurve`, the last of its `dim + 1` stored numbers. -/
def SplineCurve.weight (c : SplineCurve K) (k : Nat) : K :=
  c.coefs.getD (k * (c.dim + 1) + c.dim) 0

/-- Modelled from the spec: stored (weighted) coordinate `i` of control
point `k` of a rational `SplineCurve`. -/
def SplineCurve.rcoef (c : SplineCurve K) (k i : Nat) : K :=
  c.coefs.getD (k * (c.dim + 1) + i) 0

/-- Side of control point `k` of the canonical curve along `axis1`:
`1, 1, 0, -1, -1, -1, 0, 1, 1`. -/
def axis1Sign (k : Nat) : K := ([1, 1, 0, -1, -1, -1, 0, 1, 1] : List K).getD k 0

/-- Side of control point `k` of the canonical curve along `axis2`:
`0, 1, 1, 1, 0, -1, -1, -1, 0`. -/
def axis2Sign (k : Nat) : K := ([0, 1, 1, 1, 0, -1, -1, -1, 0] : List K).getD k 0

/-- Coordinate `i` of the position of control point `k` of the canonical
curve: the centre moved by `axis1 = r1_ * vec1_` and `axis2 = r2_ * vec2_` to
a corner or an edge midpoint of the box around the ellipse. -/
def Ellipse.controlPosition (e : Ellipse K) (k i : Nat) : K :=
  e.centre_.get i + axis1Sign k * (Point.smul e.r1_ e.vec1_).get i +
    axis2Sign k * (Point.smul e.r2_ e.vec2_).get i

/-- Modelled from the spec: knot `i` of a knot vector. -/
def knotAt (knots : List K) (i : Nat) : K := knots.getD i 0

/-- Modelled from the spec: the B-spline basis function number `i` of the
given order on a knot vector, by the Cox-de Boor recursion (a quotient with
denominator `0` counts as `0`).  The order-1 function is the indicator of the
knot interval `[knots[i], knots[i+1])`; the last non-empty interval also
contains the end of the knot vector, so that a curve can be evaluated on its
whole closed domain. -/
def bsplineBasis (knots : List K) : Nat → Nat → K → K
  | 0, _, _ => 0
  | 1, i, t =>
    if (knotAt knots i ≤ t ∧ t < knotAt knots (i + 1)) ∨
        (t = knots.getLastD 0 ∧ knotAt knots i < knotAt knots (i + 1) ∧
          knotAt knots (i + 1) = knots.getLastD 0) then 1 else 0
  | k + 2, i, t =>
    (t - knotAt knots i) / (knotAt knots (i + k + 1) - knotAt knots i) *
        bsplineBasis knots (k + 1) i t +
      (knotAt knots (i + k + 2) - t) / (knotAt knots (i + k + 2) - knotAt knots (i + 1)) *
        bsplineBasis knots (k + 1) (i + 1) t

/-- Modelled from the spec: the denominator of a rational `SplineCurve` at
parameter `t`, the B-spline combination of its weights. -/
def SplineCurve.denominator (c : SplineCurve K) (t : K) : K :=
  ((List.range c.ncoefs).map fun k => bsplineBasis c.knots c.order k t * c.weight k).sum

/-- Modelled from the spec: numerator `i` of a rational `SplineCurve` at
parameter `t`, the B-spline combination of its weighted coordinates. -/
def SplineCurve.numerator (c : SplineCurve K) (i : Nat) (t : K) : K :=
  ((List.range c.ncoefs).map fun k => bsplineBasis c.knots c.order k t * c.rcoef k i).sum

/-- Modelled from the spec: `SplineCurve::point(pt, tpar)` of a rational
curve of the absent `SplineCurve.h`: the homogeneous point is evaluated and
its coordinates are divided by the weight. -/
def SplineCurve.point (c : SplineCurve K) (t : K) : Point K :=
  ⟨(List.range c.dim).map fun i => c.numerator i t / c.denominator t⟩

/-- Modelled from the spec: `ElementaryCurve::getReversedParameter(t)` of the
absent base class: for a reversed curve the parameter is mirrored in the
interval, `t ↦ startparam_ + endparam_ - t`. -/
def Ellipse.getReversedParameter (e : Ellipse K) (t : K) : K :=
  if e.isReversed_ then e.startparam_ + e.endparam_ - t else t

/-- The member function `Ellipse::point(Point& pt, double tpar)`. -/
def Ellipse.point (m : Libm K) (e : Ellipse K) (tpar : K) : Point K :=
  let tpar := e.getReversedParameter tpar
  (e.centre_.add (Point.smul (e.r1_ * m.cos tpar) e.vec1_)).add
    (Point.smul (e.r2_ * m.sin tpar) e.vec2_)

/-- The value that the derivative loop of
`Ellipse::point(pts, tpar, derivs, from_right)` stores in `pts[ki]`,
`ki ≥ 1`: with `sin_t`, `cos_t` taken at the reversed parameter, the signs
`sgn1`, `sgn2` read off `ki % 4`, and the factor `sgnrev` applied for a
reversed ellipse. -/
def Ellipse.derivEntry (m : Libm K) (e : Ellipse K) (tpar : K) (ki : Nat) : Point K :=
  let tpar := e.getReversedParameter tpar
  let sin_t := m.sin tpar
  let cos_t := m.cos tpar
  let sgn1 : K := if ki % 4 = 1 ∨ ki % 4 = 2 then -1 else 1
  let sgn2 : K := if ki % 4 = 2 ∨ ki % 4 = 3 then -1 else 1
  let pt :=
    if ki % 2 = 1 then
      (Point.smul (sgn1 * e.r1_ * sin_t) e.vec1_).add (Point.smul (sgn2 * e.r2_ * cos_t) e.vec2_)
    else
      (Point.smul (sgn1 * e.r1_ * cos_t) e.vec1_).add (Point.smul (sgn2 * e.r2_ * sin_t) e.vec2_)
  if e.isReversed_ then
    let sgnrev : K := if ki % 2 = 1 then -1 else 1
    Point.smul sgnrev pt
  else pt

/-- The member function
`Ellipse::point(std::vector<Point>& pts, double tpar, int derivs, bool from_right)`:
the entries `pts[0], ..., pts[derivs]` it leaves (`derivs ≥ 0`, `pts` large
enough). -/
def Ellipse.pointDerivs (m : Libm K) (e : Ellipse K) (tpar : K) (derivs : Nat) :
    List (Point K) :=
  let pt0 := e.point m tpar
  if derivs = 0 then [pt0]
  else pt0 :: (List.range derivs).map fun j => e.derivEntry m tpar (j + 1)

/-- The two points `pt1`, `pt2` that `createSplineCurve` hands to
`closestPoint`: the ellipse points at `startparam_` and `endparam_`, swapped
for a reversed ellipse. -/
def Ellipse.closestPointTargets (m : Libm K) (e : Ellipse K) : Point K × Point K :=
  let pt1 := e.point m e.startparam_
  let pt2 := e.point m e.endparam_
  if e.isReversed_ then (pt2, pt1) else (pt1, pt2)

/-- Modelled from the spec: the point at parameter `t` of the curve that
`createSplineCurve` returns, given the parameters `clo_t1`, `clo_t2` that the
two `closestPoint` calls found on the canonical curve.  The absent
`SplineCurve` operations are taken as exact: `subCurve(clo_t1, clo_t2)` is
the canonical curve between the two parameters, the call
`rescale(startparam_, endparam_)` maps the new domain linearly onto
`[clo_t1, clo_t2]`, and `reverseParameterDirection()` (for a reversed
ellipse) mirrors the parameter in the domain. -/
def Ellipse.createSplineCurvePoint (m : Libm K) (e : Ellipse K) (clo_t1 clo_t2 t : K) :
    Point K :=
  let t := if e.isReversed_ then e.startparam_ + e.endparam_ - t else t
  (e.canonicalCurve m).point
    (clo_t1 + (t - e.startparam_) / (e.endparam_ - e.startparam_) * (clo_t2 - clo_t1))

end createSplineCurve

/-! ## `closestPoint` -/

section closestPoint

variable {K : Type} [LinearOrderedField K]

/-- Modelled from the spec: `Point::dist(const Point&)` of the absent
`Point.h`, the Euclidean distance of two points. -/
def Point.dist (m : Libm K) (p q : Point K) : K := (p.sub q).length m

/-- The two operations of other classes that `Ellipse::closestPoint` calls,
from the absent `Circle.h` and `ParamCurve.h`: they are taken as arbitrary
functions of the arguments handed to them.
`circleClosestPoint radius centre normal vec1 isReversed startparam endparam
pt tmin tmax` stands for `Circle(radius, centre, normal, vec1, isReversed)`,
then `setParamBounds(startparam, endparam)` and
`closestPoint(pt, tmin, tmax, guess_param, clo_pt, clo_dist)` on this circle:
the three values written, or the message of an exception.
`closestPointGeneric crv pt tmin tmax guess_param` stands for
`ParamCurve::closestPointGeneric(pt, tmin, tmax, guess_param, clo_t, clo_pt,
clo_dist)` on the curve `crv`: the values it writes to `clo_t`, `clo_pt` and
`clo_dist`, or the message of an exception. -/
structure ClosestPointHelpers (K : Type) where
  circleClosestPoint :
    K → Point K → Point K → Point K → Bool → K → K → Point K → K → K →
      Except String (K × Point K × K)
  closestPointGeneric :
    Ellipse K → Point K → K → K → K → Except String (K × Point K × K)

/-- The member function `Ellipse::closestPoint(pt, tmin, tmax, clo_t, clo_pt,
clo_dist, seed)`: the values `(clo_t, clo_pt, clo_dist)` it leaves, or the
message of an exception of one of the two helpers.  The argument `seed` is a
`double const*`, possibly null. -/
def Ellipse.closestPoint (m : Libm K) (h : ClosestPointHelpers K) (e : Ellipse K)
    (pt : Point K) (tmin tmax : K) (_seed : Option K) : Except String (K × Point K × K) :=
  let radius := e.centre_.dist m pt
  match h.circleClosestPoint radius e.centre_ e.normal_ e.vec1_ e.isReversed_
      e.startparam_ e.endparam_ pt tmin tmax with
  | .error msg => .error msg
  | .ok (guess_param, _, _) => h.closestPointGeneric e pt tmin tmax guess_param

end closestPoint

/-! ## The Gordon-surface driver `testGordonSurface.C` -/

/-- The digits loop of the `atoi` of `<cstdlib>`: reads decimal digits up to
the first other character. -/
def atoiDigits : List Char → Int → Int
  | [], acc => acc
  | c :: cs, acc =>
    if c.isDigit then atoiDigits cs (acc * 10 + ((c.toNat : Int) - 48)) else acc

/-- The `atoi` of `<cstdlib>`: leading white space, an optional sign, then
decimal digits; `0` when there is no digit.  (Values are not reduced to the
range of `int`.) -/
def atoi (s : String) : Int :=
  match s.toList.dropWhile Char.isWhitespace with
  | '-' :: ds => -(atoiDigits ds 0)
  | '+' :: ds => atoiDigits ds 0
  | ds => atoiDigits ds 0

/-- How a run of `main` ends. -/
inductive MainOutcome where
  /-- The macro `ALWAYS_ERROR_IF` threw. -/
  | thrown (msg : String)
  /-- The entry `argv[index]` was read with `index` outside `0 .. argc - 1`: undefined
  behaviour. -/
  | argvOutOfBounds (index : Int)
  /-- The function `main` returned `status` without calling `createGordonSurface`. -/
  | returnedEarly (status : Int)
  /-- The counts were accepted: `main` goes on to build the Gordon surface
  from `nmb_u_crvs` u-curves and `nmb_v_crvs` v-curves. -/
  | buildsSurface (nmb_u_crvs nmb_v_crvs : Int)
deriving DecidableEq, Repr

/-- The function `main(argc, argv)` of `testGordonSurface.C` up to the call of
`createGordonSurface`, with `argc = argv.length`.  The input surface file
`argv[1]` is taken to be readable. -/
def main (argv : List String) : MainOutcome :=
  let argc : Int := argv.length
  if argc < 6 then
    .thrown "Usage: surfin nmb_u_par par_u nmb_v_par par_v surfout"
  else
    let nmb_u_crvs := atoi (argv.getD 2 "")
    let index := 2 + nmb_u_crvs + 1
    if index < 0 ∨ argc ≤ index then
      .argvOutOfBounds index
    else
      let nmb_v_crvs := atoi (argv.getD index.toNat "")
      if nmb_u_crvs + nmb_v_crvs + 5 ≠ argc then
        .returnedEarly (-1)
      else
        .buildsSurface nmb_u_crvs nmb_v_crvs

/-! ## Lofting and the Gordon surface -/

section gordon

variable {K : Type} [Field K] {V : Type} [AddCommGroup V] [Module K V]

/-- Modelled from the spec: the surface of the LoftEngine (plain mode) of the
absent `LoftSurfaceCreator.C`/`CoonsPatchGen.C`, for curves taken as
functions of their parameter into the coefficient space `V` (homogeneous
coordinates for rational curves).  Each curve is carried across the family
by the transversal basis built from the assigned parameters:
`blend params i` is the basis function that belongs to curve `i`.  The value
at parameter `t` along the curves and `s` across them. -/
def loftSurface (blend : List K → Nat → K → K) (curves : List (K → V)) (params : List K)
    (t s : K) : V :=
  Finset.sum (Finset.range curves.length) fun i => blend params i s • curves.getD i 0 t

/-- Modelled from the spec: the bivariate tensor-product interpolant of the
intersection grid alone, on the transversal bases of the two families:
`grid i j` is the point where u-curve `i` meets v-curve `j`. -/
def tensorInterpolant (blend : List K → Nat → K → K) (grid : Nat → Nat → V)
    (u_params v_params : List K) (u v : K) : V :=
  Finset.sum (Finset.range u_params.length) fun i =>
    Finset.sum (Finset.range v_params.length) fun j =>
      (blend u_params i v * blend v_params j u) • grid i j

/-- Modelled from the spec: `CoonsPatchGen::createGordonSurface(mesh_curves,
params, nmb_u_crvs, use_param_values)` of the absent `CoonsPatchGen.C`, as
the driver calls it: the first `nmb_u_crvs` curves of `mesh_curves` are the
u-curves (running in `u`, at the constant `v` given by their entry of
`params`), the remaining ones the v-curves (running in `v`, at constant `u`).
The result is the Boolean sum of the spec, `Loft_u + Loft_v - TensorInterpolant`,
as a function of `(u, v)`, the grid point `(i, j)` being read off u-curve `i`
at the parameter of v-curve `j`; it fails when the number of parameters or
the stated number of u-curves does not fit the number of curves. -/
def createGordonSurface (blend : List K → Nat → K → K) (mesh_curves : List (K → V))
    (params : List K) (nmb_u_crvs : Nat) : Except String (K → K → V) :=
  if params.length ≠ mesh_curves.length ∨ mesh_curves.length < nmb_u_crvs then
    .error "PreconditionViolation"
  else
    let u_crvs := mesh_curves.take nmb_u_crvs
    let v_crvs := mesh_curves.drop nmb_u_crvs
    let u_params := params.take nmb_u_crvs
    let v_params := params.drop nmb_u_crvs
    let grid : Nat → Nat → V := fun i j => u_crvs.getD i 0 (v_params.getD j 0)
    .ok fun u v =>
      loftSurface blend u_crvs u_params u v + loftSurface blend v_crvs v_params v u -
        tensorInterpolant blend grid u_params v_params u v

/-- Modelled from the spec: loft exactness, as a property of the transversal
basis for one parameter sequence: basis function `i` is `1` at parameter `i`
and `0` at the other assigned parameters. -/
def IsInterpolatingBasis (blend : List K → Nat → K → K) (params : List K) : Prop :=
  ∀ i k : Nat, i < params.length → k < params.length →
    blend params i (params.getD k 0) = if i = k then 1 else 0

/-- A transversal basis to run the model with: the Lagrange polynomials of
the assigned parameters. -/
def lagrangeBasis [DecidableEq K] (params : List K) (i : Nat) (t : K) : K :=
  Finset.prod (Finset.range params.length) fun k =>
    if k = i then 1 else (t - params.getD k 0) / (params.getD i 0 - params.getD k 0)

end gordon

/-- A consistent net on the surface `(u, v) ↦ u + v + u v`: the u-curves at
`v = 0` and `v = 1`, then the v-curves at `u = 0` and `u = 1`. -/
def bilinearNet : List (ℚ → ℚ) :=
  [fun u => u, fun u => 1 + 2 * u, fun v => v, fun v => 1 + 2 * v]

/-- The parameters of the curves of `bilinearNet`. -/
def bilinearParams : List ℚ := [0, 1, 0, 1]

/-! ## Loft parameters (`LoftSurfaceCreator.h`) -/

section loftParams

variable {K : Type} [LinearOrderedField K]

/-- Modelled from the spec: the quadratic mean (root mean square), over
matching control-point indices, of the distance between corresponding
control points of two curves `S` and `T`, each given by its control points
(the `Q` of the comment on `makeLoftParams` in `LoftSurfaceCreator.h`). -/
def quadraticMeanDistance (m : Libm K) (S T : List (Point K)) : K :=
  m.sqrt ((List.zipWith (fun p q => (p.dist m q) ^ 2) S T).sum / S.length)

/-- Modelled from the spec: `LoftSurfaceCreator::makeLoftParams(first_curve,
nmb_crvs, param_length, params)`, which `LoftSurfaceCreator.h` only declares
(its body is in the absent `LoftSurfaceCreator.C`): the computed `params`,
for the `nmb_crvs` curves given by their control points.  The gap between
curves `i` and `i + 1` is their quadratic mean distance, parameter `i` is the
sum of the gaps before curve `i`, and all are rescaled so that the last is
`param_length`.  Curves of different control-point counts are a
PreconditionViolation. -/
def makeLoftParams (m : Libm K) (curves : List (List (Point K))) (param_length : K) :
    Except String (List K) :=
  if ∀ c ∈ curves, c.length = (curves.headD []).length then
    let gaps := (List.range (curves.length - 1)).map fun i =>
      quadraticMeanDistance m (curves.getD i []) (curves.getD (i + 1) [])
    let scale := param_length / gaps.sum
    .ok ((List.range curves.length).map fun i => (gaps.take i).sum * scale)
  else
    .error "PreconditionViolation"

end loftParams

/-- Three unified curves with two control points each, in the plane:
horizontal segments at heights `0`, `1` and `3`. -/
def loftExample {K : Type} [LinearOrderedField K] : List (List (Point K)) :=
  [[⟨[0, 0]⟩, ⟨[1, 0]⟩], [⟨[0, 1]⟩, ⟨[1, 1]⟩], [⟨[0, 3]⟩, ⟨[1, 3]⟩]]

/-! ## Theorems -/

section setParamBoundsTheorems

variable {K : Type} [LinearOrderedField K]

theorem fabs_lt_iff (x f : K) : fabs x < f ↔ -f < x ∧ x < f := by
  unfold fabs
  split_ifs with h
  · constructor
    · intro h1; constructor <;> linarith
    · intro h1; linarith [h1.1]
  · push_neg at h
    constructor
    · intro h1; constructor <;> linarith
    · intro h1; exact h1.2

theorem fuzzy_pos : (0 : K) < fuzzy := by
  unfold fuzzy; positivity

theorem snapParam_of_not_nearSnap (m : Libm K) (par : K) (h : ¬ nearSnap m par) :
    snapParam m par = par := by
  unfold nearSnap at h
  push_neg at h
  unfold snapParam
  rw [if_neg (not_lt.mpr h.1), if_neg (not_lt.mpr h.2)]

theorem setParamBounds_thrown_iff (m : Libm K) (e : Ellipse K) (sp ep : K) :
    (e.setParamBounds m sp ep).thrown ≠ none ↔
      malformed m (snapParam m sp) (snapParam m ep) := by
  unfold Ellipse.setParamBounds malformed
  simp only []
  split_ifs with h1 h2 h3
  · simp [h1]
  · simp only [ne_eq, reduceCtorEq, not_false_eq_true, true_iff]
    rcases h2 with h2 | h2
    · exact Or.inr (Or.inl h2)
    · exact Or.inr (Or.inr (Or.inl h2))
  · simp [h3]
  · push_neg at h2
    simp only [ne_eq, not_true_eq_false, false_iff, not_or]
    exact ⟨h1, not_lt.mpr h2.1, not_lt.mpr h2.2, h3⟩

theorem snapParam_cases (m : Libm K) (p : K) :
    (snapParam m p = 0 ∧ -fuzzy < p ∧ p < fuzzy) ∨
    (snapParam m p = 2 * m.M_PI ∧ -fuzzy < 2 * m.M_PI - p ∧ 2 * m.M_PI - p < fuzzy) ∨
    (snapParam m p = p ∧ (p ≤ -fuzzy ∨ fuzzy ≤ p) ∧
      (2 * m.M_PI - p ≤ -fuzzy ∨ fuzzy ≤ 2 * m.M_PI - p)) := by
  unfold snapParam
  simp only [fabs_lt_iff]
  split_ifs with a b
  · exact Or.inl ⟨rfl, a⟩
  · exact Or.inr (Or.inl ⟨rfl, b⟩)
  · rw [not_and_or, not_lt, not_lt] at a b
    exact Or.inr (Or.inr ⟨rfl, a, b⟩)

theorem snapParam_order (m : Libm K) (hpi : fuzzy ≤ m.M_PI) (sp ep : K) (h : sp ≥ ep) :
    snapParam m sp ≥ snapParam m ep := by
  have hf : (0 : K) < fuzzy := fuzzy_pos
  rcases snapParam_cases m sp with ⟨hs, h1, h2⟩ | ⟨hs, h1, h2⟩ | ⟨hs, h1 | h1, h2 | h2⟩ <;>
  rcases snapParam_cases m ep with ⟨he, h3, h4⟩ | ⟨he, h3, h4⟩ | ⟨he, h3 | h3, h4 | h4⟩ <;>
  rw [hs, he] <;> linarith

theorem setParamBounds_malformed_of_not_nearSnap (m : Libm K) (e : Ellipse K) (sp ep : K)
    (hs : ¬ nearSnap m sp) (he : ¬ nearSnap m ep) (h : malformed m sp ep) :
    (e.setParamBounds m sp ep).thrown ≠ none := by
  rw [setParamBounds_thrown_iff, snapParam_of_not_nearSnap m sp hs,
    snapParam_of_not_nearSnap m ep he]
  exact h

theorem real_snapParam_one :
    snapParam (Libm.mk Real.pi Real.sqrt Real.cos Real.sin) (1 : ℝ) = 1 := by
  have hpi := Real.pi_gt_three
  apply snapParam_of_not_nearSnap
  unfold nearSnap fuzzy
  simp only [fabs_lt_iff]
  rintro (⟨_, h⟩ | ⟨_, h⟩)
  · norm_num at h
  · norm_num at h
    linarith

theorem real_snapParam_above_two_pi :
    snapParam (Libm.mk Real.pi Real.sqrt Real.cos Real.sin) (2 * Real.pi + 1 / 10 ^ 13) =
      2 * Real.pi := by
  have hpi := Real.pi_gt_three
  unfold snapParam fuzzy
  simp only [fabs_lt_iff]
  rw [if_neg, if_pos]
  · constructor <;> norm_num
  · rintro ⟨_, h⟩
    norm_num at h
    linarith

/-- C1, as stated, fails: over the reals, the request `startpar = 1`,
`endpar = 2π + 1e-13` is malformed (`endpar > 2π`), yet `setParamBounds` does
not raise; it stores the interval `(1, 2π)`. -/
theorem setParamBounds_accepts_end_above_two_pi :
    malformed (Libm.mk Real.pi Real.sqrt Real.cos Real.sin) 1 (2 * Real.pi + 1 / 10 ^ 13) ∧
    ((unitCircle (Libm.mk Real.pi Real.sqrt Real.cos Real.sin)).setParamBounds
        (Libm.mk Real.pi Real.sqrt Real.cos Real.sin) 1 (2 * Real.pi + 1 / 10 ^ 13)).thrown
      = none ∧
    ((unitCircle (Libm.mk Real.pi Real.sqrt Real.cos Real.sin)).setParamBounds
        (Libm.mk Real.pi Real.sqrt Real.cos Real.sin) 1 (2 * Real.pi + 1 / 10 ^ 13)).state.startparam_
      = 1 ∧
    ((unitCircle (Libm.mk Real.pi Real.sqrt Real.cos Real.sin)).setParamBounds
        (Libm.mk Real.pi Real.sqrt Real.cos Real.sin) 1 (2 * Real.pi + 1 / 10 ^ 13)).state.endparam_
      = 2 * Real.pi := by
  have hpi := Real.pi_gt_three
  have hm : malformed (Libm.mk Real.pi Real.sqrt Real.cos Real.sin) 1
      (2 * Real.pi + 1 / 10 ^ 13) := by
    unfold malformed
    right; right; left
    show 2 * Real.pi + 1 / 10 ^ 13 > 2 * Real.pi
    norm_num
  refine ⟨hm, ?_⟩
  unfold Ellipse.setParamBounds
  simp only [real_snapParam_one, real_snapParam_above_two_pi]
  rw [if_neg (by simp only [ge_iff_le, not_le]; linarith),
    if_neg (by simp only [not_or, not_lt, gt_iff_lt, lt_self_iff_false, not_false_eq_true,
      and_true]; linarith),
    if_neg (by simp only [gt_iff_lt, not_lt]; linarith)]
  exact ⟨rfl, rfl, rfl⟩

/-- C1 (amended): `setParamBounds` first snaps each argument (to `0` within
`1e-12` of `0`, else to `2π` within `1e-12` of `2π`) and raises exactly when
the snapped pair is malformed; every request with `startpar ≥ endpar` is
rejected, and so is every malformed request neither of whose arguments lies
within the snapping distance of `0` or `2π`. -/
theorem setParamBounds_rejects_malformed_after_snapping (m : Libm K)
    (hpi : fuzzy ≤ m.M_PI) (e : Ellipse K) (sp ep : K) :
    ((e.setParamBounds m sp ep).thrown ≠ none ↔
        malformed m (snapParam m sp) (snapParam m ep)) ∧
    (sp ≥ ep → (e.setParamBounds m sp ep).thrown ≠ none) ∧
    (malformed m sp ep → ¬ nearSnap m sp → ¬ nearSnap m ep →
        (e.setParamBounds m sp ep).thrown ≠ none) := by
  refine ⟨setParamBounds_thrown_iff m e sp ep, ?_, ?_⟩
  · intro h
    rw [setParamBounds_thrown_iff]
    exact Or.inl (snapParam_order m hpi sp ep h)
  · intro h hs he
    exact setParamBounds_malformed_of_not_nearSnap m e sp ep hs he h

/-- Witness for C1 (amended), over `ℚ` with `M_PI = 355/113`: the request
`(2, 1)` is rejected, and so is `(1, 7)`, whose arguments are far from `0`
and `2π`. -/
theorem setParamBounds_rejects_malformed_after_snapping_witness :
    (fuzzy ≤ (355 / 113 : ℚ)) ∧
    ((unitCircle (Libm.mk (355 / 113 : ℚ) id id id)).setParamBounds
        (Libm.mk (355 / 113 : ℚ) id id id) 2 1).thrown ≠ none ∧
    ((unitCircle (Libm.mk (355 / 113 : ℚ) id id id)).setParamBounds
        (Libm.mk (355 / 113 : ℚ) id id id) 1 7).thrown ≠ none :=
  ⟨by unfold fuzzy; norm_num,
   (setParamBounds_rejects_malformed_after_snapping (Libm.mk (355 / 113 : ℚ) id id id)
      (by unfold fuzzy; norm_num) (unitCircle _) 2 1).2.1 (by norm_num),
   (setParamBounds_rejects_malformed_after_snapping (Libm.mk (355 / 113 : ℚ) id id id)
      (by unfold fuzzy; norm_num) (unitCircle _) 1 7).2.2
      (by unfold malformed; norm_num)
      (by unfold nearSnap fuzzy; simp only [fabs_lt_iff]; norm_num)
      (by unfold nearSnap fuzzy; simp only [fabs_lt_iff]; norm_num)⟩

/-- C2: `setParamBounds` is atomic: whenever it raises, the ellipse it
leaves behind is the ellipse it was called on, field by field. -/
theorem setParamBounds_atomic (m : Libm K) (e : Ellipse K) (sp ep : K)
    (h : (e.setParamBounds m sp ep).thrown ≠ none) :
    (e.setParamBounds m sp ep).state = e := by
  unfold Ellipse.setParamBounds at h ⊢
  simp only [] at h ⊢
  split_ifs with h1 h2 h3
  · rfl
  · rfl
  · rfl
  · rw [if_neg h1, if_neg h2, if_neg h3] at h
    exact absurd rfl h

/-- Witness for C2, over `ℚ` with `M_PI = 355/113`: the request `(2, 1)` on
the unit circle raises and leaves the interval `[0, 2π]` in place. -/
theorem setParamBounds_atomic_witness :
    ((unitCircle (Libm.mk (355 / 113 : ℚ) id id id)).setParamBounds
        (Libm.mk (355 / 113 : ℚ) id id id) 2 1).thrown ≠ none ∧
    ((unitCircle (Libm.mk (355 / 113 : ℚ) id id id)).setParamBounds
        (Libm.mk (355 / 113 : ℚ) id id id) 2 1).state =
      unitCircle (Libm.mk (355 / 113 : ℚ) id id id) :=
  ⟨(setParamBounds_thrown_iff _ _ 2 1).mpr
      (Or.inl (snapParam_order _ (by unfold fuzzy; norm_num) 2 1 (by norm_num))),
   setParamBounds_atomic (Libm.mk (355 / 113 : ℚ) id id id) (unitCircle _) 2 1
    ((setParamBounds_thrown_iff _ _ 2 1).mpr
      (Or.inl (snapParam_order _ (by unfold fuzzy; norm_num) 2 1 (by norm_num))))⟩

end setParamBoundsTheorems

section sqrtLemmas

variable {K : Type} [LinearOrderedField K]

theorem real_sqrtExact : (Libm.mk Real.pi Real.sqrt Real.cos Real.sin).SqrtExact :=
  ⟨fun x _ => Real.sqrt_nonneg x, fun _ hx => Real.mul_self_sqrt hx⟩

theorem Libm.SqrtExact.sqrt_eq_zero_iff {m : Libm K} (hm : m.SqrtExact) {x : K} (hx : 0 ≤ x) :
    m.sqrt x = 0 ↔ x = 0 := by
  constructor
  · intro h
    have := hm.sqrt_mul_self x hx
    rw [h] at this
    simpa using this.symm
  · intro h
    subst h
    exact mul_self_eq_zero.mp (hm.sqrt_mul_self 0 le_rfl)

theorem Libm.SqrtExact.sqrt_one {m : Libm K} (hm : m.SqrtExact) : m.sqrt 1 = 1 := by
  have h1 := hm.sqrt_mul_self 1 zero_le_one
  have h2 := hm.sqrt_nonneg 1 zero_le_one
  have h3 : (m.sqrt 1 - 1) * (m.sqrt 1 + 1) = 0 := by linear_combination h1
  rcases mul_eq_zero.mp h3 with h | h
  · linarith
  · linarith

theorem Point.dot_self_nonneg (p : Point K) : 0 ≤ p.dot p := by
  unfold Point.dot
  apply List.sum_nonneg
  intro x hx
  rw [List.mem_iff_get] at hx
  obtain ⟨i, rfl⟩ := hx
  simp only [List.get_eq_getElem, List.getElem_zipWith]
  exact mul_self_nonneg _

end sqrtLemmas

section dimensionLemmas

theorem Point.exists_of_dimension_three {K : Type} (p : Point K) (h : p.dimension = 3) :
    ∃ x y z, p = ⟨[x, y, z]⟩ := by
  obtain ⟨l⟩ := p
  match l, h with
  | [x, y, z], _ => exact ⟨x, y, z, rfl⟩

theorem Point.exists_of_dimension_two {K : Type} (p : Point K) (h : p.dimension = 2) :
    ∃ x y, p = ⟨[x, y]⟩ := by
  obtain ⟨l⟩ := p
  match l, h with
  | [x, y], _ => exact ⟨x, y, rfl⟩

end dimensionLemmas

section frameLemmas

variable {K : Type} [LinearOrderedField K]

theorem Libm.SqrtExact.eq_one_of_sqrt_eq_one {m : Libm K} (hm : m.SqrtExact) {x : K}
    (hx : 0 ≤ x) (h : m.sqrt x = 1) : x = 1 := by
  have := hm.sqrt_mul_self x hx
  rw [h] at this
  simpa using this.symm

theorem Point.length_eq_one_of_dot {m : Libm K} (hm : m.SqrtExact) (p : Point K)
    (h : p.dot p = 1) : p.length m = 1 := by
  unfold Point.length
  rw [h]
  exact hm.sqrt_one

theorem Point.normalize_three (m : Libm K) (x y z : K) :
    (Point.mk [x, y, z]).normalize m =
      ⟨[x / (Point.mk [x, y, z]).length m, y / (Point.mk [x, y, z]).length m,
        z / (Point.mk [x, y, z]).length m]⟩ := rfl

theorem Point.normalize_two (m : Libm K) (x y : K) :
    (Point.mk [x, y]).normalize m =
      ⟨[x / (Point.mk [x, y]).length m, y / (Point.mk [x, y]).length m]⟩ := rfl

theorem Point.dot_three (a b c x y z : K) :
    (Point.mk [a, b, c]).dot ⟨[x, y, z]⟩ = a * x + b * y + c * z := by
  simp [Point.dot, add_assoc]

theorem Point.dot_two (a b x y : K) :
    (Point.mk [a, b]).dot ⟨[x, y]⟩ = a * x + b * y := by
  simp [Point.dot]

theorem Point.cross_three (a b c x y z : K) :
    (Point.mk [a, b, c]).cross ⟨[x, y, z]⟩ =
      ⟨[b * z - c * y, c * x - a * z, a * y - b * x]⟩ := by
  simp [Point.cross, Point.get]

/-- The frame built from a unit vector `n` and a non-zero vector `t`
orthogonal to it: `t/|t|`, `(n × t)/|n × t|`, `n`. -/
theorem frame_of_orthogonal {m : Libm K} (hm : m.SqrtExact) (n0 n1 n2 t0 t1 t2 : K)
    (hn : n0 * n0 + n1 * n1 + n2 * n2 = 1) (ht : t0 * n0 + t1 * n1 + t2 * n2 = 0)
    (hL : (Point.mk [t0, t1, t2]).length m ≠ 0) :
    ((Point.mk [t0, t1, t2]).normalize m).length m = 1 ∧
    (((Point.mk [n0, n1, n2]).cross ⟨[t0, t1, t2]⟩).normalize m).length m = 1 ∧
    ((Point.mk [t0, t1, t2]).normalize m).dot
      (((Point.mk [n0, n1, n2]).cross ⟨[t0, t1, t2]⟩).normalize m) = 0 ∧
    ((Point.mk [t0, t1, t2]).normalize m).dot ⟨[n0, n1, n2]⟩ = 0 ∧
    (((Point.mk [n0, n1, n2]).cross ⟨[t0, t1, t2]⟩).normalize m).dot ⟨[n0, n1, n2]⟩ = 0 ∧
    ((Point.mk [t0, t1, t2]).normalize m).cross
      (((Point.mk [n0, n1, n2]).cross ⟨[t0, t1, t2]⟩).normalize m) = ⟨[n0, n1, n2]⟩ := by
  have hc : ((Point.mk [n0, n1, n2]).cross ⟨[t0, t1, t2]⟩).length m =
      (Point.mk [t0, t1, t2]).length m := by
    unfold Point.length
    congr 1
    rw [Point.cross_three, Point.dot_three, Point.dot_three]
    linear_combination (t0 * t0 + t1 * t1 + t2 * t2) * hn -
      (t0 * n0 + t1 * n1 + t2 * n2) * ht
  rw [Point.cross_three] at hc ⊢
  rw [Point.normalize_three, Point.normalize_three, hc]
  have hLL : (Point.mk [t0, t1, t2]).length m * (Point.mk [t0, t1, t2]).length m =
      t0 * t0 + t1 * t1 + t2 * t2 := by
    unfold Point.length
    rw [hm.sqrt_mul_self _ (Point.dot_self_nonneg _), Point.dot_three]
  generalize (Point.mk [t0, t1, t2]).length m = L at hL hLL
  refine ⟨?_, ?_, ?_, ?_, ?_, ?_⟩
  · apply Point.length_eq_one_of_dot hm
    rw [Point.dot_three]
    field_simp
    linear_combination -hLL
  · apply Point.length_eq_one_of_dot hm
    rw [Point.dot_three]
    field_simp
    linear_combination (t0 * t0 + t1 * t1 + t2 * t2) * hn -
      (t0 * n0 + t1 * n1 + t2 * n2) * ht - hLL
  · rw [Point.dot_three]
    field_simp
    ring
  · rw [Point.dot_three]
    field_simp
    linear_combination ht
  · rw [Point.dot_three]
    field_simp
    ring
  · rw [Point.cross_three]
    simp only [Point.mk.injEq, List.cons.injEq, and_true]
    refine ⟨?_, ?_, ?_⟩
    · field_simp
      linear_combination (-n0) * hLL - t0 * ht
    · field_simp
      linear_combination (-n1) * hLL - t1 * ht
    · field_simp
      linear_combination (-n2) * hLL - t2 * ht

theorem setSpanningVectors_three (m : Libm K) (e : Ellipse K) (h3 : e.centre_.dimension = 3) :
    e.setSpanningVectors m =
      if (e.vec1_.planeProjection e.normal_).length m = 0 then
        ⟨e, some "X-axis parallel to normal."⟩
      else
        ⟨{ e with vec1_ := (e.vec1_.planeProjection e.normal_).normalize m,
                  vec2_ := (e.normal_.cross (e.vec1_.planeProjection e.normal_)).normalize m },
          none⟩ := by
  unfold Ellipse.setSpanningVectors Point.planeProjection
  simp only [h3]
  rw [if_neg (by decide), if_pos trivial]

theorem setSpanningVectors_two (m : Libm K) (e : Ellipse K) (h2 : e.centre_.dimension = 2) :
    e.setSpanningVectors m =
      ⟨{ e with vec1_ := e.vec1_.normalize m,
                vec2_ := (Point.mk [-(e.vec1_.get 1), e.vec1_.get 0]).normalize m }, none⟩ := by
  unfold Ellipse.setSpanningVectors
  simp only [h2]
  rw [if_pos trivial]

theorem Point.planeProjection_three (d0 d1 d2 n0 n1 n2 : K) :
    (Point.mk [d0, d1, d2]).planeProjection ⟨[n0, n1, n2]⟩ =
      ⟨[d0 - (d0 * n0 + d1 * n1 + d2 * n2) * n0, d0 * 0 + d1 - (d0 * n0 + d1 * n1 + d2 * n2) * n1,
        d0 * 0 + d2 - (d0 * n0 + d1 * n1 + d2 * n2) * n2]⟩ := by
  simp [Point.planeProjection, Point.sub, Point.smul, Point.dot_three]

theorem Point.length_eq_zero_iff_three {m : Libm K} (hm : m.SqrtExact) (x y z : K) :
    (Point.mk [x, y, z]).length m = 0 ↔ Point.mk [x, y, z] = ⟨[0, 0, 0]⟩ := by
  unfold Point.length
  rw [hm.sqrt_eq_zero_iff (Point.dot_self_nonneg _), Point.dot_three]
  constructor
  · intro h
    have hx : x = 0 := by nlinarith [mul_self_nonneg x, mul_self_nonneg y, mul_self_nonneg z]
    have hy : y = 0 := by nlinarith [mul_self_nonneg x, mul_self_nonneg y, mul_self_nonneg z]
    have hz : z = 0 := by nlinarith [mul_self_nonneg x, mul_self_nonneg y, mul_self_nonneg z]
    rw [hx, hy, hz]
  · intro h
    simp only [Point.mk.injEq, List.cons.injEq, and_true] at h
    rw [h.1, h.2.1, h.2.2]
    ring

theorem Point.planeProjection_length_eq_zero_iff {m : Libm K} (hm : m.SqrtExact)
    (d n : Point K) (hd : d.dimension = 3) (hn : n.dimension = 3) :
    (d.planeProjection n).length m = 0 ↔ d.planeProjection n = ⟨[0, 0, 0]⟩ := by
  obtain ⟨d0, d1, d2, rfl⟩ := Point.exists_of_dimension_three _ hd
  obtain ⟨n0, n1, n2, rfl⟩ := Point.exists_of_dimension_three _ hn
  rw [Point.planeProjection_three]
  exact Point.length_eq_zero_iff_three hm _ _ _

set_option linter.unusedVariables false in
/-- C8 (amended): when `setSpanningVectors` succeeds on a 3D ellipse with
unit normal `n` and a given direction that is not parallel to `n` (its
projection `direction - (direction . n) n` is not the zero vector),
`(vec1_, vec2_, n)` is a right-handed orthonormal frame and `vec1_` is the
normalised projection of the given direction onto the plane orthogonal to
`n`; in 2D, for a non-zero given direction, `vec1_` and `vec2_` are unit
vectors and `vec2_` is `vec1_` rotated by +90 degrees.  Nothing is stated for
a 3D direction parallel to the normal. -/
theorem setSpanningVectors_frame {m : Libm K} (hm : m.SqrtExact) (e : Ellipse K)
    (hok : (e.setSpanningVectors m).thrown = none) :
    (e.centre_.dimension = 3 → e.vec1_.dimension = 3 → e.normal_.dimension = 3 →
      e.normal_.length m = 1 → e.vec1_.planeProjection e.normal_ ≠ ⟨[0, 0, 0]⟩ →
        (e.setSpanningVectors m).state.vec1_.length m = 1 ∧
        (e.setSpanningVectors m).state.vec2_.length m = 1 ∧
        (e.setSpanningVectors m).state.vec1_.dot (e.setSpanningVectors m).state.vec2_ = 0 ∧
        (e.setSpanningVectors m).state.vec1_.dot (e.setSpanningVectors m).state.normal_ = 0 ∧
        (e.setSpanningVectors m).state.vec2_.dot (e.setSpanningVectors m).state.normal_ = 0 ∧
        (e.setSpanningVectors m).state.vec1_.cross (e.setSpanningVectors m).state.vec2_ =
          (e.setSpanningVectors m).state.normal_ ∧
        (e.setSpanningVectors m).state.normal_ = e.normal_ ∧
        (e.setSpanningVectors m).state.vec1_ =
          (e.vec1_.planeProjection e.normal_).normalize m) ∧
    (e.centre_.dimension = 2 → e.vec1_.dimension = 2 → e.vec1_ ≠ ⟨[0, 0]⟩ →
        (e.setSpanningVectors m).state.vec1_.length m = 1 ∧
        (e.setSpanningVectors m).state.vec2_.length m = 1 ∧
        (e.setSpanningVectors m).state.vec2_ =
          ⟨[-((e.setSpanningVectors m).state.vec1_.get 1),
            (e.setSpanningVectors m).state.vec1_.get 0]⟩) := by
  constructor
  · intro h3 hv hn hunit hpar
    have hz : ¬ (e.vec1_.planeProjection e.normal_).length m = 0 := fun h =>
      hpar ((Point.planeProjection_length_eq_zero_iff hm _ _ hv hn).mp h)
    rw [setSpanningVectors_three m e h3]
    obtain ⟨d0, d1, d2, hd⟩ := Point.exists_of_dimension_three _ hv
    obtain ⟨n0, n1, n2, hnn⟩ := Point.exists_of_dimension_three _ hn
    have hn1 : n0 * n0 + n1 * n1 + n2 * n2 = 1 := by
      have := hm.eq_one_of_sqrt_eq_one (Point.dot_self_nonneg _) hunit
      rw [hnn, Point.dot_three] at this
      exact this
    · rw [if_neg hz]
      simp only []
      rw [hd, hnn, Point.planeProjection_three] at hz ⊢
      have key := frame_of_orthogonal hm n0 n1 n2 _ _ _ hn1
        (by linear_combination (-(d0 * n0 + d1 * n1 + d2 * n2)) * hn1) hz
      exact ⟨key.1, key.2.1, key.2.2.1, key.2.2.2.1, key.2.2.2.2.1, key.2.2.2.2.2,
        by first | rfl | trivial, by first | rfl | trivial⟩
  · intro h2 hv hne
    rw [setSpanningVectors_two m e h2]
    obtain ⟨x, y, hd⟩ := Point.exists_of_dimension_two _ hv
    simp only []
    rw [hd] at hne ⊢
    have hget1 : (Point.mk [x, y]).get 1 = y := rfl
    have hget0 : (Point.mk [x, y]).get 0 = x := rfl
    rw [hget1, hget0]
    have hrot : (Point.mk [-y, x]).length m = (Point.mk [x, y]).length m := by
      unfold Point.length
      congr 1
      rw [Point.dot_two, Point.dot_two]
      ring
    have hLL : (Point.mk [x, y]).length m * (Point.mk [x, y]).length m = x * x + y * y := by
      unfold Point.length
      rw [hm.sqrt_mul_self _ (Point.dot_self_nonneg _), Point.dot_two]
    have hxy : x * x + y * y ≠ 0 := by
      intro h0
      have hx : x = 0 := by nlinarith [mul_self_nonneg x, mul_self_nonneg y]
      have hy : y = 0 := by nlinarith [mul_self_nonneg x, mul_self_nonneg y]
      exact hne (by rw [hx, hy])
    have hL : (Point.mk [x, y]).length m ≠ 0 := by
      intro h0
      rw [h0] at hLL
      exact hxy (by linear_combination -hLL)
    rw [Point.normalize_two, Point.normalize_two, hrot]
    generalize (Point.mk [x, y]).length m = L at hL hLL
    refine ⟨?_, ?_, ?_⟩
    · apply Point.length_eq_one_of_dot hm
      rw [Point.dot_two]
      field_simp
      linear_combination -hLL
    · apply Point.length_eq_one_of_dot hm
      rw [Point.dot_two]
      field_simp
      linear_combination -hLL
    · simp [Point.get, neg_div]

theorem ctor_of_dimension_ne_three (m : Libm K) (centre direction normal : Point K)
    (r1 r2 : K) (isReversed : Bool) (h3 : centre.dimension ≠ 3) :
    Ellipse.ctor m centre direction normal r1 r2 isReversed = .error "Dimension must be 3." := by
  unfold Ellipse.ctor
  simp only []
  rw [if_pos h3]

theorem ctor_of_dimension_three (m : Libm K) (centre direction normal : Point K)
    (r1 r2 : K) (isReversed : Bool) (h3 : centre.dimension = 3) :
    Ellipse.ctor m centre direction normal r1 r2 isReversed =
      if (direction.planeProjection (normal.normalize m)).length m = 0 then
        .error "X-axis parallel to normal."
      else .ok (ctorResult m centre direction normal r1 r2 isReversed) := by
  unfold Ellipse.ctor
  simp only [Ellipse.dimension]
  rw [if_neg (not_not.mpr h3), if_pos h3, setSpanningVectors_three m _ h3]
  by_cases hz : (direction.planeProjection (normal.normalize m)).length m = 0
  · simp only [hz, if_true]
  · simp only [hz, if_false]
    cases isReversed <;> rfl

theorem Point.normalize_dimension (m : Libm K) (p : Point K) :
    (p.normalize m).dimension = p.dimension := by
  simp [Point.normalize, Point.dimension]

set_option linter.unusedVariables false in
/-- C4 (amended): constructing an `Ellipse` fails with "Dimension must be 3."
exactly when the dimension of `centre` is not 3, hence for every 2D centre;
and for a 3D input (centre, direction and non-zero normal of dimension 3) the
construction either raises "X-axis parallel to normal." or returns the
ellipse with the normalised normal `n`, the normalised projection
`direction - (direction . n) n` as `vec1_`, `n x vec1_` as `vec2_`, the given
radii and the interval `[0, 2π]`.  For which 3D directions the exception is
raised is not stated. -/
theorem ctor_dimension_guard (m : Libm K) (centre direction normal : Point K) (r1 r2 : K)
    (isReversed : Bool) :
    (Ellipse.ctor m centre direction normal r1 r2 isReversed = .error "Dimension must be 3." ↔
      centre.dimension ≠ 3) ∧
    (centre.dimension = 3 → direction.dimension = 3 → normal.dimension = 3 →
      normal.length m ≠ 0 →
      Ellipse.ctor m centre direction normal r1 r2 isReversed =
          .error "X-axis parallel to normal." ∨
        Ellipse.ctor m centre direction normal r1 r2 isReversed =
          .ok (ctorResult m centre direction normal r1 r2 isReversed)) := by
  constructor
  · constructor
    · intro h h3
      rw [ctor_of_dimension_three m centre direction normal r1 r2 isReversed h3] at h
      split_ifs at h
      · exact absurd (Except.error.inj h) (by decide)
    · intro h3
      exact ctor_of_dimension_ne_three m centre direction normal r1 r2 isReversed h3
  · intro h3 hd hn hn0
    rw [ctor_of_dimension_three m centre direction normal r1 r2 isReversed h3]
    split_ifs
    · exact Or.inl rfl
    · exact Or.inr rfl

end frameLemmas

section frameExamples

theorem real_length_e3 :
    (Point.mk [(0 : ℝ), 0, 1]).length (Libm.mk Real.pi Real.sqrt Real.cos Real.sin) = 1 := by
  simp [Point.length, Point.dot]

theorem real_normalize_e3 :
    (Point.mk [(0 : ℝ), 0, 1]).normalize (Libm.mk Real.pi Real.sqrt Real.cos Real.sin) =
      ⟨[0, 0, 1]⟩ := by
  rw [Point.normalize_three, real_length_e3]
  simp

theorem real_planeProjection_e1_e3 :
    (Point.mk [(1 : ℝ), 0, 0]).planeProjection
      ((Point.mk [(0 : ℝ), 0, 1]).normalize (Libm.mk Real.pi Real.sqrt Real.cos Real.sin)) =
      ⟨[1, 0, 0]⟩ := by
  rw [real_normalize_e3, Point.planeProjection_three]
  simp

/-- C4, as stated, fails: over the reals, constructing an ellipse with the
2D centre `(0, 0)` and direction `(1, 0)` raises "Dimension must be 3.". -/
theorem ctor_rejects_dimension_two :
    Ellipse.ctor (Libm.mk Real.pi Real.sqrt Real.cos Real.sin)
      ⟨[0, 0]⟩ ⟨[1, 0]⟩ ⟨[0, 0]⟩ 1 1 false = .error "Dimension must be 3." :=
  ctor_of_dimension_ne_three _ _ _ _ _ _ _ (by decide)

/-- Witness for C4 (amended), over the reals: centre `(0,0,0)`, direction
`(1,0,0)`, normal `(0,0,1)`, radii `1` and `2`. -/
theorem ctor_dimension_guard_witness :
    Ellipse.ctor (Libm.mk Real.pi Real.sqrt Real.cos Real.sin)
        ⟨[0, 0, 0]⟩ ⟨[1, 0, 0]⟩ ⟨[0, 0, 1]⟩ 1 2 false = .error "X-axis parallel to normal." ∨
      Ellipse.ctor (Libm.mk Real.pi Real.sqrt Real.cos Real.sin)
        ⟨[0, 0, 0]⟩ ⟨[1, 0, 0]⟩ ⟨[0, 0, 1]⟩ 1 2 false =
      .ok (ctorResult (Libm.mk Real.pi Real.sqrt Real.cos Real.sin)
        ⟨[0, 0, 0]⟩ ⟨[1, 0, 0]⟩ ⟨[0, 0, 1]⟩ 1 2 false) :=
  (ctor_dimension_guard (Libm.mk Real.pi Real.sqrt Real.cos Real.sin)
    ⟨[0, 0, 0]⟩ ⟨[1, 0, 0]⟩ ⟨[0, 0, 1]⟩ 1 2 false).2
    rfl rfl rfl (by rw [real_length_e3]; exact one_ne_zero)

/-- C5, as stated, fails: over the reals, constructing an ellipse with
`r1 = 0` (centre `(0,0,0)`, direction `(1,0,0)`, normal `(0,0,1)`, `r2 = 1`)
raises nothing and returns an ellipse with `r1_ = 0`. -/
theorem ctor_accepts_radius_zero :
    Ellipse.ctor (Libm.mk Real.pi Real.sqrt Real.cos Real.sin)
      ⟨[0, 0, 0]⟩ ⟨[1, 0, 0]⟩ ⟨[0, 0, 1]⟩ 0 1 false =
    .ok { centre_ := ⟨[0, 0, 0]⟩, vec1_ := ⟨[1, 0, 0]⟩, vec2_ := ⟨[0, 1, 0]⟩,
          normal_ := ⟨[0, 0, 1]⟩, r1_ := 0, r2_ := 1, startparam_ := 0,
          endparam_ := 2 * Real.pi, isReversed_ := false } := by
  rw [ctor_of_dimension_three _ ⟨[0, 0, 0]⟩ _ _ _ _ _ rfl, real_planeProjection_e1_e3]
  unfold ctorResult
  rw [real_planeProjection_e1_e3, real_normalize_e3]
  simp [Point.normalize, Point.length, Point.dot, Point.cross, Point.get]

/-- C8, as stated, fails in 2D: over the reals, `setSpanningVectors` succeeds
on a 2D ellipse whose given direction is the zero vector, and the `vec1_` and
`vec2_` it leaves are not unit vectors. -/
theorem setSpanningVectors_zero_direction_2D :
    ((zeroDirection2D (Libm.mk Real.pi Real.sqrt Real.cos Real.sin)).setSpanningVectors
      (Libm.mk Real.pi Real.sqrt Real.cos Real.sin)).thrown = none ∧
    ((zeroDirection2D (Libm.mk Real.pi Real.sqrt Real.cos Real.sin)).setSpanningVectors
      (Libm.mk Real.pi Real.sqrt Real.cos Real.sin)).state.vec1_.length
        (Libm.mk Real.pi Real.sqrt Real.cos Real.sin) ≠ 1 ∧
    ((zeroDirection2D (Libm.mk Real.pi Real.sqrt Real.cos Real.sin)).setSpanningVectors
      (Libm.mk Real.pi Real.sqrt Real.cos Real.sin)).state.vec2_.length
        (Libm.mk Real.pi Real.sqrt Real.cos Real.sin) ≠ 1 := by
  rw [setSpanningVectors_two _ (zeroDirection2D _) rfl]
  simp [zeroDirection2D, Point.normalize, Point.length, Point.dot, Point.get]

/-- Witness for C8 (amended), over the reals: the unit circle of the
`xy`-plane in 3D (direction `(1,0,0)`, normal `(0,0,1)`), and the 2D ellipse
with given direction `(3, 4)`. -/
theorem setSpanningVectors_frame_witness :
    ((unitCircle (Libm.mk Real.pi Real.sqrt Real.cos Real.sin)).setSpanningVectors
      (Libm.mk Real.pi Real.sqrt Real.cos Real.sin)).thrown = none ∧
    ((unitCircle (Libm.mk Real.pi Real.sqrt Real.cos Real.sin)).setSpanningVectors
      (Libm.mk Real.pi Real.sqrt Real.cos Real.sin)).state.vec1_.cross
      ((unitCircle (Libm.mk Real.pi Real.sqrt Real.cos Real.sin)).setSpanningVectors
        (Libm.mk Real.pi Real.sqrt Real.cos Real.sin)).state.vec2_ =
      ((unitCircle (Libm.mk Real.pi Real.sqrt Real.cos Real.sin)).setSpanningVectors
        (Libm.mk Real.pi Real.sqrt Real.cos Real.sin)).state.normal_ ∧
    ((direction2D (Libm.mk Real.pi Real.sqrt Real.cos Real.sin)).setSpanningVectors
      (Libm.mk Real.pi Real.sqrt Real.cos Real.sin)).thrown = none ∧
    ((direction2D (Libm.mk Real.pi Real.sqrt Real.cos Real.sin)).setSpanningVectors
      (Libm.mk Real.pi Real.sqrt Real.cos Real.sin)).state.vec1_.length
        (Libm.mk Real.pi Real.sqrt Real.cos Real.sin) = 1 := by
  have h3 : ((unitCircle (Libm.mk Real.pi Real.sqrt Real.cos Real.sin)).setSpanningVectors
      (Libm.mk Real.pi Real.sqrt Real.cos Real.sin)).thrown = none := by
    rw [setSpanningVectors_three _ (unitCircle _) rfl]
    simp [unitCircle, Point.planeProjection, Point.sub, Point.smul, Point.length, Point.dot]
  have h2 : ((direction2D (Libm.mk Real.pi Real.sqrt Real.cos Real.sin)).setSpanningVectors
      (Libm.mk Real.pi Real.sqrt Real.cos Real.sin)).thrown = none := by
    rw [setSpanningVectors_two _ (direction2D _) rfl]
  exact ⟨h3,
    ((setSpanningVectors_frame real_sqrtExact _ h3).1 rfl rfl rfl real_length_e3
      (by simp [unitCircle, Point.planeProjection, Point.sub, Point.smul, Point.dot])).2.2.2.2.2.1,
    h2,
    ((setSpanningVectors_frame real_sqrtExact _ h2).2 rfl rfl (by simp [direction2D])).1⟩

end frameExamples

section radiusTheorems

variable {K : Type} [LinearOrderedField K]

set_option linter.unusedVariables false in
/-- C5 (amended): the constructor does not look at the radii. For every 3D
centre, direction and non-zero normal with the direction not parallel to the
normal, constructing an `Ellipse` with `r1 = 0` or `r2 = 0` succeeds and
returns an ellipse with exactly these radii; the zero radius is only
reported by `isDegenerate`, which is true of it for every positive epsilon. -/
theorem ctor_zero_radius_ok {m : Libm K} (hm : m.SqrtExact) (centre direction normal : Point K)
    (r1 r2 : K) (isReversed : Bool)
    (h3 : centre.dimension = 3) (hd : direction.dimension = 3) (hn : normal.dimension = 3)
    (hn0 : normal.length m ≠ 0)
    (hpar : direction.planeProjection (normal.normalize m) ≠ ⟨[0, 0, 0]⟩)
    (hr : r1 = 0 ∨ r2 = 0) :
    ∃ e, Ellipse.ctor m centre direction normal r1 r2 isReversed = .ok e ∧
      e.r1_ = r1 ∧ e.r2_ = r2 ∧ ∀ eps : K, 0 < eps → e.isDegenerate eps = true := by
  have hz := Point.planeProjection_length_eq_zero_iff hm direction (normal.normalize m) hd
    ((Point.normalize_dimension m normal).trans hn)
  rw [ctor_of_dimension_three m centre direction normal r1 r2 isReversed h3,
    if_neg (fun h => hpar (hz.mp h))]
  refine ⟨ctorResult m centre direction normal r1 r2 isReversed, rfl, rfl, rfl, ?_⟩
  intro eps heps
  unfold Ellipse.isDegenerate ctorResult
  rcases hr with h | h <;> simp [h, heps]

/-- Witness for C5 (amended), over the reals: centre `(0,0,0)`, direction
`(1,0,0)`, normal `(0,0,1)`, `r1 = 0`, `r2 = 1`. -/
theorem ctor_zero_radius_ok_witness :
    ∃ e, Ellipse.ctor (Libm.mk Real.pi Real.sqrt Real.cos Real.sin)
        ⟨[0, 0, 0]⟩ ⟨[1, 0, 0]⟩ ⟨[0, 0, 1]⟩ 0 1 false = .ok e ∧
      e.r1_ = 0 ∧ e.r2_ = 1 ∧ ∀ eps : ℝ, 0 < eps → e.isDegenerate eps = true :=
  ctor_zero_radius_ok real_sqrtExact ⟨[0, 0, 0]⟩ ⟨[1, 0, 0]⟩ ⟨[0, 0, 1]⟩ 0 1 false rfl rfl rfl
    (by rw [real_length_e3]; exact one_ne_zero)
    (by rw [real_planeProjection_e1_e3]; simp) (Or.inl rfl)

end radiusTheorems

section invariantLemmas

variable {K : Type} [LinearOrderedField K]

/-- A successful `setParamBounds` leaves the interval inside the parameter
invariant. -/
theorem setParamBounds_paramInvariant (m : Libm K) (e : Ellipse K) (sp ep : K)
    (h : (e.setParamBounds m sp ep).thrown = none) :
    (e.setParamBounds m sp ep).state.paramInvariant m := by
  unfold Ellipse.setParamBounds at h ⊢
  simp only [] at h ⊢
  split_ifs at h ⊢ with h1 h2 h3
  push_neg at h1 h2 h3
  exact ⟨h2.1, h1, h2.2, h3⟩

/-- An ellipse returned by the constructor has the interval `[0, 2π]`. -/
theorem ctor_paramInvariant (m : Libm K) (hpi : 0 < m.M_PI) (centre direction normal : Point K)
    (r1 r2 : K) (isReversed : Bool) (e : Ellipse K)
    (h : Ellipse.ctor m centre direction normal r1 r2 isReversed = .ok e) :
    e.paramInvariant m := by
  by_cases h3 : centre.dimension = 3
  · rw [ctor_of_dimension_three m centre direction normal r1 r2 isReversed h3] at h
    split_ifs at h
    injection h with h
    subst h
    unfold Ellipse.paramInvariant ctorResult
    simp only []
    refine ⟨?_, ?_, ?_, ?_⟩ <;> linarith
  · rw [ctor_of_dimension_ne_three m centre direction normal r1 r2 isReversed h3] at h
    exact absurd h (by simp)

/-- An ellipse returned by `clone` satisfies the parameter invariant. -/
theorem clone_paramInvariant (m : Libm K) (e e' : Ellipse K) (h : e.clone m = .ok e') :
    e'.paramInvariant m := by
  unfold Ellipse.clone at h
  split at h
  · exact absurd h (by simp)
  · rename_i ellipse _
    have hinv := setParamBounds_paramInvariant m ellipse e.startparam_ e.endparam_
    split at h
    · exact absurd h (by simp)
    · rename_i st heq
      injection h with h
      subst h
      rw [heq] at hinv
      exact hinv rfl

/-- An ellipse returned by `subCurve` satisfies the parameter invariant. -/
theorem subCurve_paramInvariant (m : Libm K) (e e' : Ellipse K) (from_par to_par : K)
    (h : e.subCurve m from_par to_par = .ok e') : e'.paramInvariant m := by
  unfold Ellipse.subCurve at h
  split at h
  · exact absurd h (by simp)
  · rename_i ellipse _
    have hinv := setParamBounds_paramInvariant m ellipse from_par to_par
    split at h
    · exact absurd h (by simp)
    · rename_i st heq
      injection h with h
      subst h
      rw [heq] at hinv
      exact hinv rfl

end invariantLemmas

section readTheorems

theorem real_readFrom_three (f : Nat → ℝ) :
    Point.readFrom 3 f = ⟨[f 0, f 1, f 2]⟩ := rfl

/-- C3 at a failing input: reading, over the reals, a well-formed 3D ellipse
record whose two parameters are `5` and `1` succeeds and leaves the ellipse
with `startparam_ = 5 > endparam_ = 1`, outside the parameter invariant that
`setParamBounds` enforces. -/
theorem read_stores_unchecked_interval :
    (Ellipse.read (Libm.mk Real.pi Real.sqrt Real.cos Real.sin)
        (unitCircle (Libm.mk Real.pi Real.sqrt Real.cos Real.sin)) badIntervalStream).thrown
      = none ∧
    (Ellipse.read (Libm.mk Real.pi Real.sqrt Real.cos Real.sin)
        (unitCircle (Libm.mk Real.pi Real.sqrt Real.cos Real.sin))
        badIntervalStream).state.startparam_ = 5 ∧
    (Ellipse.read (Libm.mk Real.pi Real.sqrt Real.cos Real.sin)
        (unitCircle (Libm.mk Real.pi Real.sqrt Real.cos Real.sin))
        badIntervalStream).state.endparam_ = 1 ∧
    ¬ (Ellipse.read (Libm.mk Real.pi Real.sqrt Real.cos Real.sin)
        (unitCircle (Libm.mk Real.pi Real.sqrt Real.cos Real.sin))
        badIntervalStream).state.paramInvariant (Libm.mk Real.pi Real.sqrt Real.cos Real.sin) := by
  have hpi := Real.pi_gt_three
  have h5 : ¬ fabs (5 : ℝ) < pareps := by
    rw [fabs_lt_iff]; unfold pareps; rintro ⟨_, h⟩; norm_num at h
  have h1 : ¬ fabs ((1 : ℝ) - 2 * Real.pi) < pareps := by
    rw [fabs_lt_iff]; unfold pareps; rintro ⟨h, _⟩; norm_num at h; linarith
  simp [Ellipse.read, badIntervalStream, Ellipse.setSpanningVectors, real_readFrom_three,
    Point.dimension, Point.normalize, Point.length, Point.dot, Point.sub, Point.smul,
    Point.cross, Point.get, h5, h1, Ellipse.paramInvariant]

end readTheorems

section canonicalCurveLemmas

variable {K : Type} [LinearOrderedField K]

theorem et_eq (m : Libm K) :
    Ellipse.et m =
      [0, 0, 0, 2 * m.M_PI * 0.25, 2 * m.M_PI * 0.25, 2 * m.M_PI * 0.5, 2 * m.M_PI * 0.5,
       2 * m.M_PI * 0.75, 2 * m.M_PI * 0.75, 2 * m.M_PI, 2 * m.M_PI, 2 * m.M_PI] := rfl

theorem replicate_thirty_six :
    List.replicate 36 (0 : K) =
      [0, 0, 0, 0, 0, 0, 0, 0, 0, 0, 0, 0, 0, 0, 0, 0, 0, 0,
       0, 0, 0, 0, 0, 0, 0, 0, 0, 0, 0, 0, 0, 0, 0, 0, 0, 0] := rfl

theorem canonicalCurve_coefs_three (m : Libm K) (e : Ellipse K) (h : e.dimension = 3) :
    (e.canonicalCurve m).coefs =
      [e.centre_.get 0 + (Point.smul e.r1_ e.vec1_).get 0,
       e.centre_.get 1 + (Point.smul e.r1_ e.vec1_).get 1,
       e.centre_.get 2 + (Point.smul e.r1_ e.vec1_).get 2,
       1,
       (1 / m.sqrt 2) * (e.centre_.get 0 + (Point.smul e.r1_ e.vec1_).get 0 + (Point.smul e.r2_ e.vec2_).get 0),
       (1 / m.sqrt 2) * (e.centre_.get 1 + (Point.smul e.r1_ e.vec1_).get 1 + (Point.smul e.r2_ e.vec2_).get 1),
       (1 / m.sqrt 2) * (e.centre_.get 2 + (Point.smul e.r1_ e.vec1_).get 2 + (Point.smul e.r2_ e.vec2_).get 2),
       1 / m.sqrt 2,
       e.centre_.get 0 + (Point.smul e.r2_ e.vec2_).get 0,
       e.centre_.get 1 + (Point.smul e.r2_ e.vec2_).get 1,
       e.centre_.get 2 + (Point.smul e.r2_ e.vec2_).get 2,
       1,
       (1 / m.sqrt 2) * (e.centre_.get 0 - (Point.smul e.r1_ e.vec1_).get 0 + (Point.smul e.r2_ e.vec2_).get 0),
       (1 / m.sqrt 2) * (e.centre_.get 1 - (Point.smul e.r1_ e.vec1_).get 1 + (Point.smul e.r2_ e.vec2_).get 1),
       (1 / m.sqrt 2) * (e.centre_.get 2 - (Point.smul e.r1_ e.vec1_).get 2 + (Point.smul e.r2_ e.vec2_).get 2),
       1 / m.sqrt 2,
       e.centre_.get 0 - (Point.smul e.r1_ e.vec1_).get 0,
       e.centre_.get 1 - (Point.smul e.r1_ e.vec1_).get 1,
       e.centre_.get 2 - (Point.smul e.r1_ e.vec1_).get 2,
       1,
       (1 / m.sqrt 2) * (e.centre_.get 0 - (Point.smul e.r1_ e.vec1_).get 0 - (Point.smul e.r2_ e.vec2_).get 0),
       (1 / m.sqrt 2) * (e.centre_.get 1 - (Point.smul e.r1_ e.vec1_).get 1 - (Point.smul e.r2_ e.vec2_).get 1),
       (1 / m.sqrt 2) * (e.centre_.get 2 - (Point.smul e.r1_ e.vec1_).get 2 - (Point.smul e.r2_ e.vec2_).get 2),
       1 / m.sqrt 2,
       e.centre_.get 0 - (Point.smul e.r2_ e.vec2_).get 0,
       e.centre_.get 1 - (Point.smul e.r2_ e.vec2_).get 1,
       e.centre_.get 2 - (Point.smul e.r2_ e.vec2_).get 2,
       1,
       (1 / m.sqrt 2) * (e.centre_.get 0 + (Point.smul e.r1_ e.vec1_).get 0 - (Point.smul e.r2_ e.vec2_).get 0),
       (1 / m.sqrt 2) * (e.centre_.get 1 + (Point.smul e.r1_ e.vec1_).get 1 - (Point.smul e.r2_ e.vec2_).get 1),
       (1 / m.sqrt 2) * (e.centre_.get 2 + (Point.smul e.r1_ e.vec1_).get 2 - (Point.smul e.r2_ e.vec2_).get 2),
       1 / m.sqrt 2,
       e.centre_.get 0 + (Point.smul e.r1_ e.vec1_).get 0,
       e.centre_.get 1 + (Point.smul e.r1_ e.vec1_).get 1,
       e.centre_.get 2 + (Point.smul e.r1_ e.vec1_).get 2,
       1] := by
  unfold Ellipse.canonicalCurve Ellipse.coef
  simp only [h]
  rw [if_neg (by decide)]
  simp only [List.range, List.range.loop, List.foldl]
  rw [replicate_thirty_six]
  simp only [Nat.add_zero, Nat.reduceAdd, Nat.reduceMul]
  simp only [List.set_cons_zero, List.set_cons_succ]
  simp only [List.take_succ_cons, List.take_zero, List.take_nil]

theorem canonicalCurve_coefs_two (m : Libm K) (e : Ellipse K) (h : e.dimension = 2) :
    (e.canonicalCurve m).coefs =
      [e.centre_.get 0 + (Point.smul e.r1_ e.vec1_).get 0,
       e.centre_.get 1 + (Point.smul e.r1_ e.vec1_).get 1,
       1,
       (1 / m.sqrt 2) * (e.centre_.get 0 + (Point.smul e.r1_ e.vec1_).get 0 + (Point.smul e.r2_ e.vec2_).get 0),
       (1 / m.sqrt 2) * (e.centre_.get 1 + (Point.smul e.r1_ e.vec1_).get 1 + (Point.smul e.r2_ e.vec2_).get 1),
       1 / m.sqrt 2,
       e.centre_.get 0 + (Point.smul e.r2_ e.vec2_).get 0,
       e.centre_.get 1 + (Point.smul e.r2_ e.vec2_).get 1,
       1,
       (1 / m.sqrt 2) * (e.centre_.get 0 - (Point.smul e.r1_ e.vec1_).get 0 + (Point.smul e.r2_ e.vec2_).get 0),
       (1 / m.sqrt 2) * (e.centre_.get 1 - (Point.smul e.r1_ e.vec1_).get 1 + (Point.smul e.r2_ e.vec2_).get 1),
       1 / m.sqrt 2,
       e.centre_.get 0 - (Point.smul e.r1_ e.vec1_).get 0,
       e.centre_.get 1 - (Point.smul e.r1_ e.vec1_).get 1,
       1,
       (1 / m.sqrt 2) * (e.centre_.get 0 - (Point.smul e.r1_ e.vec1_).get 0 - (Point.smul e.r2_ e.vec2_).get 0),
       (1 / m.sqrt 2) * (e.centre_.get 1 - (Point.smul e.r1_ e.vec1_).get 1 - (Point.smul e.r2_ e.vec2_).get 1),
       1 / m.sqrt 2,
       e.centre_.get 0 - (Point.smul e.r2_ e.vec2_).get 0,
       e.centre_.get 1 - (Point.smul e.r2_ e.vec2_).get 1,
       1,
       (1 / m.sqrt 2) * (e.centre_.get 0 + (Point.smul e.r1_ e.vec1_).get 0 - (Point.smul e.r2_ e.vec2_).get 0),
       (1 / m.sqrt 2) * (e.centre_.get 1 + (Point.smul e.r1_ e.vec1_).get 1 - (Point.smul e.r2_ e.vec2_).get 1),
       1 / m.sqrt 2,
       e.centre_.get 0 + (Point.smul e.r1_ e.vec1_).get 0,
       e.centre_.get 1 + (Point.smul e.r1_ e.vec1_).get 1,
       1] := by
  unfold Ellipse.canonicalCurve Ellipse.coef
  simp only [h]
  rw [if_pos trivial]
  simp only [List.range, List.range.loop, List.foldl]
  rw [replicate_thirty_six]
  simp only [Nat.add_zero, Nat.reduceAdd, Nat.reduceMul]
  simp only [List.set_cons_zero, List.set_cons_succ]
  simp only [List.take_succ_cons, List.take_zero, List.take_nil]

theorem et_sorted (m : Libm K) (hpi : 0 < m.M_PI) : (Ellipse.et m).Sorted (· ≤ ·) := by
  rw [et_eq]
  simp only [List.Sorted, List.pairwise_cons, List.mem_cons, List.mem_singleton,
    List.not_mem_nil, forall_eq_or_imp, forall_eq, IsEmpty.forall_iff, implies_true,
    List.Pairwise.nil, and_true]
  norm_num
  repeat' apply And.intro
  all_goals linarith

theorem et_count (m : Libm K) (hpi : 0 < m.M_PI) :
    (Ellipse.et m).count 0 = 3 ∧ (Ellipse.et m).count (2 * m.M_PI) = 3 := by
  have h0 : (2 * m.M_PI * 0.25 : K) ≠ 0 := by norm_num; exact hpi.ne'
  have h1 : (2 * m.M_PI * 0.5 : K) ≠ 0 := by norm_num; exact hpi.ne'
  have h2 : (2 * m.M_PI * 0.75 : K) ≠ 0 := by norm_num; exact hpi.ne'
  have h3 : (2 * m.M_PI : K) ≠ 0 := by norm_num; exact hpi.ne'
  have h4 : (2 * m.M_PI * 0.25 : K) ≠ 2 * m.M_PI := by
    intro h; norm_num at h; linarith
  have h5 : (2 * m.M_PI * 0.5 : K) ≠ 2 * m.M_PI := by
    intro h; norm_num at h; linarith
  have h6 : (2 * m.M_PI * 0.75 : K) ≠ 2 * m.M_PI := by
    intro h; norm_num at h; linarith
  rw [et_eq]
  constructor
  · simp only [List.count_cons, List.count_nil, beq_iff_eq, h0, h1, h2, h3, if_true, if_false]
  · simp only [List.count_cons, List.count_nil, beq_iff_eq, h3.symm, h4, h5, h6, if_true,
      if_false]

theorem canonicalCurve_weight (m : Libm K) (e : Ellipse K)
    (hdim : e.dimension = 2 ∨ e.dimension = 3) (k : Nat) (hk : k < 9) :
    (e.canonicalCurve m).weight k = if k % 2 = 0 then 1 else 1 / m.sqrt 2 := by
  unfold SplineCurve.weight
  rcases hdim with h | h
  · rw [canonicalCurve_coefs_two m e h]
    have hd : (e.canonicalCurve m).dim = 2 := h
    rw [hd]
    interval_cases k <;> rfl
  · rw [canonicalCurve_coefs_three m e h]
    have hd : (e.canonicalCurve m).dim = 3 := h
    rw [hd]
    interval_cases k <;> rfl

theorem canonicalCurve_rcoef (m : Libm K) (e : Ellipse K)
    (hdim : e.dimension = 2 ∨ e.dimension = 3) (k i : Nat) (hk : k < 9)
    (hi : i < e.dimension) :
    (e.canonicalCurve m).rcoef k i =
      (if k % 2 = 0 then 1 else 1 / m.sqrt 2) * e.controlPosition k i := by
  unfold SplineCurve.rcoef Ellipse.controlPosition axis1Sign axis2Sign
  rcases hdim with h | h
  · rw [canonicalCurve_coefs_two m e h]
    have hd : (e.canonicalCurve m).dim = 2 := h
    rw [hd]
    rw [h] at hi
    interval_cases k <;> interval_cases i <;>
      simp only [List.getD_cons_zero, List.getD_cons_succ, Nat.reduceMul, Nat.reduceAdd,
        Nat.reduceMod, Nat.reduceEqDiff, one_ne_zero, if_true, if_false] <;> ring
  · rw [canonicalCurve_coefs_three m e h]
    have hd : (e.canonicalCurve m).dim = 3 := h
    rw [hd]
    rw [h] at hi
    interval_cases k <;> interval_cases i <;>
      simp only [List.getD_cons_zero, List.getD_cons_succ, Nat.reduceMul, Nat.reduceAdd,
        Nat.reduceMod, Nat.reduceEqDiff, one_ne_zero, if_true, if_false] <;> ring

/-- C9: the canonical curve of `createSplineCurve` satisfies the invariants
of a rational curve for every ellipse in 2D and 3D: its knot vector is
non-decreasing, has length `12 = 9 + 3`, starts at `0` and ends at `2π`, each
with multiplicity exactly 3; its 9 weights alternate `1, 1/sqrt(2), 1, ...`
and are strictly positive; and each stored control point is its position
multiplied by its weight. -/
theorem canonicalCurve_invariants (m : Libm K) (hpi : 0 < m.M_PI) (hs : 0 < m.sqrt 2)
    (e : Ellipse K) (hdim : e.dimension = 2 ∨ e.dimension = 3) :
    (e.canonicalCurve m).knots.Sorted (· ≤ ·) ∧
    (e.canonicalCurve m).knots.length = 12 ∧
    (e.canonicalCurve m).ncoefs = 9 ∧ (e.canonicalCurve m).order = 3 ∧
    (e.canonicalCurve m).knots.length =
      (e.canonicalCurve m).ncoefs + (e.canonicalCurve m).order ∧
    (e.canonicalCurve m).knots.head? = some 0 ∧
    (e.canonicalCurve m).knots.getLast? = some (2 * m.M_PI) ∧
    (e.canonicalCurve m).knots.count 0 = 3 ∧
    (e.canonicalCurve m).knots.count (2 * m.M_PI) = 3 ∧
    (e.canonicalCurve m).coefs.length = 9 * (e.dimension + 1) ∧
    (∀ k, k < 9 → (e.canonicalCurve m).weight k = if k % 2 = 0 then 1 else 1 / m.sqrt 2) ∧
    (∀ k, k < 9 → 0 < (e.canonicalCurve m).weight k) ∧
    (∀ k i, k < 9 → i < e.dimension →
      (e.canonicalCurve m).rcoef k i = (e.canonicalCurve m).weight k * e.controlPosition k i) := by
  have hw := canonicalCurve_weight m e hdim
  have hknots : (e.canonicalCurve m).knots = Ellipse.et m := rfl
  have hlen : (Ellipse.et m).length = 12 := by rw [et_eq]; rfl
  have hhead : (Ellipse.et m).head? = some 0 := by rw [et_eq]; rfl
  have hlast : (Ellipse.et m).getLast? = some (2 * m.M_PI) := by rw [et_eq]; rfl
  rw [hknots]
  refine ⟨et_sorted m hpi, hlen, rfl, rfl, hlen, hhead, hlast, (et_count m hpi).1,
    (et_count m hpi).2, ?_, hw, ?_, ?_⟩
  · rcases hdim with h | h
    · rw [canonicalCurve_coefs_two m e h, h]; rfl
    · rw [canonicalCurve_coefs_three m e h, h]; rfl
  · intro k hk
    rw [hw k hk]
    split_ifs
    · exact one_pos
    · exact one_div_pos.mpr hs
  · intro k i hk hi
    rw [hw k hk]
    exact canonicalCurve_rcoef m e hdim k i hk hi

/-- Witness for C9, over the reals: the unit circle in 3D and the 2D ellipse
with direction `(3, 4)`; all 9 weights are positive. -/
theorem canonicalCurve_invariants_witness :
    (0 < Real.pi ∧ 0 < Real.sqrt 2) ∧
    (∀ k, k < 9 → 0 < ((unitCircle (Libm.mk Real.pi Real.sqrt Real.cos Real.sin)).canonicalCurve
      (Libm.mk Real.pi Real.sqrt Real.cos Real.sin)).weight k) ∧
    ((direction2D (Libm.mk Real.pi Real.sqrt Real.cos Real.sin)).canonicalCurve
      (Libm.mk Real.pi Real.sqrt Real.cos Real.sin)).knots.count 0 = 3 :=
  ⟨⟨Real.pi_pos, Real.sqrt_pos.mpr two_pos⟩,
   (canonicalCurve_invariants (Libm.mk Real.pi Real.sqrt Real.cos Real.sin) Real.pi_pos
      (Real.sqrt_pos.mpr two_pos) (unitCircle _) (Or.inr rfl)).2.2.2.2.2.2.2.2.2.2.2.1,
   (canonicalCurve_invariants (Libm.mk Real.pi Real.sqrt Real.cos Real.sin) Real.pi_pos
      (Real.sqrt_pos.mpr two_pos) (direction2D _) (Or.inl rfl)).2.2.2.2.2.2.2.1⟩

end canonicalCurveLemmas

section basisLemmas

variable {K : Type} [LinearOrderedField K]

theorem et_eq_quarters (m : Libm K) :
    Ellipse.et m =
      [0, 0, 0, m.M_PI / 2, m.M_PI / 2, 2 * (m.M_PI / 2), 2 * (m.M_PI / 2),
       3 * (m.M_PI / 2), 3 * (m.M_PI / 2), 4 * (m.M_PI / 2), 4 * (m.M_PI / 2),
       4 * (m.M_PI / 2)] := by
  rw [et_eq]
  simp only [List.cons.injEq, and_true, true_and]
  norm_num
  refine ⟨?_, ?_, ?_, ?_⟩ <;> ring

set_option maxHeartbeats 1600000 in
/-- The order-1 basis functions of a knot vector `0,0,0,q,q,2q,2q,3q,3q,4q,4q,4q`. -/
theorem basis_one_quarters (q : K) (hq : 0 < q) (j : Nat) (hj : j < 4) (t : K)
    (h0 : (j : K) * q ≤ t) (h1 : t < (j + 1 : K) * q ∨ (j = 3 ∧ t = 4 * q))
    (i : Nat) (hi : i < 11) :
    bsplineBasis [0, 0, 0, q, q, 2 * q, 2 * q, 3 * q, 3 * q, 4 * q, 4 * q, 4 * q] 1 i t =
      if i = 2 * j + 2 then 1 else 0 := by
  unfold bsplineBasis knotAt
  interval_cases j <;> interval_cases i <;>
    simp only [List.getD_cons_zero, List.getD_cons_succ, List.getLastD_cons, List.getLastD_nil,
      Nat.reduceAdd, Nat.reduceMul, Nat.reduceEqDiff, Nat.cast_zero, Nat.cast_one,
      Nat.cast_ofNat, zero_mul, zero_add, one_mul] at h0 h1 ⊢
  all_goals split_ifs with hc
  all_goals first
    | rfl
    | contradiction
    | (exfalso
       rcases h1 with h1 | ⟨hF, h1⟩
       · first
         | (rcases hc with ⟨ha, hb⟩ | ⟨ha, hb, hc⟩ <;> linarith)
         | (apply hc; left; constructor <;> linarith)
       · first
         | exact hF.elim
         | (rcases hc with ⟨ha, hb⟩ | ⟨ha, hb, hc⟩ <;> linarith)
         | (apply hc; right; refine ⟨h1, ?_, ?_⟩ <;> first | trivial | rfl | linarith))

theorem bsplineBasis_two (knots : List K) (i : Nat) (t : K) :
    bsplineBasis knots 2 i t =
      (t - knotAt knots i) / (knotAt knots (i + 1) - knotAt knots i) * bsplineBasis knots 1 i t +
        (knotAt knots (i + 2) - t) / (knotAt knots (i + 2) - knotAt knots (i + 1)) *
          bsplineBasis knots 1 (i + 1) t := rfl

theorem bsplineBasis_three (knots : List K) (i : Nat) (t : K) :
    bsplineBasis knots 3 i t =
      (t - knotAt knots i) / (knotAt knots (i + 2) - knotAt knots i) * bsplineBasis knots 2 i t +
        (knotAt knots (i + 3) - t) / (knotAt knots (i + 3) - knotAt knots (i + 1)) *
          bsplineBasis knots 2 (i + 1) t := rfl

set_option maxHeartbeats 1600000 in
/-- The order-3 basis functions of the knot vector `0,0,0,q,q,2q,2q,3q,3q,4q,4q,4q` on its
`j`-th quarter are the quadratic Bernstein polynomials in `u = (t - j q) / q`. -/
theorem basis_three_quarters (q : K) (hq : 0 < q) (j : Nat) (hj : j < 4) (t : K)
    (h0 : (j : K) * q ≤ t) (h1 : t < (j + 1 : K) * q ∨ (j = 3 ∧ t = 4 * q))
    (k : Nat) (hk : k < 9) :
    bsplineBasis [0, 0, 0, q, q, 2 * q, 2 * q, 3 * q, 3 * q, 4 * q, 4 * q, 4 * q] 3 k t =
      if k = 2 * j then (1 - (t - j * q) / q) ^ 2
      else if k = 2 * j + 1 then 2 * ((t - j * q) / q) * (1 - (t - j * q) / q)
      else if k = 2 * j + 2 then ((t - j * q) / q) ^ 2
      else 0 := by
  have hB := basis_one_quarters q hq j hj t h0 h1
  rw [bsplineBasis_three, bsplineBasis_two, bsplineBasis_two, hB k (by omega),
    hB (k + 1) (by omega), hB (k + 1 + 1) (by omega)]
  have hq0 : q ≠ 0 := hq.ne'
  have e1 : 2 * q - q = q := by ring
  have e2 : 3 * q - 2 * q = q := by ring
  have e3 : 4 * q - 3 * q = q := by ring
  unfold knotAt
  interval_cases j <;> interval_cases k <;>
    simp only [List.getD_cons_zero, List.getD_cons_succ, Nat.reduceAdd, Nat.reduceMul,
      Nat.reduceEqDiff, Nat.cast_zero, Nat.cast_one, Nat.cast_ofNat, zero_mul, one_mul,
      if_true, if_false, sub_self, sub_zero, div_zero, mul_zero, mul_one, add_zero, zero_add,
      OfNat.ofNat_ne_zero, OfNat.zero_ne_ofNat, one_ne_zero, zero_ne_one, e1, e2, e3]
  all_goals first
    | rfl
    | (field_simp; ring)

theorem range_nine : List.range 9 = [0, 1, 2, 3, 4, 5, 6, 7, 8] := rfl

/-- On the `j`-th quarter of the knot vector `0,0,0,q,q,2q,2q,3q,3q,4q,4q,4q` a
B-spline combination of order 3 is the quadratic Bernstein combination of the
three coefficients `2j, 2j+1, 2j+2`. -/
theorem sum_basis_quarter (q : K) (hq : 0 < q) (j : Nat) (hj : j < 4) (t : K)
    (h0 : (j : K) * q ≤ t) (h1 : t < (j + 1 : K) * q ∨ (j = 3 ∧ t = 4 * q)) (x : Nat → K) :
    ((List.range 9).map fun k =>
      bsplineBasis [0, 0, 0, q, q, 2 * q, 2 * q, 3 * q, 3 * q, 4 * q, 4 * q, 4 * q] 3 k t *
        x k).sum =
      (1 - (t - j * q) / q) ^ 2 * x (2 * j) +
        2 * ((t - j * q) / q) * (1 - (t - j * q) / q) * x (2 * j + 1) +
        ((t - j * q) / q) ^ 2 * x (2 * j + 2) := by
  have hN := basis_three_quarters q hq j hj t h0 h1
  rw [range_nine]
  simp only [List.map_cons, List.map_nil, List.sum_cons, List.sum_nil]
  rw [hN 0 (by omega), hN 1 (by omega), hN 2 (by omega), hN 3 (by omega), hN 4 (by omega),
    hN 5 (by omega), hN 6 (by omega), hN 7 (by omega), hN 8 (by omega)]
  interval_cases j <;>
    simp only [Nat.reduceAdd, Nat.reduceMul, Nat.reduceEqDiff, if_true, if_false,
      OfNat.ofNat_ne_zero, OfNat.zero_ne_ofNat, one_ne_zero, zero_ne_one, OfNat.ofNat_ne_one,
      OfNat.one_ne_ofNat] <;>
    ring

theorem exists_quarter (q : K) (t : K) (ht0 : 0 ≤ t) (ht1 : t ≤ 4 * q) :
    ∃ j : Nat, j < 4 ∧ (j : K) * q ≤ t ∧ (t < (j + 1 : K) * q ∨ (j = 3 ∧ t = 4 * q)) := by
  rcases lt_or_le t q with h | h
  · exact ⟨0, by norm_num, by simpa using ht0, Or.inl (by simpa using h)⟩
  rcases lt_or_le t (2 * q) with h2 | h2
  · exact ⟨1, by norm_num, by simpa using h, Or.inl (by norm_num; linarith)⟩
  rcases lt_or_le t (3 * q) with h3 | h3
  · exact ⟨2, by norm_num, by simpa using h2, Or.inl (by norm_num; linarith)⟩
  rcases lt_or_eq_of_le ht1 with h4 | h4
  · exact ⟨3, by norm_num, by simpa using h3, Or.inl (by norm_num; linarith)⟩
  · exact ⟨3, by norm_num, by simpa using h3, Or.inr ⟨rfl, h4⟩⟩

end basisLemmas

section traceLemmas

variable {K : Type} [LinearOrderedField K]

/-- On the `j`-th quarter `[j π/2, (j+1) π/2]` the denominator and the
numerators of the canonical curve are quadratic Bernstein combinations in
`u = (t - j π/2) / (π/2)` of control points `2j`, `2j+1`, `2j+2`. -/
theorem canonicalCurve_quarter (m : Libm K) (hpi : 0 < m.M_PI) (e : Ellipse K)
    (hdim : e.dimension = 2 ∨ e.dimension = 3) (j : Nat) (hj : j < 4) (t : K)
    (h0 : (j : K) * (m.M_PI / 2) ≤ t)
    (h1 : t < (j + 1 : K) * (m.M_PI / 2) ∨ (j = 3 ∧ t = 4 * (m.M_PI / 2))) :
    (e.canonicalCurve m).denominator t =
        (1 - (t - j * (m.M_PI / 2)) / (m.M_PI / 2)) ^ 2 +
        2 * ((t - j * (m.M_PI / 2)) / (m.M_PI / 2)) * (1 - (t - j * (m.M_PI / 2)) / (m.M_PI / 2)) *
          (1 / m.sqrt 2) +
        ((t - j * (m.M_PI / 2)) / (m.M_PI / 2)) ^ 2 ∧
    ∀ i, i < e.dimension →
      (e.canonicalCurve m).numerator i t =
        (1 - (t - j * (m.M_PI / 2)) / (m.M_PI / 2)) ^ 2 * e.controlPosition (2 * j) i +
        2 * ((t - j * (m.M_PI / 2)) / (m.M_PI / 2)) * (1 - (t - j * (m.M_PI / 2)) / (m.M_PI / 2)) *
          ((1 / m.sqrt 2) * e.controlPosition (2 * j + 1) i) +
        ((t - j * (m.M_PI / 2)) / (m.M_PI / 2)) ^ 2 * e.controlPosition (2 * j + 2) i := by
  have hq : 0 < m.M_PI / 2 := by positivity
  have hknots : (e.canonicalCurve m).knots = Ellipse.et m := rfl
  have hord : (e.canonicalCurve m).order = 3 := rfl
  have hn : (e.canonicalCurve m).ncoefs = 9 := rfl
  have hw0 := canonicalCurve_weight m e hdim (2 * j) (by omega)
  have hw1 := canonicalCurve_weight m e hdim (2 * j + 1) (by omega)
  have hw2 := canonicalCurve_weight m e hdim (2 * j + 2) (by omega)
  rw [if_pos (by omega)] at hw0 hw2
  rw [if_neg (by omega)] at hw1
  constructor
  · unfold SplineCurve.denominator
    rw [hknots, hord, hn, et_eq_quarters,
      sum_basis_quarter (m.M_PI / 2) hq j hj t h0 h1 (e.canonicalCurve m).weight,
      hw0, hw1, hw2]
    ring
  · intro i hi
    have hr0 := canonicalCurve_rcoef m e hdim (2 * j) i (by omega) hi
    have hr1 := canonicalCurve_rcoef m e hdim (2 * j + 1) i (by omega) hi
    have hr2 := canonicalCurve_rcoef m e hdim (2 * j + 2) i (by omega) hi
    rw [if_pos (by omega)] at hr0 hr2
    rw [if_neg (by omega)] at hr1
    unfold SplineCurve.numerator
    rw [hknots, hord, hn, et_eq_quarters,
      sum_basis_quarter (m.M_PI / 2) hq j hj t h0 h1 (fun k => (e.canonicalCurve m).rcoef k i),
      hr0, hr1, hr2]
    ring

theorem Libm.SqrtExact.inv_sqrt_two {m : Libm K} (hm : m.SqrtExact) :
    0 < 1 / m.sqrt 2 ∧ (1 / m.sqrt 2) * (1 / m.sqrt 2) = 1 / 2 := by
  have h2 : (0 : K) ≤ 2 := by norm_num
  have hs := hm.sqrt_mul_self 2 h2
  have hn := hm.sqrt_nonneg 2 h2
  have hne : m.sqrt 2 ≠ 0 := by
    intro h
    rw [h] at hs
    norm_num at hs
  have hpos : 0 < m.sqrt 2 := lt_of_le_of_ne hn (Ne.symm hne)
  refine ⟨one_div_pos.mpr hpos, ?_⟩
  field_simp
  linear_combination -hs

theorem quarter_denominator_pos (u w : K) (hu0 : 0 ≤ u) (hu1 : u ≤ 1) (hw : 0 < w) :
    0 < (1 - u) ^ 2 + 2 * u * (1 - u) * w + u ^ 2 := by
  have h1 : 0 ≤ u * (1 - u) * w :=
    mul_nonneg (mul_nonneg hu0 (sub_nonneg.mpr hu1)) hw.le
  nlinarith [sq_nonneg (1 - 2 * u)]

theorem quarter_circle_identity (j : Nat) (hj : j < 4) (u w : K) (hw : w * w = 1 / 2) :
    ((1 - u) ^ 2 * axis1Sign (2 * j) + 2 * u * (1 - u) * (w * axis1Sign (2 * j + 1)) +
        u ^ 2 * axis1Sign (2 * j + 2)) *
      ((1 - u) ^ 2 * axis1Sign (2 * j) + 2 * u * (1 - u) * (w * axis1Sign (2 * j + 1)) +
        u ^ 2 * axis1Sign (2 * j + 2)) +
    ((1 - u) ^ 2 * axis2Sign (2 * j) + 2 * u * (1 - u) * (w * axis2Sign (2 * j + 1)) +
        u ^ 2 * axis2Sign (2 * j + 2)) *
      ((1 - u) ^ 2 * axis2Sign (2 * j) + 2 * u * (1 - u) * (w * axis2Sign (2 * j + 1)) +
        u ^ 2 * axis2Sign (2 * j + 2)) =
    ((1 - u) ^ 2 + 2 * u * (1 - u) * w + u ^ 2) *
      ((1 - u) ^ 2 + 2 * u * (1 - u) * w + u ^ 2) := by
  unfold axis1Sign axis2Sign
  interval_cases j <;>
    simp only [List.getD_cons_zero, List.getD_cons_succ, Nat.reduceMul, Nat.reduceAdd] <;>
    linear_combination (4 * u ^ 2 * (1 - u) ^ 2) * hw

/-- The homogeneous form of the canonical curve on `[0, 2π]`: a positive
denominator `W` and two numbers `A`, `B` with `A² + B² = W²` such that the
numerators are `centre * W + axis1 * A + axis2 * B`. -/
theorem canonicalCurve_homogeneous {m : Libm K} (hm : m.SqrtExact) (hpi : 0 < m.M_PI)
    (e : Ellipse K) (hdim : e.dimension = 2 ∨ e.dimension = 3) (t : K)
    (ht0 : 0 ≤ t) (ht1 : t ≤ 2 * m.M_PI) :
    ∃ A B W : K, 0 < W ∧ A * A + B * B = W * W ∧
      (e.canonicalCurve m).denominator t = W ∧
      ∀ i, i < e.dimension →
        (e.canonicalCurve m).numerator i t =
          e.centre_.get i * W + (Point.smul e.r1_ e.vec1_).get i * A +
            (Point.smul e.r2_ e.vec2_).get i * B := by
  have hq : 0 < m.M_PI / 2 := by positivity
  obtain ⟨j, hj, h0, h1⟩ := exists_quarter (m.M_PI / 2) t ht0 (by linarith)
  obtain ⟨hden, hnum⟩ := canonicalCurve_quarter m hpi e hdim j hj t h0 h1
  obtain ⟨hwpos, hw2⟩ := hm.inv_sqrt_two
  have hu0 : 0 ≤ (t - j * (m.M_PI / 2)) / (m.M_PI / 2) :=
    div_nonneg (by linarith) hq.le
  have hu1 : (t - j * (m.M_PI / 2)) / (m.M_PI / 2) ≤ 1 := by
    rw [div_le_one hq]
    rcases h1 with h1 | ⟨hj3, h1⟩
    · linarith
    · rw [h1, hj3]; norm_num; linarith
  generalize (t - j * (m.M_PI / 2)) / (m.M_PI / 2) = u at hden hnum hu0 hu1
  generalize 1 / m.sqrt 2 = w at hden hnum hwpos hw2
  refine ⟨(1 - u) ^ 2 * axis1Sign (2 * j) + 2 * u * (1 - u) * (w * axis1Sign (2 * j + 1)) +
        u ^ 2 * axis1Sign (2 * j + 2),
    (1 - u) ^ 2 * axis2Sign (2 * j) + 2 * u * (1 - u) * (w * axis2Sign (2 * j + 1)) +
        u ^ 2 * axis2Sign (2 * j + 2),
    (1 - u) ^ 2 + 2 * u * (1 - u) * w + u ^ 2,
    quarter_denominator_pos u w hu0 hu1 hwpos, quarter_circle_identity j hj u w hw2, hden, ?_⟩
  intro i hi
  rw [hnum i hi]
  unfold Ellipse.controlPosition
  ring

/-- The point of the canonical curve at `t ∈ [0, 2π]` is
`centre + α * axis1 + β * axis2` with `α² + β² = 1`. -/
theorem canonicalCurve_point_eq {m : Libm K} (hm : m.SqrtExact) (hpi : 0 < m.M_PI)
    (e : Ellipse K) (hdim : e.dimension = 2 ∨ e.dimension = 3) (t : K)
    (ht0 : 0 ≤ t) (ht1 : t ≤ 2 * m.M_PI) :
    ∃ α β : K, α * α + β * β = 1 ∧
      (e.canonicalCurve m).point t =
        ⟨(List.range e.dimension).map fun i =>
          e.centre_.get i + (Point.smul e.r1_ e.vec1_).get i * α +
            (Point.smul e.r2_ e.vec2_).get i * β⟩ := by
  obtain ⟨A, B, W, hW, hAB, hden, hnum⟩ := canonicalCurve_homogeneous hm hpi e hdim t ht0 ht1
  have hW0 : W ≠ 0 := hW.ne'
  refine ⟨A / W, B / W, ?_, ?_⟩
  · field_simp
    linear_combination hAB
  · unfold SplineCurve.point
    have hd : (e.canonicalCurve m).dim = e.dimension := rfl
    rw [hd, hden]
    congr 1
    apply List.map_congr_left
    intro i hi
    rw [hnum i (List.mem_range.mp hi)]
    field_simp

/-- The point of the canonical curve at the knot `k π/2`, `k = 0..4`, is
control point `2k`. -/
theorem canonicalCurve_point_at_knot (m : Libm K) (hpi : 0 < m.M_PI)
    (e : Ellipse K) (hdim : e.dimension = 2 ∨ e.dimension = 3) (k : Nat) (hk : k ≤ 4) :
    (e.canonicalCurve m).point (k * (m.M_PI / 2)) =
      ⟨(List.range e.dimension).map fun i => e.controlPosition (2 * k) i⟩ := by
  have hq : 0 < m.M_PI / 2 := by positivity
  have hd : (e.canonicalCurve m).dim = e.dimension := rfl
  unfold SplineCurve.point
  rw [hd]
  congr 1
  apply List.map_congr_left
  intro i hi
  have hi := List.mem_range.mp hi
  rcases Nat.lt_or_ge k 4 with h4 | h4
  · obtain ⟨hden, hnum⟩ := canonicalCurve_quarter m hpi e hdim k h4 (k * (m.M_PI / 2)) le_rfl
      (Or.inl (by linarith))
    rw [hden, hnum i hi]
    simp
  · have hk4 : k = 4 := le_antisymm hk h4
    subst hk4
    obtain ⟨hden, hnum⟩ := canonicalCurve_quarter m hpi e hdim 3 (by norm_num)
      (((4 : Nat) : K) * (m.M_PI / 2)) (by push_cast; linarith) (Or.inr ⟨rfl, by push_cast; ring⟩)
    rw [hden, hnum i hi]
    have hu : (((4 : Nat) : K) * (m.M_PI / 2) - ((3 : Nat) : K) * (m.M_PI / 2)) / (m.M_PI / 2) = 1 := by
      push_cast
      field_simp
      ring
    rw [hu]
    simp

theorem range_two : List.range 2 = [0, 1] := rfl

theorem range_three : List.range 3 = [0, 1, 2] := rfl

/-- The points of the canonical curve lie on the ellipse, in the plane
through the centre spanned by `vec1_` and `vec2_`. -/
theorem canonicalCurve_on_ellipse {m : Libm K} (hm : m.SqrtExact) (hpi : 0 < m.M_PI)
    (e : Ellipse K) (hdim : e.dimension = 2 ∨ e.dimension = 3)
    (hv1 : e.vec1_.dimension = e.dimension) (hv2 : e.vec2_.dimension = e.dimension)
    (h11 : e.vec1_.dot e.vec1_ = 1) (h22 : e.vec2_.dot e.vec2_ = 1)
    (h12 : e.vec1_.dot e.vec2_ = 0) (hr1 : e.r1_ ≠ 0) (hr2 : e.r2_ ≠ 0)
    (t : K) (ht0 : 0 ≤ t) (ht1 : t ≤ 2 * m.M_PI) :
    ((((e.canonicalCurve m).point t).sub e.centre_).dot e.vec1_ / e.r1_) ^ 2 +
      ((((e.canonicalCurve m).point t).sub e.centre_).dot e.vec2_ / e.r2_) ^ 2 = 1 ∧
    ∃ x y : K, ((e.canonicalCurve m).point t).sub e.centre_ =
      (Point.smul x e.vec1_).add (Point.smul y e.vec2_) := by
  obtain ⟨α, β, hαβ, hP⟩ := canonicalCurve_point_eq hm hpi e hdim t ht0 ht1
  rw [hP]
  clear hP
  unfold Ellipse.dimension at hdim hv1 hv2 ⊢
  generalize e.r1_ = r1 at hr1 ⊢
  generalize e.r2_ = r2 at hr2 ⊢
  rcases hdim with h | h
  · rw [h] at hv1 hv2 ⊢
    obtain ⟨c0, c1, hc⟩ := Point.exists_of_dimension_two _ h
    obtain ⟨x0, x1, hx⟩ := Point.exists_of_dimension_two _ hv1
    obtain ⟨y0, y1, hy⟩ := Point.exists_of_dimension_two _ hv2
    simp only [hx, hy, Point.dot_two] at h11 h22 h12
    rw [hc, hx, hy, range_two]
    simp only [List.map_cons, List.map_nil, Point.get, Point.smul, Point.sub, Point.add,
      List.getD_cons_zero, List.getD_cons_succ, List.zipWith_cons_cons, List.zipWith_nil_left,
      Point.dot_two]
    constructor
    · have d1 : (c0 + r1 * x0 * α + r2 * y0 * β - c0) * x0 +
          (c1 + r1 * x1 * α + r2 * y1 * β - c1) * x1 = r1 * α := by
        linear_combination (r1 * α) * h11 + (r2 * β) * h12
      have d2 : (c0 + r1 * x0 * α + r2 * y0 * β - c0) * y0 +
          (c1 + r1 * x1 * α + r2 * y1 * β - c1) * y1 = r2 * β := by
        linear_combination (r2 * β) * h22 + (r1 * α) * h12
      rw [d1, d2, mul_div_cancel_left₀ _ hr1, mul_div_cancel_left₀ _ hr2]
      linear_combination hαβ
    · refine ⟨r1 * α, r2 * β, ?_⟩
      simp only [Point.mk.injEq, List.cons.injEq, and_true]
      constructor <;> ring
  · rw [h] at hv1 hv2 ⊢
    obtain ⟨c0, c1, c2, hc⟩ := Point.exists_of_dimension_three _ h
    obtain ⟨x0, x1, x2, hx⟩ := Point.exists_of_dimension_three _ hv1
    obtain ⟨y0, y1, y2, hy⟩ := Point.exists_of_dimension_three _ hv2
    simp only [hx, hy, Point.dot_three] at h11 h22 h12
    rw [hc, hx, hy, range_three]
    simp only [List.map_cons, List.map_nil, Point.get, Point.smul, Point.sub, Point.add,
      List.getD_cons_zero, List.getD_cons_succ, List.zipWith_cons_cons, List.zipWith_nil_left,
      Point.dot_three]
    constructor
    · have d1 : (c0 + r1 * x0 * α + r2 * y0 * β - c0) * x0 +
          (c1 + r1 * x1 * α + r2 * y1 * β - c1) * x1 +
          (c2 + r1 * x2 * α + r2 * y2 * β - c2) * x2 = r1 * α := by
        linear_combination (r1 * α) * h11 + (r2 * β) * h12
      have d2 : (c0 + r1 * x0 * α + r2 * y0 * β - c0) * y0 +
          (c1 + r1 * x1 * α + r2 * y1 * β - c1) * y1 +
          (c2 + r1 * x2 * α + r2 * y2 * β - c2) * y2 = r2 * β := by
        linear_combination (r2 * β) * h22 + (r1 * α) * h12
      rw [d1, d2, mul_div_cancel_left₀ _ hr1, mul_div_cancel_left₀ _ hr2]
      linear_combination hαβ
    · refine ⟨r1 * α, r2 * β, ?_⟩
      simp only [Point.mk.injEq, List.cons.injEq, and_true]
      refine ⟨?_, ?_, ?_⟩ <;> ring

end traceLemmas

section traceReal

theorem real_cos_sin_quarter (k : Nat) (hk : k ≤ 4) :
    Real.cos (k * (Real.pi / 2)) = axis1Sign (2 * k) ∧
    Real.sin (k * (Real.pi / 2)) = axis2Sign (2 * k) := by
  have h2 : (2 : ℝ) * (Real.pi / 2) = Real.pi := by ring
  have h3 : (3 : ℝ) * (Real.pi / 2) = Real.pi + Real.pi / 2 := by ring
  have h4 : (4 : ℝ) * (Real.pi / 2) = 2 * Real.pi := by ring
  unfold axis1Sign axis2Sign
  interval_cases k
  · simp
  · simp
  · simp [h2]
  · simp [h3, Real.cos_add, Real.sin_add]
  · simp [h4]

/-- C6: over the reals, for an ellipse of dimension 2 or 3 with orthonormal
`vec1_`, `vec2_` and non-zero radii, the canonical rational quadratic curve
of `createSplineCurve` traces the ellipse exactly: for every `t ∈ [0, 2π]`
its point `P` satisfies
`((P - centre).vec1_/r1)² + ((P - centre).vec2_/r2)² = 1` with `P - centre`
in the span of `vec1_`, `vec2_`, and at `t = k π/2`, `k = 0..4`, `P` is
`centre + r1 cos(t) vec1_ + r2 sin(t) vec2_`. -/
theorem canonicalCurve_traces_ellipse (e : Ellipse ℝ)
    (hdim : e.dimension = 2 ∨ e.dimension = 3)
    (hv1 : e.vec1_.dimension = e.dimension) (hv2 : e.vec2_.dimension = e.dimension)
    (h11 : e.vec1_.dot e.vec1_ = 1) (h22 : e.vec2_.dot e.vec2_ = 1)
    (h12 : e.vec1_.dot e.vec2_ = 0) (hr1 : e.r1_ ≠ 0) (hr2 : e.r2_ ≠ 0) :
    (∀ t : ℝ, 0 ≤ t → t ≤ 2 * Real.pi →
      ((((e.canonicalCurve (Libm.mk Real.pi Real.sqrt Real.cos Real.sin)).point t).sub
          e.centre_).dot e.vec1_ / e.r1_) ^ 2 +
        ((((e.canonicalCurve (Libm.mk Real.pi Real.sqrt Real.cos Real.sin)).point t).sub
          e.centre_).dot e.vec2_ / e.r2_) ^ 2 = 1 ∧
      ∃ x y : ℝ,
        ((e.canonicalCurve (Libm.mk Real.pi Real.sqrt Real.cos Real.sin)).point t).sub
          e.centre_ = (Point.smul x e.vec1_).add (Point.smul y e.vec2_)) ∧
    (∀ k : Nat, k ≤ 4 →
      (e.canonicalCurve (Libm.mk Real.pi Real.sqrt Real.cos Real.sin)).point
          (k * (Real.pi / 2)) =
        (e.centre_.add (Point.smul (e.r1_ * Real.cos (k * (Real.pi / 2))) e.vec1_)).add
          (Point.smul (e.r2_ * Real.sin (k * (Real.pi / 2))) e.vec2_)) := by
  constructor
  · intro t ht0 ht1
    exact canonicalCurve_on_ellipse real_sqrtExact Real.pi_pos e hdim hv1 hv2 h11 h22 h12
      hr1 hr2 t ht0 ht1
  · intro k hk
    rw [canonicalCurve_point_at_knot (Libm.mk Real.pi Real.sqrt Real.cos Real.sin)
      Real.pi_pos e hdim k hk, (real_cos_sin_quarter k hk).1, (real_cos_sin_quarter k hk).2]
    unfold Ellipse.controlPosition Ellipse.dimension at *
    rcases hdim with h | h
    · rw [h] at hv1 hv2 ⊢
      obtain ⟨c0, c1, hc⟩ := Point.exists_of_dimension_two _ h
      obtain ⟨x0, x1, hx⟩ := Point.exists_of_dimension_two _ hv1
      obtain ⟨y0, y1, hy⟩ := Point.exists_of_dimension_two _ hv2
      rw [hc, hx, hy, range_two]
      simp only [List.map_cons, List.map_nil, Point.get, Point.smul, Point.add,
        List.getD_cons_zero, List.getD_cons_succ, List.zipWith_cons_cons,
        List.zipWith_nil_left, Point.mk.injEq, List.cons.injEq, and_true]
      constructor <;> ring
    · rw [h] at hv1 hv2 ⊢
      obtain ⟨c0, c1, c2, hc⟩ := Point.exists_of_dimension_three _ h
      obtain ⟨x0, x1, x2, hx⟩ := Point.exists_of_dimension_three _ hv1
      obtain ⟨y0, y1, y2, hy⟩ := Point.exists_of_dimension_three _ hv2
      rw [hc, hx, hy, range_three]
      simp only [List.map_cons, List.map_nil, Point.get, Point.smul, Point.add,
        List.getD_cons_zero, List.getD_cons_succ, List.zipWith_cons_cons,
        List.zipWith_nil_left, Point.mk.injEq, List.cons.injEq, and_true]
      refine ⟨?_, ?_, ?_⟩ <;> ring

/-- Witness for C6: the unit circle of the `xy`-plane in 3D, at the
parameter `t = 1` and at the knot `π/2`. -/
theorem canonicalCurve_traces_ellipse_witness :
    ((0 : ℝ) ≤ 1 ∧ (1 : ℝ) ≤ 2 * Real.pi) ∧
    ((((((unitCircle (Libm.mk Real.pi Real.sqrt Real.cos Real.sin)).canonicalCurve
          (Libm.mk Real.pi Real.sqrt Real.cos Real.sin)).point 1).sub
        (unitCircle (Libm.mk Real.pi Real.sqrt Real.cos Real.sin)).centre_).dot
          (unitCircle (Libm.mk Real.pi Real.sqrt Real.cos Real.sin)).vec1_ /
        (unitCircle (Libm.mk Real.pi Real.sqrt Real.cos Real.sin)).r1_) ^ 2 +
      (((((unitCircle (Libm.mk Real.pi Real.sqrt Real.cos Real.sin)).canonicalCurve
          (Libm.mk Real.pi Real.sqrt Real.cos Real.sin)).point 1).sub
        (unitCircle (Libm.mk Real.pi Real.sqrt Real.cos Real.sin)).centre_).dot
          (unitCircle (Libm.mk Real.pi Real.sqrt Real.cos Real.sin)).vec2_ /
        (unitCircle (Libm.mk Real.pi Real.sqrt Real.cos Real.sin)).r2_) ^ 2 = 1) ∧
    ((unitCircle (Libm.mk Real.pi Real.sqrt Real.cos Real.sin)).canonicalCurve
        (Libm.mk Real.pi Real.sqrt Real.cos Real.sin)).point (((1 : Nat) : ℝ) * (Real.pi / 2)) =
      ((unitCircle (Libm.mk Real.pi Real.sqrt Real.cos Real.sin)).centre_.add
        (Point.smul ((unitCircle (Libm.mk Real.pi Real.sqrt Real.cos Real.sin)).r1_ *
            Real.cos (((1 : Nat) : ℝ) * (Real.pi / 2)))
          (unitCircle (Libm.mk Real.pi Real.sqrt Real.cos Real.sin)).vec1_)).add
        (Point.smul ((unitCircle (Libm.mk Real.pi Real.sqrt Real.cos Real.sin)).r2_ *
            Real.sin (((1 : Nat) : ℝ) * (Real.pi / 2)))
          (unitCircle (Libm.mk Real.pi Real.sqrt Real.cos Real.sin)).vec2_) := by
  have hpi := Real.pi_gt_three
  have h := canonicalCurve_traces_ellipse
    (unitCircle (Libm.mk Real.pi Real.sqrt Real.cos Real.sin)) (Or.inr rfl) rfl rfl
    (by simp [unitCircle, Point.dot]) (by simp [unitCircle, Point.dot])
    (by simp [unitCircle, Point.dot]) (by simp [unitCircle]) (by simp [unitCircle])
  exact ⟨⟨zero_le_one, by linarith⟩, (h.1 1 zero_le_one (by linarith)).1, h.2 1 (by norm_num)⟩

end traceReal



section roundTripLemmas

variable {K : Type} [LinearOrderedField K]

/-- The point of the canonical curve on its `j`-th quarter. -/
theorem canonicalCurve_point_quarter (m : Libm K) (hpi : 0 < m.M_PI) (e : Ellipse K)
    (hdim : e.dimension = 2 ∨ e.dimension = 3) (j : Nat) (hj : j < 4) (t u : K)
    (hu : u = (t - j * (m.M_PI / 2)) / (m.M_PI / 2))
    (h0 : (j : K) * (m.M_PI / 2) ≤ t)
    (h1 : t < (j + 1 : K) * (m.M_PI / 2) ∨ (j = 3 ∧ t = 4 * (m.M_PI / 2))) :
    (e.canonicalCurve m).point t =
      ⟨(List.range e.dimension).map fun i =>
        ((1 - u) ^ 2 * e.controlPosition (2 * j) i +
          2 * u * (1 - u) * ((1 / m.sqrt 2) * e.controlPosition (2 * j + 1) i) +
          u ^ 2 * e.controlPosition (2 * j + 2) i) /
        ((1 - u) ^ 2 + 2 * u * (1 - u) * (1 / m.sqrt 2) + u ^ 2)⟩ := by
  obtain ⟨hden, hnum⟩ := canonicalCurve_quarter m hpi e hdim j hj t h0 h1
  have hd : (e.canonicalCurve m).dim = e.dimension := rfl
  unfold SplineCurve.point
  rw [hd, hden, hu]
  congr 1
  apply List.map_congr_left
  intro i hi
  rw [hnum i (List.mem_range.mp hi)]

end roundTripLemmas

section roundTripReal

theorem real_eighthArc_point (t : ℝ) :
    (eighthArc (Libm.mk Real.pi Real.sqrt Real.cos Real.sin)).point
      (Libm.mk Real.pi Real.sqrt Real.cos Real.sin) t = ⟨[Real.cos t, Real.sin t, 0]⟩ := by
  simp [Ellipse.point, Ellipse.getReversedParameter, eighthArc, Point.add, Point.smul]

theorem real_eighthArc_curve_point (t u : ℝ) (hu : u = t / (Real.pi / 2)) (h0 : 0 ≤ t)
    (h1 : t < Real.pi / 2) :
    ((eighthArc (Libm.mk Real.pi Real.sqrt Real.cos Real.sin)).canonicalCurve
      (Libm.mk Real.pi Real.sqrt Real.cos Real.sin)).point t =
      ⟨[((1 - u) ^ 2 + 2 * u * (1 - u) * (1 / Real.sqrt 2)) /
          ((1 - u) ^ 2 + 2 * u * (1 - u) * (1 / Real.sqrt 2) + u ^ 2),
        (2 * u * (1 - u) * (1 / Real.sqrt 2) + u ^ 2) /
          ((1 - u) ^ 2 + 2 * u * (1 - u) * (1 / Real.sqrt 2) + u ^ 2),
        0]⟩ := by
  rw [canonicalCurve_point_quarter (Libm.mk Real.pi Real.sqrt Real.cos Real.sin) Real.pi_pos
    (eighthArc _) (Or.inr rfl) 0 (by norm_num) t u (by simpa using hu) (by simpa using h0)
    (Or.inl (by simpa using h1))]
  have hd : (eighthArc (Libm.mk Real.pi Real.sqrt Real.cos Real.sin)).dimension = 3 := rfl
  rw [hd, range_three]
  simp [Ellipse.controlPosition, axis1Sign, axis2Sign, eighthArc, Point.get, Point.smul]

theorem real_sqrt_two_facts :
    0 < Real.sqrt 2 ∧ Real.sqrt 2 * Real.sqrt 2 = 2 :=
  ⟨Real.sqrt_pos.mpr two_pos, Real.mul_self_sqrt (by norm_num)⟩

theorem real_eighthArc_curve_start :
    ((eighthArc (Libm.mk Real.pi Real.sqrt Real.cos Real.sin)).canonicalCurve
      (Libm.mk Real.pi Real.sqrt Real.cos Real.sin)).point (Real.pi / 4) =
    (eighthArc (Libm.mk Real.pi Real.sqrt Real.cos Real.sin)).point
      (Libm.mk Real.pi Real.sqrt Real.cos Real.sin) (Real.pi / 4) := by
  have hpi := Real.pi_pos
  obtain ⟨hs0, hs2⟩ := real_sqrt_two_facts
  rw [real_eighthArc_point, Real.cos_pi_div_four, Real.sin_pi_div_four,
    real_eighthArc_curve_point (Real.pi / 4) (1 / 2) (by field_simp; ring) (by positivity)
      (by linarith)]
  generalize Real.sqrt 2 = s at hs0 hs2
  have hs : s ≠ 0 := hs0.ne'
  simp only [Point.mk.injEq, List.cons.injEq, and_true]
  constructor
  · field_simp
    linear_combination (-128 * s) * hs2
  · field_simp
    linear_combination (-128 * s) * hs2

theorem real_eighthArc_curve_end :
    ((eighthArc (Libm.mk Real.pi Real.sqrt Real.cos Real.sin)).canonicalCurve
      (Libm.mk Real.pi Real.sqrt Real.cos Real.sin)).point (Real.pi / 2) =
    (eighthArc (Libm.mk Real.pi Real.sqrt Real.cos Real.sin)).point
      (Libm.mk Real.pi Real.sqrt Real.cos Real.sin) (Real.pi / 2) := by
  have h := canonicalCurve_point_at_knot (Libm.mk Real.pi Real.sqrt Real.cos Real.sin)
    Real.pi_pos (eighthArc (Libm.mk Real.pi Real.sqrt Real.cos Real.sin)) (Or.inr rfl) 1
    (by norm_num)
  simp only [Nat.cast_one, one_mul] at h
  rw [h, real_eighthArc_point]
  have hd : (eighthArc (Libm.mk Real.pi Real.sqrt Real.cos Real.sin)).dimension = 3 := rfl
  rw [hd, range_three]
  simp [Ellipse.controlPosition, axis1Sign, axis2Sign, eighthArc, Point.get, Point.smul]

theorem real_cos_three_pi_div_eight (c : ℝ) (hc : c = Real.cos (3 * Real.pi / 8)) :
    2 * c ^ 2 - 1 = -(Real.sqrt 2 / 2) := by
  have h1 : Real.cos (2 * (3 * Real.pi / 8)) = 2 * Real.cos (3 * Real.pi / 8) ^ 2 - 1 :=
    Real.cos_two_mul _
  have h2 : 2 * (3 * Real.pi / 8) = Real.pi - Real.pi / 4 := by ring
  rw [h2, Real.cos_pi_sub, Real.cos_pi_div_four] at h1
  rw [hc, ← h1]

/-- C7, as stated, fails at the midpoint: over the reals, for the arc
`[π/4, π/2]` of the unit circle the canonical curve meets the two end points
exactly at the seeds `π/4` and `π/2` handed to `closestPoint`, but the
returned curve, evaluated at the midpoint `3π/8`, is not the ellipse point of
parameter `3π/8`. -/
theorem createSplineCurve_midpoint_differs :
    ((eighthArc (Libm.mk Real.pi Real.sqrt Real.cos Real.sin)).canonicalCurve
        (Libm.mk Real.pi Real.sqrt Real.cos Real.sin)).point (Real.pi / 4) =
      ((eighthArc (Libm.mk Real.pi Real.sqrt Real.cos Real.sin)).closestPointTargets
        (Libm.mk Real.pi Real.sqrt Real.cos Real.sin)).1 ∧
    ((eighthArc (Libm.mk Real.pi Real.sqrt Real.cos Real.sin)).canonicalCurve
        (Libm.mk Real.pi Real.sqrt Real.cos Real.sin)).point (Real.pi / 2) =
      ((eighthArc (Libm.mk Real.pi Real.sqrt Real.cos Real.sin)).closestPointTargets
        (Libm.mk Real.pi Real.sqrt Real.cos Real.sin)).2 ∧
    (eighthArc (Libm.mk Real.pi Real.sqrt Real.cos Real.sin)).createSplineCurvePoint
        (Libm.mk Real.pi Real.sqrt Real.cos Real.sin) (Real.pi / 4) (Real.pi / 2)
        ((Real.pi / 4 + Real.pi / 2) / 2) ≠
      (eighthArc (Libm.mk Real.pi Real.sqrt Real.cos Real.sin)).point
        (Libm.mk Real.pi Real.sqrt Real.cos Real.sin) ((Real.pi / 4 + Real.pi / 2) / 2) := by
  have hpi := Real.pi_pos
  refine ⟨real_eighthArc_curve_start, real_eighthArc_curve_end, ?_⟩
  have hmid : (Real.pi / 4 + Real.pi / 2) / 2 = 3 * Real.pi / 8 := by ring
  have hparam : Real.pi / 4 + (3 * Real.pi / 8 - Real.pi / 4) / (Real.pi / 2 - Real.pi / 4) *
      (Real.pi / 2 - Real.pi / 4) = 3 * Real.pi / 8 := by
    have hne : Real.pi / 2 - Real.pi / 4 ≠ 0 := by
      have : Real.pi / 2 - Real.pi / 4 = Real.pi / 4 := by ring
      rw [this]
      positivity
    rw [div_mul_cancel₀ _ hne]
    ring
  rw [hmid]
  unfold Ellipse.createSplineCurvePoint
  simp only [eighthArc, Bool.false_eq_true, if_false]
  rw [hparam]
  have h := real_eighthArc_curve_point (3 * Real.pi / 8) (3 / 4) (by field_simp; ring)
    (by positivity) (by linarith)
  unfold eighthArc at h
  rw [h]
  have hp := real_eighthArc_point (3 * Real.pi / 8)
  unfold eighthArc at hp
  rw [hp]
  intro heq
  simp only [Point.mk.injEq, List.cons.injEq, and_true] at heq
  obtain ⟨hs0, hs2⟩ := real_sqrt_two_facts
  have hc2 := real_cos_three_pi_div_eight _ rfl
  generalize Real.cos (3 * Real.pi / 8) = c at heq hc2
  generalize Real.sqrt 2 = s at heq hs0 hs2 hc2
  have hs : s ≠ 0 := hs0.ne'
  have hxc : s + 6 = c * (10 * s + 6) := by
    have h1 := heq.1
    have hden : (1 - (3 / 4 : ℝ)) ^ 2 + 2 * (3 / 4) * (1 - 3 / 4) * (1 / s) + (3 / 4) ^ 2 ≠ 0 := by
      positivity
    rw [div_eq_iff hden] at h1
    field_simp at h1
    have h2 : (65536 * s) * (s + 6 - c * (10 * s + 6)) = 0 := by linear_combination h1
    rcases mul_eq_zero.mp h2 with h3 | h3
    · exact absurd h3 (by positivity)
    · linarith
  have key : 2 * (s + 6) ^ 2 - (10 * s + 6) ^ 2 + (s / 2) * (10 * s + 6) ^ 2 = 0 := by
    linear_combination (2 * ((s + 6) + c * (10 * s + 6))) * hxc + (10 * s + 6) ^ 2 * hc2
  have h22 : 22 * s = 40 := by
    linear_combination key + (-50 * s + 38) * hs2
  have hs' : s = 20 / 11 := by linarith
  rw [hs'] at hs2
  norm_num at hs2

end roundTripReal

section driverTheorems

/-- When `main` gets as far as building the surface, the declared counts
match the number of arguments. -/
theorem main_builds_only_on_matching_counts (argv : List String) (u v : Int)
    (h : main argv = .buildsSurface u v) :
    u + v + 5 = (argv.length : Int) ∧ (6 : Int) ≤ argv.length := by
  unfold main at h
  simp only [] at h
  split_ifs at h with h1 h2 h3
  simp only [MainOutcome.buildsSurface.injEq] at h
  obtain ⟨hu, hv⟩ := h
  rw [← hu, ← hv]
  exact ⟨not_not.mp h3, not_lt.mp h1⟩

/-- C10 at two failing inputs: with the six arguments
`testGordonSurface surf.g2 100 0.5 1 out.g2` the declared u-count is `100`,
so `main` reads the v-count from `argv[103]`, outside the argument vector;
with a declared u-count of `-7` it reads `argv[-4]`. -/
theorem main_reads_outside_argv :
    main ["testGordonSurface", "surf.g2", "100", "0.5", "1", "out.g2"] =
      .argvOutOfBounds 103 ∧
    main ["testGordonSurface", "surf.g2", "-7", "0.5", "2", "0.5", "out.g2"] =
      .argvOutOfBounds (-4) := by
  decide

end driverTheorems

section roundTripStream

variable {K : Type} [LinearOrderedField K]

theorem Point.readFrom_get (p : Point K) : Point.readFrom p.dimension p.get = p := by
  obtain ⟨l⟩ := p
  unfold Point.readFrom Point.dimension Point.get
  congr 1
  apply List.ext_getElem
  · simp
  · intro i h1 h2
    simp only [List.getElem_map, List.getElem_range]
    rw [List.getD_eq_getElem l 0 h2]

theorem Point.normalize_of_length_one (m : Libm K) (p : Point K) (h : p.length m = 1) :
    p.normalize m = p := by
  obtain ⟨l⟩ := p
  unfold Point.normalize
  rw [h]
  simp

/-- On a valid frame `setSpanningVectors` changes nothing, whatever `vec2_`
held before. -/
theorem setSpanningVectors_of_validFrame {m : Libm K} (hm : m.SqrtExact) (e : Ellipse K)
    (hv : e.validFrame m) (v : Point K) :
    ({ e with vec2_ := v }).setSpanningVectors m = ⟨e, none⟩ := by
  obtain ⟨hv1, hv2, hn, hlen, h | h⟩ := hv
  · obtain ⟨h2, hrot⟩ := h
    rw [setSpanningVectors_two m ({ e with vec2_ := v }) h2]
    simp only []
    rw [Point.normalize_of_length_one m e.vec1_ hlen]
    have hvl : (Point.mk [-(e.vec1_.get 1), e.vec1_.get 0]).length m = 1 := by
      rw [h2] at hv1
      obtain ⟨x, y, hx⟩ := Point.exists_of_dimension_two _ hv1
      rw [hx] at hlen ⊢
      have hget1 : (Point.mk [x, y]).get 1 = y := rfl
      have hget0 : (Point.mk [x, y]).get 0 = x := rfl
      rw [hget1, hget0]
      unfold Point.length at hlen ⊢
      rw [← hlen]
      congr 1
      rw [Point.dot_two, Point.dot_two]
      ring
    rw [Point.normalize_of_length_one m _ hvl, ← hrot]
  · obtain ⟨h3, hnl, hdot, hcross⟩ := h
    rw [setSpanningVectors_three m ({ e with vec2_ := v }) h3]
    simp only []
    rw [h3] at hv1 hn
    obtain ⟨x0, x1, x2, hx⟩ := Point.exists_of_dimension_three _ hv1
    obtain ⟨n0, n1, n2, hnn⟩ := Point.exists_of_dimension_three _ hn
    have hproj : e.vec1_.planeProjection e.normal_ = e.vec1_ := by
      rw [hx, hnn, Point.planeProjection_three]
      rw [hx, hnn, Point.dot_three] at hdot
      rw [hdot]
      simp
    rw [hproj, if_neg (by rw [hlen]; exact one_ne_zero),
      Point.normalize_of_length_one m e.vec1_ hlen]
    have hcl : (e.normal_.cross e.vec1_).length m = 1 := by
      have h11 := hm.eq_one_of_sqrt_eq_one (Point.dot_self_nonneg _) hlen
      have hnn1 := hm.eq_one_of_sqrt_eq_one (Point.dot_self_nonneg _) hnl
      rw [hx, hnn] at hdot ⊢
      rw [hx] at h11
      rw [hnn] at hnn1
      rw [Point.dot_three] at h11 hnn1 hdot
      apply Point.length_eq_one_of_dot hm
      rw [Point.cross_three, Point.dot_three]
      linear_combination (x0 * x0 + x1 * x1 + x2 * x2) * hnn1 + h11 -
        (x0 * n0 + x1 * n1 + x2 * n2) * hdot
    rw [Point.normalize_of_length_one m _ hcl, ← hcross]

/-- Reading back what `write` emitted for an ellipse with a valid frame gives
the same ellipse up to the `1e-4` snapping of the two parameters. -/
theorem read_write_eq {m : Libm K} (hm : m.SqrtExact) (e e0 : Ellipse K)
    (hv : e.validFrame m) :
    e0.read m e.write =
      ⟨{ e with
          startparam_ := if fabs e.startparam_ < pareps then 0 else e.startparam_,
          endparam_ := if fabs (e.endparam_ - 2 * m.M_PI) < pareps then 2 * m.M_PI
            else e.endparam_ }, none⟩ := by
  have hv' := hv
  obtain ⟨hv1, hv2, hn, hlen, hcase⟩ := hv'
  have hc : Point.readFrom e.dimension e.centre_.get = e.centre_ := Point.readFrom_get _
  have hnr : Point.readFrom e.dimension e.normal_.get = e.normal_ := by
    rw [← hn]; exact Point.readFrom_get _
  have hvr : Point.readFrom e.dimension e.vec1_.get = e.vec1_ := by
    rw [← hv1]; exact Point.readFrom_get _
  have hnorm : e.dimension = 3 → e.normal_.normalize m = e.normal_ := by
    intro h3
    rcases hcase with h | h
    · rw [h.1] at h3; exact absurd h3 (by decide)
    · exact Point.normalize_of_length_one m _ h.2.1
  obtain ⟨c, v1, v2, n, r1, r2, sp, ep, rev⟩ := e
  have hspan := setSpanningVectors_of_validFrame hm
    (Ellipse.mk c v1 v2 n r1 r2 e0.startparam_ e0.endparam_ e0.isReversed_) hv e0.vec2_
  unfold Ellipse.read Ellipse.write
  simp only [Bool.not_true, Bool.false_eq_true, if_false, hc, hnr, hvr] at hspan hnorm ⊢
  have harg : (if (Ellipse.mk c v1 v2 n r1 r2 sp ep rev).dimension = 3 then
        Ellipse.mk c v1 e0.vec2_ (n.normalize m) r1 r2 e0.startparam_ e0.endparam_
          e0.isReversed_
      else Ellipse.mk c v1 e0.vec2_ n r1 r2 e0.startparam_ e0.endparam_ e0.isReversed_) =
      Ellipse.mk c v1 e0.vec2_ n r1 r2 e0.startparam_ e0.endparam_ e0.isReversed_ := by
    split_ifs with h3
    · rw [hnorm h3]
    · rfl
  rw [harg, hspan]
  simp only []
  cases rev
  · simp only [Bool.not_false, if_true]
    simp only [apply_ite Ellipse.startparam_, apply_ite Ellipse.endparam_,
      apply_ite Ellipse.centre_, apply_ite Ellipse.vec1_, apply_ite Ellipse.vec2_,
      apply_ite Ellipse.normal_, apply_ite Ellipse.r1_, apply_ite Ellipse.r2_, if_true,
      ite_self, Res.mk.injEq, Ellipse.mk.injEq, and_self]
  · simp only [Bool.not_true, Bool.false_eq_true, if_false, one_ne_zero,
      Ellipse.reverseParameterDirection]
    simp only [apply_ite Ellipse.startparam_, apply_ite Ellipse.endparam_,
      apply_ite Ellipse.centre_, apply_ite Ellipse.vec1_, apply_ite Ellipse.vec2_,
      apply_ite Ellipse.normal_, apply_ite Ellipse.r1_, apply_ite Ellipse.r2_, if_true,
      ite_self, Res.mk.injEq, Ellipse.mk.injEq, and_self, Bool.not_false]

/-- C13 (amended): for every valid ellipse `e` of dimension 2 or 3 whose
start parameter is `0` or at least `1e-4` away from `0` and whose end
parameter is `2π` or at least `1e-4` away from `2π`, reading back what
`write` emitted (the numbers taken as exact) yields, whatever the object read
into, an ellipse equal to `e` in every field, so that `point(t)` agrees with
`e` for every `t`. -/
theorem read_write_round_trip {m : Libm K} (hm : m.SqrtExact) (e e0 : Ellipse K)
    (hv : e.validFrame m)
    (hs : e.startparam_ = 0 ∨ ¬ fabs e.startparam_ < pareps)
    (he : e.endparam_ = 2 * m.M_PI ∨ ¬ fabs (e.endparam_ - 2 * m.M_PI) < pareps) :
    e0.read m e.write = ⟨e, none⟩ ∧
    ∀ t : K, (e0.read m e.write).state.point m t = e.point m t := by
  have hstart : (if fabs e.startparam_ < pareps then (0 : K) else e.startparam_) =
      e.startparam_ := by
    rcases hs with h | h
    · rw [h]; simp
    · rw [if_neg h]
  have hend : (if fabs (e.endparam_ - 2 * m.M_PI) < pareps then 2 * m.M_PI else e.endparam_) =
      e.endparam_ := by
    rcases he with h | h
    · rw [h]; simp
    · rw [if_neg h]
  have hread : e0.read m e.write = ⟨e, none⟩ := by
    rw [read_write_eq hm e e0 hv, hstart, hend]
  exact ⟨hread, fun t => by rw [hread]⟩

end roundTripStream

section roundTripStreamReal

theorem real_validFrame_shortStartArc :
    (shortStartArc : Ellipse ℝ).validFrame (Libm.mk Real.pi Real.sqrt Real.cos Real.sin) := by
  refine ⟨rfl, rfl, rfl, ?_, Or.inr ⟨rfl, ?_, ?_, ?_⟩⟩ <;>
    simp [shortStartArc, Point.length, Point.dot, Point.cross, Point.get]

theorem real_validFrame_unitCircle :
    (unitCircle (Libm.mk Real.pi Real.sqrt Real.cos Real.sin)).validFrame
      (Libm.mk Real.pi Real.sqrt Real.cos Real.sin) := by
  refine ⟨rfl, rfl, rfl, ?_, Or.inr ⟨rfl, ?_, ?_, ?_⟩⟩ <;>
    simp [unitCircle, Point.length, Point.dot, Point.cross, Point.get]

/-- C13, as stated, fails for a start within `1e-4` of `0`: over the reals,
the reversed arc `[0.00005, 1]` of the unit circle is a valid ellipse, and
reading back what `write` emitted for it yields an ellipse with
`startparam_ = 0` instead of `0.00005`, whose `point(1)` is `(1, 0, 0)` and
not the `point(1)` of the ellipse written. -/
theorem read_write_moves_start :
    (shortStartArc : Ellipse ℝ).validFrame (Libm.mk Real.pi Real.sqrt Real.cos Real.sin) ∧
    (shortStartArc : Ellipse ℝ).paramInvariant (Libm.mk Real.pi Real.sqrt Real.cos Real.sin) ∧
    ((unitCircle (Libm.mk Real.pi Real.sqrt Real.cos Real.sin)).read
      (Libm.mk Real.pi Real.sqrt Real.cos Real.sin) shortStartArc.write).thrown = none ∧
    ((unitCircle (Libm.mk Real.pi Real.sqrt Real.cos Real.sin)).read
      (Libm.mk Real.pi Real.sqrt Real.cos Real.sin) shortStartArc.write).state.startparam_ = 0 ∧
    (shortStartArc : Ellipse ℝ).startparam_ ≠ 0 ∧
    ((unitCircle (Libm.mk Real.pi Real.sqrt Real.cos Real.sin)).read
      (Libm.mk Real.pi Real.sqrt Real.cos Real.sin) shortStartArc.write).state.point
        (Libm.mk Real.pi Real.sqrt Real.cos Real.sin) 1 ≠
      (shortStartArc : Ellipse ℝ).point (Libm.mk Real.pi Real.sqrt Real.cos Real.sin) 1 := by
  have hpi := Real.pi_gt_three
  have hsnap : fabs ((shortStartArc : Ellipse ℝ).startparam_) < pareps := by
    rw [fabs_lt_iff]
    unfold pareps shortStartArc
    constructor <;> norm_num
  have hend : ¬ fabs ((shortStartArc : Ellipse ℝ).endparam_ - 2 * Real.pi) < pareps := by
    rw [fabs_lt_iff]
    unfold pareps shortStartArc
    rintro ⟨h, _⟩
    norm_num at h
    linarith
  have hinv : (shortStartArc : Ellipse ℝ).paramInvariant
      (Libm.mk Real.pi Real.sqrt Real.cos Real.sin) := by
    unfold Ellipse.paramInvariant shortStartArc
    simp only []
    refine ⟨?_, ?_, ?_, ?_⟩ <;> norm_num <;> linarith
  rw [read_write_eq real_sqrtExact _ _ real_validFrame_shortStartArc]
  simp only [if_pos hsnap, if_neg hend]
  refine ⟨real_validFrame_shortStartArc, hinv, trivial, trivial, ?_, ?_⟩
  · unfold shortStartArc
    norm_num
  · have hsin : 0 < Real.sin (1 / 20000) :=
      Real.sin_pos_of_pos_of_lt_pi (by norm_num) (by linarith)
    simp [Ellipse.point, Ellipse.getReversedParameter, shortStartArc, Point.add, Point.smul]
    intro _
    rw [one_div] at hsin
    exact hsin.ne

/-- Witness for C13 (amended), over the reals: the unit circle with the full
interval `[0, 2π]`, read into the reversed arc. -/
theorem read_write_round_trip_witness :
    (shortStartArc : Ellipse ℝ).read (Libm.mk Real.pi Real.sqrt Real.cos Real.sin)
        (unitCircle (Libm.mk Real.pi Real.sqrt Real.cos Real.sin)).write =
      ⟨unitCircle (Libm.mk Real.pi Real.sqrt Real.cos Real.sin), none⟩ :=
  (read_write_round_trip real_sqrtExact (unitCircle _) shortStartArc
    real_validFrame_unitCircle (Or.inl rfl) (Or.inl rfl)).1

end roundTripStreamReal

section cloneLemmas

variable {K : Type} [LinearOrderedField K]

theorem setParamBounds_of_not_malformed (m : Libm K) (e : Ellipse K) (sp ep : K)
    (h : ¬ malformed m (snapParam m sp) (snapParam m ep)) :
    e.setParamBounds m sp ep =
      ⟨{ e with startparam_ := snapParam m sp, endparam_ := snapParam m ep }, none⟩ := by
  unfold malformed at h
  push_neg at h
  unfold Ellipse.setParamBounds
  simp only []
  rw [if_neg (not_le.mpr h.1), if_neg (by push_neg; exact ⟨h.2.1, h.2.2.1⟩),
    if_neg (not_lt.mpr h.2.2.2)]

/-- The constructor call made by `clone` on a valid 3D ellipse returns the
same ellipse with the full interval `[0, 2π]`. -/
theorem ctor_of_validFrame {m : Libm K} (hm : m.SqrtExact) (e : Ellipse K)
    (hv : e.validFrame m) (h3 : e.dimension = 3) :
    Ellipse.ctor m e.centre_ e.vec1_ e.normal_ e.r1_ e.r2_ e.isReversed_ =
      .ok { e with startparam_ := 0, endparam_ := 2 * m.M_PI } := by
  have hspan := setSpanningVectors_of_validFrame hm e hv e.vec2_
  rw [setSpanningVectors_three m _ h3] at hspan
  obtain ⟨hv1, hv2, hn, hlen, h | h⟩ := hv
  · rw [h.1] at h3; exact absurd h3 (by decide)
  · obtain ⟨_, hnl, hdot, hcross⟩ := h
    have hnorm := Point.normalize_of_length_one m e.normal_ hnl
    rw [ctor_of_dimension_three m _ _ _ _ _ _ h3]
    unfold ctorResult
    rw [hnorm]
    split_ifs at hspan ⊢ with hz
    · simp at hspan
    · simp only [Res.mk.injEq, and_true] at hspan
      have e1 := congrArg Ellipse.vec1_ hspan
      have e2 := congrArg Ellipse.vec2_ hspan
      simp only [] at e1 e2
      rw [e1, e2]

theorem clone_of_validFrame {m : Libm K} (hm : m.SqrtExact) (e : Ellipse K)
    (hv : e.validFrame m) (h3 : e.dimension = 3)
    (hint : ¬ malformed m (snapParam m e.startparam_) (snapParam m e.endparam_)) :
    e.clone m = .ok { e with startparam_ := snapParam m e.startparam_,
                             endparam_ := snapParam m e.endparam_ } := by
  unfold Ellipse.clone
  rw [ctor_of_validFrame hm e hv h3]
  simp only []
  rw [setParamBounds_of_not_malformed m _ _ _ hint]

theorem subCurve_of_validFrame {m : Libm K} (hm : m.SqrtExact) (e : Ellipse K)
    (hv : e.validFrame m) (h3 : e.dimension = 3)
    (hint : ¬ malformed m (snapParam m e.startparam_) (snapParam m e.endparam_))
    (from_par to_par : K)
    (hft : ¬ malformed m (snapParam m from_par) (snapParam m to_par)) :
    e.subCurve m from_par to_par =
      .ok { e with startparam_ := snapParam m from_par, endparam_ := snapParam m to_par } := by
  unfold Ellipse.subCurve
  rw [clone_of_validFrame hm e hv h3 hint]
  simp only []
  rw [setParamBounds_of_not_malformed m _ _ _ hft]

/-- C14 (amended): for every valid ellipse `e` of dimension 3 whose own
interval and the requested interval are still well-formed after the `1e-12`
snapping of `setParamBounds`, `clone` and `subCurve` succeed and return an
ellipse whose centre, radii, normal, `vec1_`, `vec2_` and reversed flag equal
those of `e` (which, being the argument of a `const` member, stays as it is),
the interval being the snapped interval of `e` for `clone` and the snapped
`(from_par, to_par)` for `subCurve`: the very same numbers when they are
fixed by the snapping. -/
theorem clone_subCurve_same_value {m : Libm K} (hm : m.SqrtExact) (e : Ellipse K)
    (hv : e.validFrame m) (h3 : e.dimension = 3)
    (hint : ¬ malformed m (snapParam m e.startparam_) (snapParam m e.endparam_))
    (from_par to_par : K)
    (hft : ¬ malformed m (snapParam m from_par) (snapParam m to_par)) :
    e.clone m = .ok { e with startparam_ := snapParam m e.startparam_,
                             endparam_ := snapParam m e.endparam_ } ∧
    e.subCurve m from_par to_par =
      .ok { e with startparam_ := snapParam m from_par, endparam_ := snapParam m to_par } ∧
    (snapParam m e.startparam_ = e.startparam_ → snapParam m e.endparam_ = e.endparam_ →
      e.clone m = .ok e) ∧
    (¬ nearSnap m from_par → ¬ nearSnap m to_par →
      e.subCurve m from_par to_par =
        .ok { e with startparam_ := from_par, endparam_ := to_par }) := by
  refine ⟨clone_of_validFrame hm e hv h3 hint,
    subCurve_of_validFrame hm e hv h3 hint from_par to_par hft, ?_, ?_⟩
  · intro hs he
    rw [clone_of_validFrame hm e hv h3 hint, hs, he]
  · intro hf ht
    rw [subCurve_of_validFrame hm e hv h3 hint from_par to_par hft,
      snapParam_of_not_nearSnap m from_par hf, snapParam_of_not_nearSnap m to_par ht]

end cloneLemmas

section cloneReal

theorem real_snapParam_zero :
    snapParam (Libm.mk Real.pi Real.sqrt Real.cos Real.sin) (0 : ℝ) = 0 := by
  unfold snapParam
  rw [if_pos]
  rw [fabs_lt_iff]
  unfold fuzzy
  constructor <;> norm_num

theorem real_snapParam_two_pi :
    snapParam (Libm.mk Real.pi Real.sqrt Real.cos Real.sin) (2 * Real.pi) = 2 * Real.pi := by
  have hpi := Real.pi_gt_three
  unfold snapParam
  split_ifs with h1 h2
  · rw [fabs_lt_iff] at h1
    unfold fuzzy at h1
    have := h1.2
    norm_num at this
    linarith
  · rfl
  · rfl

theorem real_snapParam_tiny :
    snapParam (Libm.mk Real.pi Real.sqrt Real.cos Real.sin) ((1 : ℝ) / 10 ^ 13) = 0 := by
  unfold snapParam
  rw [if_pos]
  rw [fabs_lt_iff]
  unfold fuzzy
  constructor <;> norm_num

theorem real_unitCircle_interval :
    ¬ malformed (Libm.mk Real.pi Real.sqrt Real.cos Real.sin)
      (snapParam (Libm.mk Real.pi Real.sqrt Real.cos Real.sin)
        (unitCircle (Libm.mk Real.pi Real.sqrt Real.cos Real.sin)).startparam_)
      (snapParam (Libm.mk Real.pi Real.sqrt Real.cos Real.sin)
        (unitCircle (Libm.mk Real.pi Real.sqrt Real.cos Real.sin)).endparam_) := by
  have hpi := Real.pi_gt_three
  have h0 : (unitCircle (Libm.mk Real.pi Real.sqrt Real.cos Real.sin)).startparam_ = 0 := rfl
  have h1 : (unitCircle (Libm.mk Real.pi Real.sqrt Real.cos Real.sin)).endparam_ =
      2 * Real.pi := rfl
  rw [h0, h1, real_snapParam_zero, real_snapParam_two_pi]
  unfold malformed
  push_neg
  simp only []
  refine ⟨?_, ?_, ?_, ?_⟩ <;> linarith

theorem real_validFrame_unitCircle2D :
    (unitCircle2D (Libm.mk Real.pi Real.sqrt Real.cos Real.sin)).validFrame
      (Libm.mk Real.pi Real.sqrt Real.cos Real.sin) := by
  refine ⟨rfl, rfl, rfl, ?_, Or.inl ⟨rfl, ?_⟩⟩ <;>
    simp [unitCircle2D, Point.length, Point.dot, Point.get]

/-- C14, as stated, fails: over the reals, the 2D unit circle is a valid
ellipse, yet `clone` and `subCurve(0, 1)` raise "Dimension must be 3."; and
on the 3D unit circle `subCurve(1e-13, 1)` returns an ellipse whose interval
is `(0, 1)`, not `(1e-13, 1)`. -/
theorem clone_rejects_dimension_two :
    (unitCircle2D (Libm.mk Real.pi Real.sqrt Real.cos Real.sin)).validFrame
      (Libm.mk Real.pi Real.sqrt Real.cos Real.sin) ∧
    (unitCircle2D (Libm.mk Real.pi Real.sqrt Real.cos Real.sin)).clone
      (Libm.mk Real.pi Real.sqrt Real.cos Real.sin) = .error "Dimension must be 3." ∧
    (unitCircle2D (Libm.mk Real.pi Real.sqrt Real.cos Real.sin)).subCurve
      (Libm.mk Real.pi Real.sqrt Real.cos Real.sin) 0 1 = .error "Dimension must be 3." ∧
    (unitCircle (Libm.mk Real.pi Real.sqrt Real.cos Real.sin)).subCurve
      (Libm.mk Real.pi Real.sqrt Real.cos Real.sin) (1 / 10 ^ 13) 1 =
      .ok { unitCircle (Libm.mk Real.pi Real.sqrt Real.cos Real.sin) with
            startparam_ := 0, endparam_ := 1 } := by
  have hpi := Real.pi_gt_three
  have hclone : (unitCircle2D (Libm.mk Real.pi Real.sqrt Real.cos Real.sin)).clone
      (Libm.mk Real.pi Real.sqrt Real.cos Real.sin) = .error "Dimension must be 3." := by
    unfold Ellipse.clone
    rw [ctor_of_dimension_ne_three _ _ _ _ _ _ _ (by decide)]
  refine ⟨real_validFrame_unitCircle2D, hclone, ?_, ?_⟩
  · unfold Ellipse.subCurve
    rw [hclone]
  · rw [subCurve_of_validFrame real_sqrtExact _ real_validFrame_unitCircle rfl
      real_unitCircle_interval, real_snapParam_tiny, real_snapParam_one]
    rw [real_snapParam_tiny, real_snapParam_one]
    unfold malformed
    push_neg
    simp only []
    refine ⟨?_, ?_, ?_, ?_⟩ <;> linarith

/-- Witness for C14 (amended), over the reals: the 3D unit circle, with its
own interval `(0, 2π)` as the requested interval. -/
theorem clone_subCurve_same_value_witness :
    (unitCircle (Libm.mk Real.pi Real.sqrt Real.cos Real.sin)).clone
      (Libm.mk Real.pi Real.sqrt Real.cos Real.sin) =
      .ok (unitCircle (Libm.mk Real.pi Real.sqrt Real.cos Real.sin)) :=
  (clone_subCurve_same_value real_sqrtExact _ real_validFrame_unitCircle rfl
    real_unitCircle_interval
    (unitCircle (Libm.mk Real.pi Real.sqrt Real.cos Real.sin)).startparam_
    (unitCircle (Libm.mk Real.pi Real.sqrt Real.cos Real.sin)).endparam_
    real_unitCircle_interval).2.2.1 real_snapParam_zero real_snapParam_two_pi

end cloneReal

section derivativeLemmas

variable {K : Type} [LinearOrderedField K]

theorem Point.get_smul (a : K) (p : Point K) (i : Nat) :
    (Point.smul a p).get i = a * p.get i := by
  obtain ⟨l⟩ := p
  unfold Point.smul Point.get
  simp only [List.getD_eq_getElem?_getD, List.getElem?_map]
  cases l[i]? <;> simp

theorem Point.get_add (p q : Point K) (h : p.dimension = q.dimension) (i : Nat) :
    (p.add q).get i = p.get i + q.get i := by
  obtain ⟨l⟩ := p
  obtain ⟨l'⟩ := q
  unfold Point.dimension at h
  unfold Point.add Point.get
  simp only [List.getD_eq_getElem?_getD, List.getElem?_zipWith]
  by_cases hi : i < l.length
  · have hi' : i < l'.length := h ▸ hi
    simp [List.getElem?_eq_getElem hi, List.getElem?_eq_getElem hi']
  · have hi' : ¬ i < l'.length := h ▸ hi
    simp [List.getElem?_eq_none (not_lt.mp hi), List.getElem?_eq_none (not_lt.mp hi')]

theorem Point.dimension_smul (a : K) (p : Point K) : (Point.smul a p).dimension = p.dimension := by
  simp [Point.smul, Point.dimension]

theorem Point.dimension_add (p q : Point K) (h : p.dimension = q.dimension) :
    (p.add q).dimension = p.dimension := by
  unfold Point.dimension at *
  simp [Point.add, h]

theorem Ellipse.point_get (m : Libm K) (e : Ellipse K)
    (hv1 : e.vec1_.dimension = e.dimension) (hv2 : e.vec2_.dimension = e.dimension)
    (t : K) (i : Nat) :
    (e.point m t).get i =
      e.centre_.get i + e.r1_ * m.cos (e.getReversedParameter t) * e.vec1_.get i +
        e.r2_ * m.sin (e.getReversedParameter t) * e.vec2_.get i := by
  unfold Ellipse.point
  simp only []
  have h1 : e.centre_.dimension =
      (Point.smul (e.r1_ * m.cos (e.getReversedParameter t)) e.vec1_).dimension := by
    rw [Point.dimension_smul, hv1]; rfl
  rw [Point.get_add _ _ (by rw [Point.dimension_add _ _ h1, Point.dimension_smul, hv2]; rfl),
    Point.get_add _ _ h1, Point.get_smul, Point.get_smul]

theorem Ellipse.derivEntry_get (m : Libm K) (e : Ellipse K)
    (hv1 : e.vec1_.dimension = e.dimension) (hv2 : e.vec2_.dimension = e.dimension)
    (t : K) (ki i : Nat) :
    (e.derivEntry m t ki).get i =
      (if e.isReversed_ then (if ki % 2 = 1 then -1 else 1) else 1) *
      (if ki % 2 = 1 then
        (if ki % 4 = 1 ∨ ki % 4 = 2 then -1 else 1) * e.r1_ *
            m.sin (e.getReversedParameter t) * e.vec1_.get i +
          (if ki % 4 = 2 ∨ ki % 4 = 3 then -1 else 1) * e.r2_ *
            m.cos (e.getReversedParameter t) * e.vec2_.get i
      else
        (if ki % 4 = 1 ∨ ki % 4 = 2 then -1 else 1) * e.r1_ *
            m.cos (e.getReversedParameter t) * e.vec1_.get i +
          (if ki % 4 = 2 ∨ ki % 4 = 3 then -1 else 1) * e.r2_ *
            m.sin (e.getReversedParameter t) * e.vec2_.get i) := by
  have hd : ∀ a b : K, (Point.smul a e.vec1_).dimension = (Point.smul b e.vec2_).dimension := by
    intro a b
    rw [Point.dimension_smul, Point.dimension_smul, hv1, hv2]
  unfold Ellipse.derivEntry
  simp only []
  split_ifs <;>
    simp only [Point.get_smul, Point.get_add _ _ (hd _ _), one_mul]

theorem Ellipse.pointDerivs_getD (m : Libm K) (e : Ellipse K) (tpar : K) (derivs k : Nat)
    (hk : k ≤ derivs) (d : Point K) :
    (e.pointDerivs m tpar derivs).getD k d =
      if k = 0 then e.point m tpar else e.derivEntry m tpar k := by
  unfold Ellipse.pointDerivs
  simp only []
  cases k with
  | zero =>
    rw [if_pos rfl]
    split_ifs <;> rfl
  | succ j =>
    have hd : derivs ≠ 0 := by omega
    rw [if_neg hd, if_neg (Nat.succ_ne_zero j), List.getD_cons_succ,
      List.getD_eq_getElem?_getD, List.getElem?_map,
      List.getElem?_range (by omega : j < derivs)]
    rfl

theorem Ellipse.derivEntry_add_four (m : Libm K) (e : Ellipse K) (tpar : K) (k : Nat) :
    e.derivEntry m tpar (k + 4) = e.derivEntry m tpar k := by
  have h4 : (k + 4) % 4 = k % 4 := by omega
  have h2 : (k + 4) % 2 = k % 2 := by omega
  unfold Ellipse.derivEntry
  simp only [h4, h2]

end derivativeLemmas

section derivativeReal

theorem real_hasDerivAt_getReversedParameter (e : Ellipse ℝ) (t : ℝ) :
    HasDerivAt (fun τ => e.getReversedParameter τ) (if e.isReversed_ then -1 else 1) t := by
  unfold Ellipse.getReversedParameter
  cases e.isReversed_
  · simpa using hasDerivAt_id t
  · simpa using (hasDerivAt_id t).const_sub (e.startparam_ + e.endparam_)

theorem real_hasDerivAt_trig (e : Ellipse ℝ) (A B C t : ℝ) :
    HasDerivAt
      (fun τ => C + A * Real.cos (e.getReversedParameter τ) +
        B * Real.sin (e.getReversedParameter τ))
      ((if e.isReversed_ then -1 else 1) *
        (B * Real.cos (e.getReversedParameter t) - A * Real.sin (e.getReversedParameter t))) t := by
  have hρ := real_hasDerivAt_getReversedParameter e t
  have hc := (hρ.cos.const_mul A)
  have hs := (hρ.sin.const_mul B)
  have h := ((hasDerivAt_const t C).add hc).add hs
  convert h using 1
  ring

theorem real_hasDerivAt_point (e : Ellipse ℝ)
    (hv1 : e.vec1_.dimension = e.dimension) (hv2 : e.vec2_.dimension = e.dimension)
    (i : Nat) (t : ℝ) :
    HasDerivAt (fun τ => (e.point (Libm.mk Real.pi Real.sqrt Real.cos Real.sin) τ).get i)
      ((e.derivEntry (Libm.mk Real.pi Real.sqrt Real.cos Real.sin) t 1).get i) t := by
  have h := real_hasDerivAt_trig e (e.r1_ * e.vec1_.get i) (e.r2_ * e.vec2_.get i)
    (e.centre_.get i) t
  have hf : (fun τ => (e.point (Libm.mk Real.pi Real.sqrt Real.cos Real.sin) τ).get i) =
      fun τ => e.centre_.get i +
        e.r1_ * e.vec1_.get i * Real.cos (e.getReversedParameter τ) +
        e.r2_ * e.vec2_.get i * Real.sin (e.getReversedParameter τ) := by
    funext τ
    rw [Ellipse.point_get _ e hv1 hv2]
    ring
  rw [hf, Ellipse.derivEntry_get _ e hv1 hv2]
  convert h using 1
  cases e.isReversed_ <;> norm_num <;> ring

theorem real_hasDerivAt_derivEntry (e : Ellipse ℝ)
    (hv1 : e.vec1_.dimension = e.dimension) (hv2 : e.vec2_.dimension = e.dimension)
    (i k : Nat) (t : ℝ) :
    HasDerivAt
      (fun τ => (e.derivEntry (Libm.mk Real.pi Real.sqrt Real.cos Real.sin) τ (k + 1)).get i)
      ((e.derivEntry (Libm.mk Real.pi Real.sqrt Real.cos Real.sin) t (k + 2)).get i) t := by
  have hk : k % 4 = 0 ∨ k % 4 = 1 ∨ k % 4 = 2 ∨ k % 4 = 3 := by omega
  have hgen := real_hasDerivAt_trig e
  simp only [Ellipse.derivEntry_get _ e hv1 hv2]
  rcases hk with h | h | h | h
  · have a1 : (k + 1) % 4 = 1 := by omega
    have a2 : (k + 1) % 2 = 1 := by omega
    have a3 : (k + 2) % 4 = 2 := by omega
    have a4 : (k + 2) % 2 = 0 := by omega
    simp only [a1, a2, a3, a4]
    convert hgen ((if e.isReversed_ then -1 else 1) * (e.r2_ * e.vec2_.get i)) ((if e.isReversed_ then -1 else 1) * (-(e.r1_ * e.vec1_.get i))) 0 t using 1
    · funext τ
      cases e.isReversed_ <;> norm_num <;> ring
    · cases e.isReversed_ <;> norm_num <;> ring
  · have a1 : (k + 1) % 4 = 2 := by omega
    have a2 : (k + 1) % 2 = 0 := by omega
    have a3 : (k + 2) % 4 = 3 := by omega
    have a4 : (k + 2) % 2 = 1 := by omega
    simp only [a1, a2, a3, a4]
    convert hgen (-(e.r1_ * e.vec1_.get i)) (-(e.r2_ * e.vec2_.get i)) 0 t using 1
    · funext τ
      cases e.isReversed_ <;> norm_num <;> ring
    · cases e.isReversed_ <;> norm_num <;> ring
  · have a1 : (k + 1) % 4 = 3 := by omega
    have a2 : (k + 1) % 2 = 1 := by omega
    have a3 : (k + 2) % 4 = 0 := by omega
    have a4 : (k + 2) % 2 = 0 := by omega
    simp only [a1, a2, a3, a4]
    convert hgen ((if e.isReversed_ then -1 else 1) * (-(e.r2_ * e.vec2_.get i))) ((if e.isReversed_ then -1 else 1) * (e.r1_ * e.vec1_.get i)) 0 t using 1
    · funext τ
      cases e.isReversed_ <;> norm_num <;> ring
    · cases e.isReversed_ <;> norm_num <;> ring
  · have a1 : (k + 1) % 4 = 0 := by omega
    have a2 : (k + 1) % 2 = 0 := by omega
    have a3 : (k + 2) % 4 = 1 := by omega
    have a4 : (k + 2) % 2 = 1 := by omega
    simp only [a1, a2, a3, a4]
    convert hgen ((e.r1_ * e.vec1_.get i)) ((e.r2_ * e.vec2_.get i)) 0 t using 1
    · funext τ
      cases e.isReversed_ <;> norm_num <;> ring
    · cases e.isReversed_ <;> norm_num <;> ring

theorem real_iteratedDeriv_point (e : Ellipse ℝ)
    (hv1 : e.vec1_.dimension = e.dimension) (hv2 : e.vec2_.dimension = e.dimension)
    (i k : Nat) :
    iteratedDeriv (k + 1)
        (fun τ => (e.point (Libm.mk Real.pi Real.sqrt Real.cos Real.sin) τ).get i) =
      fun t => (e.derivEntry (Libm.mk Real.pi Real.sqrt Real.cos Real.sin) t (k + 1)).get i := by
  induction k with
  | zero =>
    rw [iteratedDeriv_one]
    funext t
    exact (real_hasDerivAt_point e hv1 hv2 i t).deriv
  | succ n ih =>
    rw [iteratedDeriv_succ, ih]
    funext t
    exact (real_hasDerivAt_derivEntry e hv1 hv2 i n t).deriv

/-- C15: over the reals, for an ellipse whose `vec1_` and `vec2_` have the
dimension of the centre, `Ellipse::point(pts, tpar, derivs)` returns the true
derivatives of the parametrization: for every `derivs`, every `k ≤ derivs`,
every `tpar` and every coordinate `i`, `pts[k]` is the `k`-th derivative at
`tpar` of `t ↦ Ellipse::point(t)` (which contains the parameter reversal for
a reversed ellipse), and `pts[k+4] = pts[k]` for `k ≥ 1`. -/
theorem pointDerivs_are_derivatives (e : Ellipse ℝ)
    (hv1 : e.vec1_.dimension = e.dimension) (hv2 : e.vec2_.dimension = e.dimension)
    (tpar : ℝ) (derivs k : Nat) (hk : k ≤ derivs) (i : Nat) :
    ((e.pointDerivs (Libm.mk Real.pi Real.sqrt Real.cos Real.sin) tpar derivs).getD k
        ⟨[]⟩).get i =
      iteratedDeriv k
        (fun t => (e.point (Libm.mk Real.pi Real.sqrt Real.cos Real.sin) t).get i) tpar ∧
    (1 ≤ k → k + 4 ≤ derivs →
      (e.pointDerivs (Libm.mk Real.pi Real.sqrt Real.cos Real.sin) tpar derivs).getD (k + 4)
          ⟨[]⟩ =
        (e.pointDerivs (Libm.mk Real.pi Real.sqrt Real.cos Real.sin) tpar derivs).getD k
          ⟨[]⟩) := by
  constructor
  · rw [Ellipse.pointDerivs_getD _ e tpar derivs k hk]
    cases k with
    | zero => simp only [if_true, iteratedDeriv_zero]
    | succ n =>
      rw [if_neg (Nat.succ_ne_zero n), real_iteratedDeriv_point e hv1 hv2 i n]
  · intro h1 h4
    rw [Ellipse.pointDerivs_getD _ e tpar derivs k hk,
      Ellipse.pointDerivs_getD _ e tpar derivs (k + 4) h4,
      if_neg (by omega), if_neg (by omega), Ellipse.derivEntry_add_four]

/-- Witness for C15: the unit circle, third derivative at `t = 1`, first
coordinate, with `derivs = 5`. -/
theorem pointDerivs_are_derivatives_witness :
    (((unitCircle (Libm.mk Real.pi Real.sqrt Real.cos Real.sin)).pointDerivs
        (Libm.mk Real.pi Real.sqrt Real.cos Real.sin) 1 5).getD 3 ⟨[]⟩).get 0 =
      iteratedDeriv 3
        (fun t => ((unitCircle (Libm.mk Real.pi Real.sqrt Real.cos Real.sin)).point
          (Libm.mk Real.pi Real.sqrt Real.cos Real.sin) t).get 0) 1 :=
  (pointDerivs_are_derivatives (unitCircle _) rfl rfl 1 5 3 (by norm_num) 0).1

end derivativeReal

section orderReal

theorem real_halfArc_point (t : ℝ) :
    (halfArc (Libm.mk Real.pi Real.sqrt Real.cos Real.sin)).point
      (Libm.mk Real.pi Real.sqrt Real.cos Real.sin) t = ⟨[Real.cos t, Real.sin t, 0]⟩ := by
  simp [Ellipse.point, Ellipse.getReversedParameter, halfArc, Point.add, Point.smul]

/-- The second coordinate of the canonical curve of the half arc on its
`j`-th quarter. -/
theorem real_halfArc_curve_y (j : Nat) (hj : j < 4) (t u : ℝ)
    (hu : u = (t - j * (Real.pi / 2)) / (Real.pi / 2))
    (h0 : (j : ℝ) * (Real.pi / 2) ≤ t)
    (h1 : t < (j + 1 : ℝ) * (Real.pi / 2) ∨ (j = 3 ∧ t = 4 * (Real.pi / 2))) :
    (((halfArc (Libm.mk Real.pi Real.sqrt Real.cos Real.sin)).canonicalCurve
      (Libm.mk Real.pi Real.sqrt Real.cos Real.sin)).point t).get 1 =
      ((1 - u) ^ 2 * axis2Sign (2 * j) +
          2 * u * (1 - u) * ((1 / Real.sqrt 2) * axis2Sign (2 * j + 1)) +
          u ^ 2 * axis2Sign (2 * j + 2)) /
        ((1 - u) ^ 2 + 2 * u * (1 - u) * (1 / Real.sqrt 2) + u ^ 2) := by
  rw [canonicalCurve_point_quarter (Libm.mk Real.pi Real.sqrt Real.cos Real.sin) Real.pi_pos
    (halfArc _) (Or.inr rfl) j hj t u hu h0 h1]
  have hd : (halfArc (Libm.mk Real.pi Real.sqrt Real.cos Real.sin)).dimension = 3 := rfl
  rw [hd, range_three]
  simp [Ellipse.controlPosition, halfArc, Point.get, Point.smul]

theorem real_quarter_parameter (j : Nat) (t : ℝ)
    (h0 : (j : ℝ) * (Real.pi / 2) ≤ t) (h1 : t ≤ (j + 1 : ℝ) * (Real.pi / 2)) :
    0 ≤ (t - j * (Real.pi / 2)) / (Real.pi / 2) ∧
      (t - j * (Real.pi / 2)) / (Real.pi / 2) ≤ 1 := by
  have hq : 0 < Real.pi / 2 := by positivity
  constructor
  · exact div_nonneg (by linarith) hq.le
  · rw [div_le_one hq]
    linarith

/-- On `[0, π)` the canonical curve of the half arc has second coordinate
`≥ 0`. -/
theorem real_halfArc_curve_upper (t : ℝ) (h0 : 0 ≤ t) (h1 : t < Real.pi) :
    0 ≤ (((halfArc (Libm.mk Real.pi Real.sqrt Real.cos Real.sin)).canonicalCurve
      (Libm.mk Real.pi Real.sqrt Real.cos Real.sin)).point t).get 1 := by
  have hs : 0 < 1 / Real.sqrt 2 := one_div_pos.mpr (Real.sqrt_pos.mpr two_pos)
  rcases lt_or_le t (Real.pi / 2) with h | h
  · have hu := real_quarter_parameter 0 t (by simpa using h0) (by norm_num; linarith)
    rw [real_halfArc_curve_y 0 (by norm_num) t _ rfl (by simpa using h0)
      (Or.inl (by norm_num; linarith))]
    generalize (t - ((0 : Nat) : ℝ) * (Real.pi / 2)) / (Real.pi / 2) = u at hu
    have hden := quarter_denominator_pos u (1 / Real.sqrt 2) hu.1 hu.2 hs
    apply div_nonneg _ hden.le
    simp only [axis2Sign, List.getD_cons_zero, List.getD_cons_succ, Nat.mul_zero, Nat.zero_add,
      Nat.reduceAdd]
    have := mul_nonneg (mul_nonneg hu.1 (sub_nonneg.mpr hu.2)) hs.le
    nlinarith [sq_nonneg u]
  · have hu := real_quarter_parameter 1 t (by simpa using h) (by norm_num; linarith)
    rw [real_halfArc_curve_y 1 (by norm_num) t _ rfl (by simpa using h)
      (Or.inl (by norm_num; linarith))]
    generalize (t - ((1 : Nat) : ℝ) * (Real.pi / 2)) / (Real.pi / 2) = u at hu
    have hden := quarter_denominator_pos u (1 / Real.sqrt 2) hu.1 hu.2 hs
    apply div_nonneg _ hden.le
    simp only [axis2Sign, List.getD_cons_zero, List.getD_cons_succ, Nat.mul_one,
      Nat.reduceAdd]
    have := mul_nonneg (mul_nonneg hu.1 (sub_nonneg.mpr hu.2)) hs.le
    nlinarith [sq_nonneg (1 - u)]

/-- On `[π, 2π]` the canonical curve of the half arc has second coordinate
`≤ 0`. -/
theorem real_halfArc_curve_lower (t : ℝ) (h0 : Real.pi ≤ t) (h1 : t ≤ 2 * Real.pi) :
    (((halfArc (Libm.mk Real.pi Real.sqrt Real.cos Real.sin)).canonicalCurve
      (Libm.mk Real.pi Real.sqrt Real.cos Real.sin)).point t).get 1 ≤ 0 := by
  have hs : 0 < 1 / Real.sqrt 2 := one_div_pos.mpr (Real.sqrt_pos.mpr two_pos)
  rcases lt_or_le t (3 * (Real.pi / 2)) with h | h
  · have hu := real_quarter_parameter 2 t (by norm_num; linarith) (by norm_num; linarith)
    rw [real_halfArc_curve_y 2 (by norm_num) t _ rfl (by norm_num; linarith)
      (Or.inl (by norm_num; linarith))]
    generalize (t - ((2 : Nat) : ℝ) * (Real.pi / 2)) / (Real.pi / 2) = u at hu
    have hden := quarter_denominator_pos u (1 / Real.sqrt 2) hu.1 hu.2 hs
    apply div_nonpos_of_nonpos_of_nonneg _ hden.le
    simp only [axis2Sign, List.getD_cons_zero, List.getD_cons_succ, Nat.reduceMul,
      Nat.reduceAdd]
    have := mul_nonneg (mul_nonneg hu.1 (sub_nonneg.mpr hu.2)) hs.le
    nlinarith [sq_nonneg u]
  · have hu := real_quarter_parameter 3 t (by norm_num; linarith) (by norm_num; linarith)
    have hq : t < ((3 : Nat) + 1 : ℝ) * (Real.pi / 2) ∨ ((3 : Nat) = 3 ∧ t = 4 * (Real.pi / 2)) := by
      rcases lt_or_eq_of_le h1 with h4 | h4
      · exact Or.inl (by norm_num; linarith)
      · exact Or.inr ⟨rfl, by linarith⟩
    rw [real_halfArc_curve_y 3 (by norm_num) t _ rfl (by norm_num; linarith) hq]
    generalize (t - ((3 : Nat) : ℝ) * (Real.pi / 2)) / (Real.pi / 2) = u at hu
    have hden := quarter_denominator_pos u (1 / Real.sqrt 2) hu.1 hu.2 hs
    apply div_nonpos_of_nonpos_of_nonneg _ hden.le
    simp only [axis2Sign, List.getD_cons_zero, List.getD_cons_succ, Nat.reduceMul,
      Nat.reduceAdd]
    have := mul_nonneg (mul_nonneg hu.1 (sub_nonneg.mpr hu.2)) hs.le
    nlinarith [sq_nonneg (1 - u)]

theorem real_halfArc_targets :
    (halfArc (Libm.mk Real.pi Real.sqrt Real.cos Real.sin)).closestPointTargets
      (Libm.mk Real.pi Real.sqrt Real.cos Real.sin) = (⟨[0, -1, 0]⟩, ⟨[0, 1, 0]⟩) := by
  unfold Ellipse.closestPointTargets
  simp only [real_halfArc_point]
  have h1 : (halfArc (Libm.mk Real.pi Real.sqrt Real.cos Real.sin)).startparam_ =
      -(Real.pi / 2) := rfl
  have h2 : (halfArc (Libm.mk Real.pi Real.sqrt Real.cos Real.sin)).endparam_ =
      Real.pi / 2 := rfl
  have h3 : (halfArc (Libm.mk Real.pi Real.sqrt Real.cos Real.sin)).isReversed_ = false := rfl
  rw [h1, h2, h3, Real.cos_neg, Real.sin_neg, Real.cos_pi_div_two, Real.sin_pi_div_two]
  simp

theorem real_halfArc_curve_at_knot (k : Nat) (hk : k ≤ 4) :
    ((halfArc (Libm.mk Real.pi Real.sqrt Real.cos Real.sin)).canonicalCurve
      (Libm.mk Real.pi Real.sqrt Real.cos Real.sin)).point (k * (Real.pi / 2)) =
      ⟨[axis1Sign (2 * k), axis2Sign (2 * k), 0]⟩ := by
  rw [canonicalCurve_point_at_knot (Libm.mk Real.pi Real.sqrt Real.cos Real.sin)
    Real.pi_pos (halfArc (Libm.mk Real.pi Real.sqrt Real.cos Real.sin)) (Or.inr rfl) k hk]
  have hd : (halfArc (Libm.mk Real.pi Real.sqrt Real.cos Real.sin)).dimension = 3 := rfl
  rw [hd, range_three]
  simp [Ellipse.controlPosition, halfArc, Point.get, Point.smul]

/-- C16 (refuted by the code): for the arc of the unit circle over
`[-π/2, π/2]`, a valid interval, the canonical curve of `createSplineCurve`
meets `pt1` (the ellipse point at `startparam_`) at `3π/2` and `pt2` (the
point at `endparam_`) at `π/2`, and whatever parameters `clo_t1`, `clo_t2`
of `[0, 2π]` the curve meets the two points at, `clo_t2 < clo_t1`: the two
parameters handed to `subCurve` are in inverted order. -/
theorem createSplineCurve_parameters_inverted :
    (halfArc (Libm.mk Real.pi Real.sqrt Real.cos Real.sin)).paramInvariant
      (Libm.mk Real.pi Real.sqrt Real.cos Real.sin) ∧
    ((halfArc (Libm.mk Real.pi Real.sqrt Real.cos Real.sin)).canonicalCurve
        (Libm.mk Real.pi Real.sqrt Real.cos Real.sin)).point (3 * (Real.pi / 2)) =
      ((halfArc (Libm.mk Real.pi Real.sqrt Real.cos Real.sin)).closestPointTargets
        (Libm.mk Real.pi Real.sqrt Real.cos Real.sin)).1 ∧
    ((halfArc (Libm.mk Real.pi Real.sqrt Real.cos Real.sin)).canonicalCurve
        (Libm.mk Real.pi Real.sqrt Real.cos Real.sin)).point (Real.pi / 2) =
      ((halfArc (Libm.mk Real.pi Real.sqrt Real.cos Real.sin)).closestPointTargets
        (Libm.mk Real.pi Real.sqrt Real.cos Real.sin)).2 ∧
    ∀ clo_t1 clo_t2 : ℝ, 0 ≤ clo_t1 → clo_t1 ≤ 2 * Real.pi →
      0 ≤ clo_t2 → clo_t2 ≤ 2 * Real.pi →
      ((halfArc (Libm.mk Real.pi Real.sqrt Real.cos Real.sin)).canonicalCurve
          (Libm.mk Real.pi Real.sqrt Real.cos Real.sin)).point clo_t1 =
        ((halfArc (Libm.mk Real.pi Real.sqrt Real.cos Real.sin)).closestPointTargets
          (Libm.mk Real.pi Real.sqrt Real.cos Real.sin)).1 →
      ((halfArc (Libm.mk Real.pi Real.sqrt Real.cos Real.sin)).canonicalCurve
          (Libm.mk Real.pi Real.sqrt Real.cos Real.sin)).point clo_t2 =
        ((halfArc (Libm.mk Real.pi Real.sqrt Real.cos Real.sin)).closestPointTargets
          (Libm.mk Real.pi Real.sqrt Real.cos Real.sin)).2 →
      clo_t2 < clo_t1 := by
  have hpi := Real.pi_pos
  rw [real_halfArc_targets]
  refine ⟨?_, ?_, ?_, ?_⟩
  · unfold Ellipse.paramInvariant halfArc
    simp only []
    refine ⟨by linarith, by linarith, by linarith, by linarith⟩
  · have h := real_halfArc_curve_at_knot 3 (by norm_num)
    simp only [Nat.cast_ofNat] at h
    rw [h]
    simp [axis1Sign, axis2Sign]
  · have h := real_halfArc_curve_at_knot 1 (by norm_num)
    simp only [Nat.cast_one, one_mul] at h
    rw [h]
    simp [axis1Sign, axis2Sign]
  · intro t1 t2 h10 h11 h20 h21 hc1 hc2
    have hy1 : (((halfArc (Libm.mk Real.pi Real.sqrt Real.cos Real.sin)).canonicalCurve
        (Libm.mk Real.pi Real.sqrt Real.cos Real.sin)).point t1).get 1 = -1 := by
      rw [hc1]
      simp [Point.get]
    have hy2 : (((halfArc (Libm.mk Real.pi Real.sqrt Real.cos Real.sin)).canonicalCurve
        (Libm.mk Real.pi Real.sqrt Real.cos Real.sin)).point t2).get 1 = 1 := by
      rw [hc2]
      simp [Point.get]
    have ht1 : Real.pi ≤ t1 := by
      by_contra hlt
      have := real_halfArc_curve_upper t1 h10 (not_le.mp hlt)
      linarith
    have ht2 : t2 < Real.pi := by
      by_contra hge
      have := real_halfArc_curve_lower t2 (not_lt.mp hge) h21
      linarith
    linarith

end orderReal

section closestPointTheorems

variable {K : Type} [LinearOrderedField K]

/-- C17: the result of `Ellipse::closestPoint` does not depend on the seed:
for every pair of helper operations, every ellipse, query point and search
interval `[tmin, tmax]` and any two seeds (or none), the returned
`(clo_t, clo_pt, clo_dist)` are the same, and they are what
`closestPointGeneric` returns when started from the parameter found on the
helper circle centred at the ellipse centre with radius `|centre - pt|`. -/
theorem closestPoint_ignores_seed (m : Libm K) (h : ClosestPointHelpers K) (e : Ellipse K)
    (pt : Point K) (tmin tmax : K) (seed1 seed2 : Option K) :
    e.closestPoint m h pt tmin tmax seed1 = e.closestPoint m h pt tmin tmax seed2 ∧
    e.closestPoint m h pt tmin tmax seed1 =
      (h.circleClosestPoint ((e.centre_.sub pt).length m) e.centre_ e.normal_ e.vec1_
          e.isReversed_ e.startparam_ e.endparam_ pt tmin tmax).bind
        fun guess => h.closestPointGeneric e pt tmin tmax guess.1 := by
  refine ⟨rfl, ?_⟩
  unfold Ellipse.closestPoint Point.dist
  simp only []
  cases h.circleClosestPoint ((e.centre_.sub pt).length m) e.centre_ e.normal_ e.vec1_
      e.isReversed_ e.startparam_ e.endparam_ pt tmin tmax with
  | error msg => rfl
  | ok r => rfl

end closestPointTheorems

section gordonTheorems

variable {K : Type} [Field K] {V : Type} [AddCommGroup V] [Module K V]

theorem lagrangeBasis_interpolating [DecidableEq K] (params : List K)
    (hp : ∀ i k : Nat, i < params.length → k < params.length → i ≠ k →
      params.getD i 0 ≠ params.getD k 0) :
    IsInterpolatingBasis lagrangeBasis params := by
  intro i k hi hk
  unfold lagrangeBasis
  split_ifs with hik
  · subst hik
    apply Finset.prod_eq_one
    intro j hj
    split_ifs with h
    · rfl
    · have hjl := Finset.mem_range.mp hj
      exact div_self (sub_ne_zero.mpr (hp i j hi hjl (Ne.symm h)))
  · apply Finset.prod_eq_zero (Finset.mem_range.mpr hk)
    rw [if_neg (Ne.symm hik), sub_self, zero_div]

theorem loftSurface_at_param (blend : List K → Nat → K → K) (curves : List (K → V))
    (params : List K) (hlen : params.length = curves.length)
    (hb : IsInterpolatingBasis blend params) (i : Nat) (hi : i < curves.length) (t : K) :
    loftSurface blend curves params t (params.getD i 0) = curves.getD i 0 t := by
  unfold loftSurface
  rw [Finset.sum_eq_single i]
  · rw [hb i i (hlen ▸ hi) (hlen ▸ hi), if_pos rfl, one_smul]
  · intro k hk hki
    rw [hb k i (hlen ▸ Finset.mem_range.mp hk) (hlen ▸ hi), if_neg hki, zero_smul]
  · intro h
    exact absurd (Finset.mem_range.mpr hi) h

theorem tensorInterpolant_at_u_param (blend : List K → Nat → K → K) (grid : Nat → Nat → V)
    (u_params v_params : List K) (hb : IsInterpolatingBasis blend u_params)
    (i : Nat) (hi : i < u_params.length) (u : K) :
    tensorInterpolant blend grid u_params v_params u (u_params.getD i 0) =
      Finset.sum (Finset.range v_params.length) fun j => blend v_params j u • grid i j := by
  unfold tensorInterpolant
  rw [Finset.sum_eq_single i]
  · apply Finset.sum_congr rfl
    intro j _
    rw [hb i i hi hi, if_pos rfl, one_mul]
  · intro k hk hki
    apply Finset.sum_eq_zero
    intro j _
    rw [hb k i (Finset.mem_range.mp hk) hi, if_neg hki, zero_mul, zero_smul]
  · intro h
    exact absurd (Finset.mem_range.mpr hi) h

theorem tensorInterpolant_at_v_param (blend : List K → Nat → K → K) (grid : Nat → Nat → V)
    (u_params v_params : List K) (hb : IsInterpolatingBasis blend v_params)
    (j : Nat) (hj : j < v_params.length) (v : K) :
    tensorInterpolant blend grid u_params v_params (v_params.getD j 0) v =
      Finset.sum (Finset.range u_params.length) fun i => blend u_params i v • grid i j := by
  unfold tensorInterpolant
  apply Finset.sum_congr rfl
  intro i _
  rw [Finset.sum_eq_single j]
  · rw [hb j j hj hj, if_pos rfl, mul_one]
  · intro k hk hkj
    rw [hb k j (Finset.mem_range.mp hk) hj, if_neg hkj, mul_zero, zero_smul]
  · intro h
    exact absurd (Finset.mem_range.mpr hj) h

/-- The Boolean sum on two families with their own parameter lists. -/
theorem booleanSum_interpolates (blend : List K → Nat → K → K) (u_crvs v_crvs : List (K → V))
    (u_params v_params : List K) (hU : u_params.length = u_crvs.length)
    (hV : v_params.length = v_crvs.length)
    (hbu : IsInterpolatingBasis blend u_params) (hbv : IsInterpolatingBasis blend v_params) :
    (∀ i : Nat, i < u_crvs.length →
      (∀ j : Nat, j < v_crvs.length →
        u_crvs.getD i 0 (v_params.getD j 0) = v_crvs.getD j 0 (u_params.getD i 0)) →
      ∀ u : K,
        loftSurface blend u_crvs u_params u (u_params.getD i 0) +
            loftSurface blend v_crvs v_params (u_params.getD i 0) u -
            tensorInterpolant blend (fun i j => u_crvs.getD i 0 (v_params.getD j 0))
              u_params v_params u (u_params.getD i 0) =
          u_crvs.getD i 0 u) ∧
    (∀ j : Nat, j < v_crvs.length → ∀ v : K,
        loftSurface blend u_crvs u_params (v_params.getD j 0) v +
            loftSurface blend v_crvs v_params v (v_params.getD j 0) -
            tensorInterpolant blend (fun i j => u_crvs.getD i 0 (v_params.getD j 0))
              u_params v_params (v_params.getD j 0) v =
          v_crvs.getD j 0 v) := by
  constructor
  · intro i hi hnet u
    rw [loftSurface_at_param blend u_crvs u_params hU hbu i hi,
      tensorInterpolant_at_u_param blend _ u_params v_params hbu i (hU ▸ hi)]
    have h : loftSurface blend v_crvs v_params (u_params.getD i 0) u =
        Finset.sum (Finset.range v_params.length) fun j =>
          blend v_params j u • u_crvs.getD i 0 (v_params.getD j 0) := by
      unfold loftSurface
      rw [hV]
      apply Finset.sum_congr rfl
      intro j hj
      rw [hnet j (Finset.mem_range.mp hj)]
    rw [h, add_sub_cancel_right]
  · intro j hj v
    rw [loftSurface_at_param blend v_crvs v_params hV hbv j hj,
      tensorInterpolant_at_v_param blend _ u_params v_params hbv j (hV ▸ hj)]
    have h : loftSurface blend u_crvs u_params (v_params.getD j 0) v =
        Finset.sum (Finset.range u_params.length) fun i =>
          blend u_params i v • u_crvs.getD i 0 (v_params.getD j 0) := by
      unfold loftSurface
      rw [hU]
    rw [h, add_sub_cancel_left]

theorem getD_take_of_lt {α : Type} (l : List α) (n i : Nat) (d : α) (h : i < n) :
    (l.take n).getD i d = l.getD i d := by
  rw [List.getD_eq_getElem?_getD, List.getD_eq_getElem?_getD, List.getElem?_take_of_lt h]

theorem getD_drop_add {α : Type} (l : List α) (n j : Nat) (d : α) :
    (l.drop n).getD j d = l.getD (n + j) d := by
  rw [List.getD_eq_getElem?_getD, List.getD_eq_getElem?_getD, List.getElem?_drop]

/-- C11: for every curve net handed over as the driver does (the first
`nmb_u_crvs` entries of `mesh_curves` the u-curves, the others the v-curves,
`params` their parameters), with transversal bases that interpolate at the
assigned parameters of each family and a consistent net (u-curve `i` at the
parameter of v-curve `j` is v-curve `j` at the parameter of u-curve `i`),
`createGordonSurface` returns a surface `S` whose constant-parameter curve at
`params[i]` in the matching direction is mesh curve `i`, for every `i`. -/
theorem createGordonSurface_interpolates_net (blend : List K → Nat → K → K)
    (mesh_curves : List (K → V)) (params : List K) (nmb_u_crvs : Nat)
    (hlen : params.length = mesh_curves.length) (hnu : nmb_u_crvs ≤ mesh_curves.length)
    (hbu : IsInterpolatingBasis blend (params.take nmb_u_crvs))
    (hbv : IsInterpolatingBasis blend (params.drop nmb_u_crvs))
    (hnet : ∀ i j : Nat, i < nmb_u_crvs → nmb_u_crvs ≤ j → j < mesh_curves.length →
      mesh_curves.getD i 0 (params.getD j 0) = mesh_curves.getD j 0 (params.getD i 0)) :
    ∃ S : K → K → V,
      createGordonSurface blend mesh_curves params nmb_u_crvs = .ok S ∧
      (∀ i : Nat, i < nmb_u_crvs → ∀ u : K,
        S u (params.getD i 0) = mesh_curves.getD i 0 u) ∧
      (∀ j : Nat, nmb_u_crvs ≤ j → j < mesh_curves.length → ∀ v : K,
        S (params.getD j 0) v = mesh_curves.getD j 0 v) := by
  have hUl : (mesh_curves.take nmb_u_crvs).length = nmb_u_crvs := by
    rw [List.length_take]
    omega
  have hVl : (mesh_curves.drop nmb_u_crvs).length = mesh_curves.length - nmb_u_crvs :=
    List.length_drop _ _
  have hU : (params.take nmb_u_crvs).length = (mesh_curves.take nmb_u_crvs).length := by
    rw [List.length_take, List.length_take, hlen]
  have hV : (params.drop nmb_u_crvs).length = (mesh_curves.drop nmb_u_crvs).length := by
    rw [List.length_drop, List.length_drop, hlen]
  obtain ⟨h1, h2⟩ := booleanSum_interpolates blend (mesh_curves.take nmb_u_crvs)
    (mesh_curves.drop nmb_u_crvs) (params.take nmb_u_crvs) (params.drop nmb_u_crvs)
    hU hV hbu hbv
  refine ⟨fun u v =>
    loftSurface blend (mesh_curves.take nmb_u_crvs) (params.take nmb_u_crvs) u v +
      loftSurface blend (mesh_curves.drop nmb_u_crvs) (params.drop nmb_u_crvs) v u -
      tensorInterpolant blend
        (fun i j => (mesh_curves.take nmb_u_crvs).getD i 0 ((params.drop nmb_u_crvs).getD j 0))
        (params.take nmb_u_crvs) (params.drop nmb_u_crvs) u v, ?_, ?_, ?_⟩
  · unfold createGordonSurface
    rw [if_neg (by push_neg; exact ⟨hlen, hnu⟩)]
  · intro i hi u
    have h := h1 i (hUl.symm ▸ hi) (by
      intro j hj
      rw [hVl] at hj
      rw [getD_take_of_lt _ _ _ _ hi, getD_take_of_lt _ _ _ _ hi, getD_drop_add,
        getD_drop_add]
      exact hnet i (nmb_u_crvs + j) hi (by omega) (by omega)) u
    rw [getD_take_of_lt _ _ _ _ hi, getD_take_of_lt _ _ _ _ hi] at h
    exact h
  · intro j hj1 hj2 v
    have h := h2 (j - nmb_u_crvs) (by rw [hVl]; omega) v
    rw [getD_drop_add, getD_drop_add, Nat.add_sub_cancel' hj1] at h
    exact h

/-- Witness for C11: the net of four lines on `(u, v) ↦ u + v + u v`, with
the Lagrange polynomials as transversal bases. -/
theorem createGordonSurface_interpolates_net_witness :
    ∃ S : ℚ → ℚ → ℚ,
      createGordonSurface lagrangeBasis bilinearNet bilinearParams 2 = .ok S ∧
      (∀ i : Nat, i < 2 → ∀ u : ℚ, S u (bilinearParams.getD i 0) = bilinearNet.getD i 0 u) ∧
      (∀ j : Nat, 2 ≤ j → j < bilinearNet.length → ∀ v : ℚ,
        S (bilinearParams.getD j 0) v = bilinearNet.getD j 0 v) :=
  createGordonSurface_interpolates_net lagrangeBasis bilinearNet bilinearParams 2 rfl
    (by decide)
    (lagrangeBasis_interpolating _ (by
      intro i k hi hk hik
      have hi2 : i < 2 := hi
      have hk2 : k < 2 := hk
      interval_cases i <;> interval_cases k <;> simp_all [bilinearParams]))
    (lagrangeBasis_interpolating _ (by
      intro i k hi hk hik
      have hi2 : i < 2 := hi
      have hk2 : k < 2 := hk
      interval_cases i <;> interval_cases k <;> simp_all [bilinearParams]))
    (by
      intro i j hi hj1 hj2
      have hj3 : j < 4 := hj2
      interval_cases i <;> interval_cases j <;> norm_num [bilinearNet, bilinearParams])

end gordonTheorems

section loftParamsLemmas

variable {K : Type} [LinearOrderedField K]

theorem sum_sq_zipWith_sub_eq_zero (a b : List K) (h : a.length = b.length)
    (h0 : (List.zipWith (· * ·) (List.zipWith (· - ·) a b) (List.zipWith (· - ·) a b)).sum = 0) :
    a = b := by
  induction a generalizing b with
  | nil =>
    cases b with
    | nil => rfl
    | cons y ys => simp at h
  | cons x xs ih =>
    cases b with
    | nil => simp at h
    | cons y ys =>
      simp only [List.zipWith_cons_cons, List.sum_cons] at h0
      have hrest := Point.dot_self_nonneg (⟨List.zipWith (· - ·) xs ys⟩ : Point K)
      unfold Point.dot at hrest
      have hsq := mul_self_nonneg (x - y)
      have h1 : (x - y) * (x - y) = 0 := by linarith
      have h2 : (List.zipWith (· * ·) (List.zipWith (· - ·) xs ys)
          (List.zipWith (· - ·) xs ys)).sum = 0 := by linarith
      have hxy : x = y := sub_eq_zero.mp (mul_self_eq_zero.mp h1)
      rw [hxy, ih ys (by simpa using h) h2]

theorem Point.dist_sq_pos {m : Libm K} (hm : m.SqrtExact) (p q : Point K)
    (hd : p.dimension = q.dimension) (hne : p ≠ q) : 0 < (p.dist m q) ^ 2 := by
  have hdot := Point.dot_self_nonneg (p.sub q)
  have hne0 : (p.sub q).dot (p.sub q) ≠ 0 := by
    intro h0
    apply hne
    obtain ⟨a⟩ := p
    obtain ⟨b⟩ := q
    congr 1
    exact sum_sq_zipWith_sub_eq_zero a b hd h0
  unfold Point.dist Point.length
  have hs : m.sqrt ((p.sub q).dot (p.sub q)) ≠ 0 := by
    intro h
    exact hne0 ((hm.sqrt_eq_zero_iff hdot).mp h)
  positivity

theorem sum_dist_sq_nonneg (m : Libm K) (S T : List (Point K)) :
    0 ≤ (List.zipWith (fun p q => (p.dist m q) ^ 2) S T).sum := by
  induction S generalizing T with
  | nil => simp
  | cons x xs ih =>
    cases T with
    | nil => simp
    | cons y ys =>
      simp only [List.zipWith_cons_cons, List.sum_cons]
      have := ih ys
      have := sq_nonneg (x.dist m y)
      linarith

theorem sum_dist_sq_pos {m : Libm K} (hm : m.SqrtExact) (d : Nat) (S T : List (Point K))
    (hlen : S.length = T.length) (hS : ∀ p ∈ S, p.dimension = d)
    (hT : ∀ p ∈ T, p.dimension = d) (hne : S ≠ T) :
    0 < (List.zipWith (fun p q => (p.dist m q) ^ 2) S T).sum := by
  induction S generalizing T with
  | nil =>
    cases T with
    | nil => exact absurd rfl hne
    | cons y ys => simp at hlen
  | cons x xs ih =>
    cases T with
    | nil => simp at hlen
    | cons y ys =>
      simp only [List.zipWith_cons_cons, List.sum_cons]
      have hrest := sum_dist_sq_nonneg m xs ys
      by_cases hxy : x = y
      · have hne2 : xs ≠ ys := by
          intro h
          exact hne (by rw [hxy, h])
        have := ih ys (by simpa using hlen) (fun p hp => hS p (List.mem_cons_of_mem _ hp))
          (fun p hp => hT p (List.mem_cons_of_mem _ hp)) hne2
        have := sq_nonneg (x.dist m y)
        linarith
      · have := Point.dist_sq_pos hm x y
          ((hS x (List.mem_cons_self _ _)).trans (hT y (List.mem_cons_self _ _)).symm) hxy
        linarith

theorem quadraticMeanDistance_pos {m : Libm K} (hm : m.SqrtExact) (d : Nat)
    (S T : List (Point K)) (hlen : S.length = T.length) (hS : ∀ p ∈ S, p.dimension = d)
    (hT : ∀ p ∈ T, p.dimension = d) (hne : S ≠ T) :
    0 < quadraticMeanDistance m S T := by
  have hsum := sum_dist_sq_pos hm d S T hlen hS hT hne
  have hN : 0 < (S.length : K) := by
    rw [Nat.cast_pos]
    rcases Nat.eq_zero_or_pos S.length with h | h
    · exfalso
      apply hne
      have hS0 : S = [] := List.length_eq_zero.mp h
      have hT0 : T = [] := List.length_eq_zero.mp (hlen ▸ h)
      rw [hS0, hT0]
    · exact h
  have hx : (0 : K) < (List.zipWith (fun p q => (p.dist m q) ^ 2) S T).sum / (S.length : K) :=
    div_pos hsum hN
  unfold quadraticMeanDistance
  have h0 := hm.sqrt_nonneg _ hx.le
  rcases h0.lt_or_eq with h | h
  · exact h
  · exact absurd ((hm.sqrt_eq_zero_iff hx.le).mp h.symm) hx.ne'

end loftParamsLemmas

section loftParamsTheorems

variable {K : Type} [LinearOrderedField K]

theorem getD_range_map (f : Nat → K) (n i : Nat) (h : i < n) :
    ((List.range n).map f).getD i 0 = f i := by
  rw [List.getD_eq_getElem _ _ (by simpa using h)]
  simp

theorem getD_mem_of_lt {α : Type} (l : List α) (d : α) (i : Nat) (h : i < l.length) :
    l.getD i d ∈ l := by
  rw [List.getD_eq_getElem _ _ h]
  exact List.getElem_mem h

theorem ratio_of_gap (P Q T L : K) (hq : Q ≠ 0) (hl : L ≠ 0) :
    Q / ((P + Q) * (L / T) - P * (L / T)) = T / L := by
  have h : (P + Q) * (L / T) - P * (L / T) = Q * L / T := by ring
  rw [h]
  field_simp
  ring

/-- C12: for `n ≥ 2` unified curves (equal control-point counts `N`, all
control points of one dimension `d`) whose neighbours are distinct, and every
`param_length = L > 0`, with an exact `sqrt`, `makeLoftParams` returns
`params` with `params[0] = 0`, `params[n-1] = L`, `params` strictly
increasing, and the ratio `Q_i / (params[i+1] - params[i])` the same for all
`i`, `Q_i` being the quadratic mean distance of the control points of curves
`i` and `i + 1`. -/
theorem makeLoftParams_spec {m : Libm K} (hm : m.SqrtExact) (curves : List (List (Point K)))
    (L : K) (N d : Nat) (hn : 2 ≤ curves.length) (hL : 0 < L)
    (hcount : ∀ c ∈ curves, c.length = N)
    (hdim : ∀ c ∈ curves, ∀ p ∈ c, p.dimension = d)
    (hdist : ∀ i : Nat, i + 1 < curves.length → curves.getD i [] ≠ curves.getD (i + 1) []) :
    ∃ params : List K,
      makeLoftParams m curves L = .ok params ∧
      params.length = curves.length ∧
      params.getD 0 0 = 0 ∧
      params.getD (curves.length - 1) 0 = L ∧
      (∀ i : Nat, i + 1 < curves.length → params.getD i 0 < params.getD (i + 1) 0) ∧
      ∃ ratio : K, ∀ i : Nat, i + 1 < curves.length →
        quadraticMeanDistance m (curves.getD i []) (curves.getD (i + 1) []) /
          (params.getD (i + 1) 0 - params.getD i 0) = ratio := by
  obtain ⟨gaps, hgaps⟩ : ∃ gaps : List K, gaps = (List.range (curves.length - 1)).map fun i =>
      quadraticMeanDistance m (curves.getD i []) (curves.getD (i + 1) []) := ⟨_, rfl⟩
  have hgl : gaps.length = curves.length - 1 := by
    rw [hgaps, List.length_map, List.length_range]
  have hgi : ∀ i : Nat, i + 1 < curves.length →
      gaps.getD i 0 = quadraticMeanDistance m (curves.getD i []) (curves.getD (i + 1) []) := by
    intro i hi
    rw [hgaps, getD_range_map _ _ _ (by omega)]
  have hQ : ∀ i : Nat, i + 1 < curves.length →
      0 < quadraticMeanDistance m (curves.getD i []) (curves.getD (i + 1) []) := by
    intro i hi
    have h1 := getD_mem_of_lt curves [] i (by omega)
    have h2 := getD_mem_of_lt curves [] (i + 1) hi
    exact quadraticMeanDistance_pos hm d _ _ ((hcount _ h1).trans (hcount _ h2).symm)
      (hdim _ h1) (hdim _ h2) (hdist i hi)
  have htotal : 0 < gaps.sum := by
    apply List.sum_pos
    · intro x hx
      rw [hgaps] at hx
      obtain ⟨i, hi, rfl⟩ := List.mem_map.mp hx
      exact hQ i (by have := List.mem_range.mp hi; omega)
    · intro h
      rw [h] at hgl
      simp at hgl
      omega
  have hscale : 0 < L / gaps.sum := div_pos hL htotal
  have hstep : ∀ i : Nat, i + 1 < curves.length →
      (gaps.take (i + 1)).sum = (gaps.take i).sum +
        quadraticMeanDistance m (curves.getD i []) (curves.getD (i + 1) []) := by
    intro i hi
    have hlt : i < gaps.length := by omega
    rw [List.sum_take_succ gaps i hlt, ← hgi i hi, List.getD_eq_getElem _ _ hlt]
  have hcond : ∀ c ∈ curves, c.length = (curves.headD []).length := by
    intro c hc
    have hhead : curves.headD [] ∈ curves := by
      cases curves with
      | nil => simp at hn
      | cons a as => simp
    rw [hcount c hc, hcount _ hhead]
  refine ⟨(List.range curves.length).map fun i => (gaps.take i).sum * (L / gaps.sum),
    ?_, ?_, ?_, ?_, ?_, ⟨gaps.sum / L, ?_⟩⟩
  · unfold makeLoftParams
    rw [if_pos hcond, hgaps]
  · rw [List.length_map, List.length_range]
  · rw [getD_range_map _ _ _ (by omega)]
    simp
  · rw [getD_range_map _ _ _ (by omega), ← hgl, List.take_length]
    field_simp
  · intro i hi
    rw [getD_range_map _ _ (i + 1) hi, getD_range_map _ _ i (by omega), hstep i hi, add_mul]
    have := mul_pos (hQ i hi) hscale
    linarith
  · intro i hi
    rw [getD_range_map _ _ (i + 1) hi, getD_range_map _ _ i (by omega), hstep i hi]
    exact ratio_of_gap _ _ _ _ (hQ i hi).ne.symm hL.ne.symm

end loftParamsTheorems

section loftParamsReal

/-- Witness for C12: over the reals, the three horizontal segments at
heights `0`, `1` and `3`, with `param_length = 3`. -/
theorem makeLoftParams_spec_witness :
    ∃ params : List ℝ,
      makeLoftParams (Libm.mk Real.pi Real.sqrt Real.cos Real.sin) loftExample 3 = .ok params ∧
      params.length = (loftExample : List (List (Point ℝ))).length ∧
      params.getD 0 0 = 0 ∧
      params.getD ((loftExample : List (List (Point ℝ))).length - 1) 0 = 3 ∧
      (∀ i : Nat, i + 1 < (loftExample : List (List (Point ℝ))).length →
        params.getD i 0 < params.getD (i + 1) 0) ∧
      ∃ ratio : ℝ, ∀ i : Nat, i + 1 < (loftExample : List (List (Point ℝ))).length →
        quadraticMeanDistance (Libm.mk Real.pi Real.sqrt Real.cos Real.sin)
            ((loftExample : List (List (Point ℝ))).getD i [])
            ((loftExample : List (List (Point ℝ))).getD (i + 1) []) /
          (params.getD (i + 1) 0 - params.getD i 0) = ratio :=
  makeLoftParams_spec real_sqrtExact loftExample 3 2 2 (by simp [loftExample])
    (by norm_num)
    (by
      intro c hc
      simp only [loftExample, List.mem_cons, List.mem_singleton, List.not_mem_nil,
        or_false] at hc
      rcases hc with rfl | rfl | rfl <;> rfl)
    (by
      intro c hc p hp
      simp only [loftExample, List.mem_cons, List.mem_singleton, List.not_mem_nil,
        or_false] at hc
      rcases hc with rfl | rfl | rfl <;>
        · simp only [List.mem_cons, List.mem_singleton, List.not_mem_nil, or_false] at hp
          rcases hp with rfl | rfl <;> rfl)
    (by
      intro i hi
      have hi3 : i + 1 < 3 := hi
      have hi2 : i < 2 := by omega
      interval_cases i <;> simp [loftExample])

end loftParamsReal

section angleLemmas

theorem half_angle_quotients (a S : ℝ) (hS : S ≠ 0) :
    (1 - (a / S) ^ 2) / (1 + (a / S) ^ 2) = (S ^ 2 - a ^ 2) / (S ^ 2 + a ^ 2) ∧
    2 * (a / S) / (1 + (a / S) ^ 2) = 2 * a * S / (S ^ 2 + a ^ 2) := by
  have h1 : S ^ 2 + a ^ 2 ≠ 0 := by positivity
  have h2 : 1 + (a / S) ^ 2 ≠ 0 := by positivity
  constructor
  · rw [div_eq_div_iff h2 h1]
    field_simp
  · rw [div_eq_div_iff h2 h1]
    field_simp
    ring

/-- The rational quadratic quarter arc in half-angle form: with
`τ = u w / (u w + (1 - u))` and `w² = 1/2`, the two quotients of the quarter
are `(1 - τ²)/(1 + τ²)` and `2 τ/(1 + τ²)`. -/
theorem quarter_half_angle (u w : ℝ) (hu0 : 0 ≤ u) (hu1 : u ≤ 1) (hw : 0 < w)
    (hw2 : w * w = 1 / 2) :
    ((1 - u) ^ 2 + 2 * u * (1 - u) * w) / ((1 - u) ^ 2 + 2 * u * (1 - u) * w + u ^ 2) =
      (1 - (u * w / (u * w + (1 - u))) ^ 2) / (1 + (u * w / (u * w + (1 - u))) ^ 2) ∧
    (2 * u * (1 - u) * w + u ^ 2) / ((1 - u) ^ 2 + 2 * u * (1 - u) * w + u ^ 2) =
      2 * (u * w / (u * w + (1 - u))) / (1 + (u * w / (u * w + (1 - u))) ^ 2) := by
  have hS : 0 < u * w + (1 - u) := by
    rcases hu1.lt_or_eq with h | h
    · have := mul_nonneg hu0 hw.le
      linarith
    · rw [h]
      linarith
  obtain ⟨e1, e2⟩ := half_angle_quotients (u * w) (u * w + (1 - u)) hS.ne.symm
  have hden : (u * w + (1 - u)) ^ 2 + (u * w) ^ 2 =
      (1 - u) ^ 2 + 2 * u * (1 - u) * w + u ^ 2 := by
    linear_combination (2 * u ^ 2) * hw2
  rw [e1, e2, hden]
  constructor
  · congr 1
    ring
  · congr 1
    linear_combination (-2 * u ^ 2) * hw2

theorem cos_sin_two_arctan (x : ℝ) :
    Real.cos (2 * Real.arctan x) = (1 - x ^ 2) / (1 + x ^ 2) ∧
    Real.sin (2 * Real.arctan x) = 2 * x / (1 + x ^ 2) := by
  have hpos : 0 < 1 + x ^ 2 := by positivity
  have hsq : Real.sqrt (1 + x ^ 2) * Real.sqrt (1 + x ^ 2) = 1 + x ^ 2 :=
    Real.mul_self_sqrt hpos.le
  have hs0 : Real.sqrt (1 + x ^ 2) ≠ 0 := (Real.sqrt_pos.mpr hpos).ne.symm
  constructor
  · rw [Real.cos_two_mul, Real.cos_sq_arctan]
    field_simp
    ring
  · rw [Real.sin_two_mul, Real.sin_arctan, Real.cos_arctan]
    field_simp

theorem half_angle_den_pos (w c : ℝ) (hw : 0 < w) (h0 : 0 ≤ c) (h1 : c ≤ 1) :
    0 < c * w + (1 - c) := by
  rcases h1.lt_or_eq with h | h
  · have := mul_nonneg h0 hw.le
    linarith
  · rw [h]
    linarith

theorem half_angle_tan_lt (w c d : ℝ) (hw : 0 < w) (h0 : 0 ≤ c) (hcd : c < d) (h1 : d ≤ 1) :
    c * w / (c * w + (1 - c)) < d * w / (d * w + (1 - d)) := by
  have hc := half_angle_den_pos w c hw h0 (hcd.le.trans h1)
  have hd := half_angle_den_pos w d hw (h0.trans hcd.le) h1
  rw [div_lt_div_iff₀ hc hd]
  nlinarith [mul_pos hw (sub_pos.mpr hcd)]

theorem clamp_mem (x : ℝ) : 0 ≤ max 0 (min 1 x) ∧ max 0 (min 1 x) ≤ 1 :=
  ⟨le_max_left _ _, max_le zero_le_one (min_le_left _ _)⟩

theorem clamp_mono {x y : ℝ} (h : x ≤ y) : max 0 (min 1 x) ≤ max 0 (min 1 y) :=
  max_le_max le_rfl (min_le_min le_rfl h)

theorem clamp_of_mem {x : ℝ} (h0 : 0 ≤ x) (h1 : x ≤ 1) : max 0 (min 1 x) = x := by
  rw [min_eq_right h1, max_eq_right h0]

theorem clamp_of_nonpos {x : ℝ} (h : x ≤ 0) : max 0 (min 1 x) = 0 := by
  rw [min_eq_right (h.trans zero_le_one), max_eq_left h]

theorem clamp_of_one_le {x : ℝ} (h : 1 ≤ x) : max 0 (min 1 x) = 1 := by
  rw [min_eq_left h, max_eq_right zero_le_one]

/-- The angle along one quarter of the canonical curve, as a function of the
position `x = (t - j π/2) / (π/2)` extended by `0` before the quarter and by
`π/2` after it: continuous, monotone, strictly increasing inside the quarter,
and with cosine and sine the two rational quotients of the quarter. -/
theorem exists_quarter_angle (w : ℝ) (hw : 0 < w) (hw2 : w * w = 1 / 2) :
    ∃ g : ℝ → ℝ, Continuous g ∧ Monotone g ∧ (∀ x, x ≤ 0 → g x = 0) ∧
      (∀ x, 1 ≤ x → g x = Real.pi / 2) ∧
      (∀ x y, 0 ≤ x → x < 1 → x < y → g x < g y) ∧
      ∀ u, 0 ≤ u → u ≤ 1 →
        Real.cos (g u) = ((1 - u) ^ 2 + 2 * u * (1 - u) * w) /
          ((1 - u) ^ 2 + 2 * u * (1 - u) * w + u ^ 2) ∧
        Real.sin (g u) = (2 * u * (1 - u) * w + u ^ 2) /
          ((1 - u) ^ 2 + 2 * u * (1 - u) * w + u ^ 2) := by
  have hTmono : ∀ c d : ℝ, 0 ≤ c → c ≤ d → d ≤ 1 →
      c * w / (c * w + (1 - c)) ≤ d * w / (d * w + (1 - d)) := by
    intro c d h0 hcd h1
    rcases hcd.lt_or_eq with h | h
    · exact (half_angle_tan_lt w c d hw h0 h h1).le
    · rw [h]
  refine ⟨fun x => 2 * Real.arctan (max 0 (min 1 x) * w /
    (max 0 (min 1 x) * w + (1 - max 0 (min 1 x)))), ?_, ?_, ?_, ?_, ?_, ?_⟩
  · apply Continuous.mul continuous_const
    apply Real.continuous_arctan.comp
    have hc : Continuous fun x : ℝ => max 0 (min 1 x) :=
      continuous_const.max (continuous_const.min continuous_id)
    apply Continuous.div (hc.mul continuous_const)
      ((hc.mul continuous_const).add (continuous_const.sub hc))
    intro x
    exact (half_angle_den_pos w _ hw (clamp_mem x).1 (clamp_mem x).2).ne.symm
  · intro x y hxy
    have := Real.arctan_strictMono.monotone
      (hTmono _ _ (clamp_mem x).1 (clamp_mono hxy) (clamp_mem y).2)
    simp only []
    linarith
  · intro x hx
    simp only []
    rw [clamp_of_nonpos hx]
    simp
  · intro x hx
    simp only []
    rw [clamp_of_one_le hx]
    have h1 : (1 : ℝ) * w / (1 * w + (1 - 1)) = 1 := by
      field_simp
    rw [h1, Real.arctan_one]
    ring
  · intro x y h0 h1 hxy
    simp only []
    rw [clamp_of_mem h0 h1.le]
    have hy : x < max 0 (min 1 y) := lt_max_of_lt_right (lt_min h1 hxy)
    have := Real.arctan_strictMono
      (half_angle_tan_lt w x _ hw h0 hy (clamp_mem y).2)
    linarith
  · intro u h0 h1
    simp only []
    rw [clamp_of_mem h0 h1]
    obtain ⟨c1, c2⟩ := cos_sin_two_arctan (u * w / (u * w + (1 - u)))
    obtain ⟨q1, q2⟩ := quarter_half_angle u w h0 h1 hw hw2
    rw [c1, c2, q1, q2]
    exact ⟨rfl, rfl⟩

/-- The angle along the whole canonical curve: a continuous function `θ` on
the parameter with `θ 0 = 0`, `θ (4 q) = 2π` (`q = π/2`), strictly increasing
on `[0, 4 q]`, which on the `j`-th quarter is `j π/2` plus the angle of the
quarter. -/
theorem exists_curve_angle (w : ℝ) (hw : 0 < w) (hw2 : w * w = 1 / 2) :
    ∃ θ : ℝ → ℝ, Continuous θ ∧ θ 0 = 0 ∧ θ (2 * Real.pi) = 2 * Real.pi ∧
      (∀ s t, 0 ≤ s → s < t → t ≤ 2 * Real.pi → θ s < θ t) ∧
      ∀ (j : Nat) (s : ℝ), j < 4 → (j : ℝ) * (Real.pi / 2) ≤ s →
        s ≤ (j + 1 : ℝ) * (Real.pi / 2) →
        ∃ φ : ℝ, θ s = j * (Real.pi / 2) + φ ∧
          Real.cos φ =
            ((1 - (s - j * (Real.pi / 2)) / (Real.pi / 2)) ^ 2 +
              2 * ((s - j * (Real.pi / 2)) / (Real.pi / 2)) *
                (1 - (s - j * (Real.pi / 2)) / (Real.pi / 2)) * w) /
            ((1 - (s - j * (Real.pi / 2)) / (Real.pi / 2)) ^ 2 +
              2 * ((s - j * (Real.pi / 2)) / (Real.pi / 2)) *
                (1 - (s - j * (Real.pi / 2)) / (Real.pi / 2)) * w +
              ((s - j * (Real.pi / 2)) / (Real.pi / 2)) ^ 2) ∧
          Real.sin φ =
            (2 * ((s - j * (Real.pi / 2)) / (Real.pi / 2)) *
                (1 - (s - j * (Real.pi / 2)) / (Real.pi / 2)) * w +
              ((s - j * (Real.pi / 2)) / (Real.pi / 2)) ^ 2) /
            ((1 - (s - j * (Real.pi / 2)) / (Real.pi / 2)) ^ 2 +
              2 * ((s - j * (Real.pi / 2)) / (Real.pi / 2)) *
                (1 - (s - j * (Real.pi / 2)) / (Real.pi / 2)) * w +
              ((s - j * (Real.pi / 2)) / (Real.pi / 2)) ^ 2) := by
  obtain ⟨g, hgc, hgm, hg0, hg1, hgs, hgcs⟩ := exists_quarter_angle w hw hw2
  have hq : 0 < Real.pi / 2 := by positivity
  have hqne : Real.pi / 2 ≠ 0 := hq.ne.symm
  refine ⟨fun s => g (s / (Real.pi / 2)) + g (s / (Real.pi / 2) - 1) +
    g (s / (Real.pi / 2) - 2) + g (s / (Real.pi / 2) - 3), ?_, ?_, ?_, ?_, ?_⟩
  · have hd : Continuous fun s : ℝ => s / (Real.pi / 2) := continuous_id.div_const _
    exact (((hgc.comp hd).add (hgc.comp (hd.sub continuous_const))).add
      (hgc.comp (hd.sub continuous_const))).add (hgc.comp (hd.sub continuous_const))
  · simp only [zero_div]
    rw [hg0 0 le_rfl, hg0 (0 - 1) (by norm_num), hg0 (0 - 2) (by norm_num),
      hg0 (0 - 3) (by norm_num)]
    ring
  · have h4 : 2 * Real.pi / (Real.pi / 2) = 4 := by
      field_simp
      ring
    simp only [h4]
    rw [hg1 4 (by norm_num), hg1 (4 - 1) (by norm_num), hg1 (4 - 2) (by norm_num),
      hg1 (4 - 3) (by norm_num)]
    ring
  · intro s t hs hst ht
    simp only []
    have hx : s / (Real.pi / 2) < t / (Real.pi / 2) := div_lt_div_of_pos_right hst hq
    have hx0 : 0 ≤ s / (Real.pi / 2) := div_nonneg hs hq.le
    have hx4 : s / (Real.pi / 2) < 4 := by
      rw [div_lt_iff₀ hq]
      linarith
    generalize s / (Real.pi / 2) = x at hx hx0 hx4
    generalize t / (Real.pi / 2) = y at hx
    have m0 := hgm hx.le
    have m1 := hgm (sub_le_sub_right hx.le 1)
    have m2 := hgm (sub_le_sub_right hx.le 2)
    have m3 := hgm (sub_le_sub_right hx.le 3)
    rcases lt_or_le x 1 with h1 | h1
    · have := hgs x y hx0 h1 hx
      linarith
    rcases lt_or_le x 2 with h2 | h2
    · have := hgs (x - 1) (y - 1) (by linarith) (by linarith) (by linarith)
      linarith
    rcases lt_or_le x 3 with h3 | h3
    · have := hgs (x - 2) (y - 2) (by linarith) (by linarith) (by linarith)
      linarith
    · have := hgs (x - 3) (y - 3) (by linarith) (by linarith) (by linarith)
      linarith
  · intro j s hj h0 h1
    have hu0 : 0 ≤ (s - j * (Real.pi / 2)) / (Real.pi / 2) := div_nonneg (by linarith) hq.le
    have hu1 : (s - j * (Real.pi / 2)) / (Real.pi / 2) ≤ 1 := by
      rw [div_le_one hq]
      linarith
    refine ⟨g ((s - j * (Real.pi / 2)) / (Real.pi / 2)), ?_,
      hgcs _ hu0 hu1⟩
    simp only []
    have e0 : s / (Real.pi / 2) = (s - j * (Real.pi / 2)) / (Real.pi / 2) + j := by
      field_simp
    rw [e0]
    generalize (s - j * (Real.pi / 2)) / (Real.pi / 2) = u at hu0 hu1
    interval_cases j
    · rw [hg0 (u + ((0 : Nat) : ℝ) - 1) (by push_cast; linarith),
        hg0 (u + ((0 : Nat) : ℝ) - 2) (by push_cast; linarith),
        hg0 (u + ((0 : Nat) : ℝ) - 3) (by push_cast; linarith)]
      push_cast
      ring_nf
    · rw [hg1 (u + ((1 : Nat) : ℝ)) (by push_cast; linarith),
        hg0 (u + ((1 : Nat) : ℝ) - 2) (by push_cast; linarith),
        hg0 (u + ((1 : Nat) : ℝ) - 3) (by push_cast; linarith)]
      push_cast
      ring_nf
    · rw [hg1 (u + ((2 : Nat) : ℝ)) (by push_cast; linarith),
        hg1 (u + ((2 : Nat) : ℝ) - 1) (by push_cast; linarith),
        hg0 (u + ((2 : Nat) : ℝ) - 3) (by push_cast; linarith)]
      push_cast
      ring_nf
    · rw [hg1 (u + ((3 : Nat) : ℝ)) (by push_cast; linarith),
        hg1 (u + ((3 : Nat) : ℝ) - 1) (by push_cast; linarith),
        hg1 (u + ((3 : Nat) : ℝ) - 2) (by push_cast; linarith)]
      push_cast
      ring_nf

theorem angle_eq_of_cos_sin (x y : ℝ) (hc : Real.cos x = Real.cos y)
    (hs : Real.sin x = Real.sin y) (hx0 : 0 ≤ x) (hx1 : x ≤ 2 * Real.pi)
    (hy0 : 0 ≤ y) (hy1 : y ≤ 2 * Real.pi) :
    x = y ∨ (x = 0 ∧ y = 2 * Real.pi) ∨ (x = 2 * Real.pi ∧ y = 0) := by
  have hpi := Real.pi_pos
  obtain ⟨k, hk⟩ := Real.Angle.angle_eq_iff_two_pi_dvd_sub.mp (Real.Angle.cos_sin_inj hc hs)
  have hk1 : (k : ℝ) < 2 := by
    by_contra h
    push_neg at h
    nlinarith
  have hk2 : (-2 : ℝ) < k := by
    by_contra h
    push_neg at h
    nlinarith
  have hk1' : k < 2 := by exact_mod_cast hk1
  have hk2' : -2 < k := by exact_mod_cast hk2
  interval_cases k
  · right; left
    push_cast at hk
    constructor <;> linarith
  · left
    push_cast at hk
    linarith
  · right; right
    push_cast at hk
    constructor <;> linarith

end angleLemmas
section arcLemmas

variable {K : Type} [LinearOrderedField K]

/-- The value of `Ellipse::point` coordinate by coordinate, in the form in
which the points of the canonical curve are written. -/
theorem Ellipse.point_eq_position (m : Libm K) (e : Ellipse K)
    (hv1 : e.vec1_.dimension = e.dimension) (hv2 : e.vec2_.dimension = e.dimension) (t : K) :
    e.point m t =
      ⟨(List.range e.dimension).map fun i =>
        e.centre_.get i +
          (Point.smul e.r1_ e.vec1_).get i * m.cos (e.getReversedParameter t) +
          (Point.smul e.r2_ e.vec2_).get i * m.sin (e.getReversedParameter t)⟩ := by
  have hdimP : (e.point m t).dimension = e.dimension := by
    unfold Ellipse.point
    simp only []
    have h1 : e.centre_.dimension =
        (Point.smul (e.r1_ * m.cos (e.getReversedParameter t)) e.vec1_).dimension := by
      rw [Point.dimension_smul, hv1]; rfl
    rw [Point.dimension_add _ _ (by rw [Point.dimension_add _ _ h1, Point.dimension_smul, hv2]; rfl),
      Point.dimension_add _ _ h1]
    rfl
  conv_lhs => rw [← Point.readFrom_get (e.point m t)]
  unfold Point.readFrom
  rw [hdimP]
  congr 1
  apply List.map_congr_left
  intro i _
  rw [Ellipse.point_get m e hv1 hv2, Point.get_smul, Point.get_smul]
  ring

/-- The scalar products that recover `α` and `β` from the point
`centre + α * axis1 + β * axis2` of an ellipse with orthonormal `vec1_`,
`vec2_`. -/
theorem position_dot (e : Ellipse K) (hdim : e.dimension = 2 ∨ e.dimension = 3)
    (hv1 : e.vec1_.dimension = e.dimension) (hv2 : e.vec2_.dimension = e.dimension)
    (h11 : e.vec1_.dot e.vec1_ = 1) (h22 : e.vec2_.dot e.vec2_ = 1)
    (h12 : e.vec1_.dot e.vec2_ = 0) (α β : K) :
    ((Point.mk ((List.range e.dimension).map fun i =>
        e.centre_.get i + (Point.smul e.r1_ e.vec1_).get i * α +
          (Point.smul e.r2_ e.vec2_).get i * β)).sub e.centre_).dot e.vec1_ = e.r1_ * α ∧
    ((Point.mk ((List.range e.dimension).map fun i =>
        e.centre_.get i + (Point.smul e.r1_ e.vec1_).get i * α +
          (Point.smul e.r2_ e.vec2_).get i * β)).sub e.centre_).dot e.vec2_ = e.r2_ * β := by
  unfold Ellipse.dimension at hdim hv1 hv2 ⊢
  generalize e.r1_ = r1
  generalize e.r2_ = r2
  rcases hdim with h | h
  · rw [h] at hv1 hv2 ⊢
    obtain ⟨c0, c1, hc⟩ := Point.exists_of_dimension_two _ h
    obtain ⟨x0, x1, hx⟩ := Point.exists_of_dimension_two _ hv1
    obtain ⟨y0, y1, hy⟩ := Point.exists_of_dimension_two _ hv2
    simp only [hx, hy, Point.dot_two] at h11 h22 h12
    rw [hc, hx, hy, range_two]
    simp only [List.map_cons, List.map_nil, Point.get, Point.smul, Point.sub,
      List.getD_cons_zero, List.getD_cons_succ, List.zipWith_cons_cons, List.zipWith_nil_left,
      Point.dot_two]
    constructor
    · linear_combination (r1 * α) * h11 + (r2 * β) * h12
    · linear_combination (r2 * β) * h22 + (r1 * α) * h12
  · rw [h] at hv1 hv2 ⊢
    obtain ⟨c0, c1, c2, hc⟩ := Point.exists_of_dimension_three _ h
    obtain ⟨x0, x1, x2, hx⟩ := Point.exists_of_dimension_three _ hv1
    obtain ⟨y0, y1, y2, hy⟩ := Point.exists_of_dimension_three _ hv2
    simp only [hx, hy, Point.dot_three] at h11 h22 h12
    rw [hc, hx, hy, range_three]
    simp only [List.map_cons, List.map_nil, Point.get, Point.smul, Point.sub,
      List.getD_cons_zero, List.getD_cons_succ, List.zipWith_cons_cons, List.zipWith_nil_left,
      Point.dot_three]
    constructor
    · linear_combination (r1 * α) * h11 + (r2 * β) * h12
    · linear_combination (r2 * β) * h22 + (r1 * α) * h12

theorem position_inj (e : Ellipse K) (hdim : e.dimension = 2 ∨ e.dimension = 3)
    (hv1 : e.vec1_.dimension = e.dimension) (hv2 : e.vec2_.dimension = e.dimension)
    (h11 : e.vec1_.dot e.vec1_ = 1) (h22 : e.vec2_.dot e.vec2_ = 1)
    (h12 : e.vec1_.dot e.vec2_ = 0) (hr1 : e.r1_ ≠ 0) (hr2 : e.r2_ ≠ 0) (α β α2 β2 : K)
    (h : (Point.mk ((List.range e.dimension).map fun i =>
        e.centre_.get i + (Point.smul e.r1_ e.vec1_).get i * α +
          (Point.smul e.r2_ e.vec2_).get i * β)) =
      ⟨(List.range e.dimension).map fun i =>
        e.centre_.get i + (Point.smul e.r1_ e.vec1_).get i * α2 +
          (Point.smul e.r2_ e.vec2_).get i * β2⟩) :
    α = α2 ∧ β = β2 := by
  obtain ⟨a1, b1⟩ := position_dot e hdim hv1 hv2 h11 h22 h12 α β
  obtain ⟨a2, b2⟩ := position_dot e hdim hv1 hv2 h11 h22 h12 α2 β2
  rw [h] at a1 b1
  exact ⟨mul_left_cancel₀ hr1 (a1.symm.trans a2), mul_left_cancel₀ hr2 (b1.symm.trans b2)⟩

end arcLemmas
section arcReal

/-- Over the reals the canonical curve of `createSplineCurve` is the ellipse
run through once by a continuous, strictly increasing angle `θ` with
`θ 0 = 0` and `θ (2π) = 2π`: its point at `s ∈ [0, 2π]` is
`centre + r1 cos(θ s) vec1_ + r2 sin(θ s) vec2_`. -/
theorem real_canonicalCurve_angle :
    ∃ θ : ℝ → ℝ, Continuous θ ∧ θ 0 = 0 ∧ θ (2 * Real.pi) = 2 * Real.pi ∧
      (∀ s t, 0 ≤ s → s < t → t ≤ 2 * Real.pi → θ s < θ t) ∧
      ∀ e : Ellipse ℝ, (e.dimension = 2 ∨ e.dimension = 3) →
        ∀ s, 0 ≤ s → s ≤ 2 * Real.pi →
          (e.canonicalCurve (Libm.mk Real.pi Real.sqrt Real.cos Real.sin)).point s =
            ⟨(List.range e.dimension).map fun i =>
              e.centre_.get i + (Point.smul e.r1_ e.vec1_).get i * Real.cos (θ s) +
                (Point.smul e.r2_ e.vec2_).get i * Real.sin (θ s)⟩ := by
  have hpi := Real.pi_pos
  obtain ⟨hw, hw2⟩ : 0 < 1 / Real.sqrt 2 ∧ (1 / Real.sqrt 2) * (1 / Real.sqrt 2) = 1 / 2 :=
    real_sqrtExact.inv_sqrt_two
  obtain ⟨θ, hc, h0, h2, hmono, hquarter⟩ := exists_curve_angle (1 / Real.sqrt 2) hw hw2
  refine ⟨θ, hc, h0, h2, hmono, ?_⟩
  intro e hdim s hs0 hs1
  obtain ⟨j, hj, hj0, hj1⟩ := exists_quarter (Real.pi / 2) s hs0 (by linarith)
  have hle : s ≤ (j + 1 : ℝ) * (Real.pi / 2) := by
    rcases hj1 with h | ⟨h3, h⟩
    · exact h.le
    · rw [h3, h]
      push_cast
      linarith
  obtain ⟨φ, hθ, hcφ, hsφ⟩ := hquarter j s hj hj0 hle
  rw [canonicalCurve_point_quarter (Libm.mk Real.pi Real.sqrt Real.cos Real.sin) Real.pi_pos
    e hdim j hj s ((s - j * (Real.pi / 2)) / (Real.pi / 2)) rfl hj0 hj1]
  congr 1
  apply List.map_congr_left
  intro i _
  obtain ⟨hcj, hsj⟩ := real_cos_sin_quarter j (by omega)
  rw [hθ, Real.cos_add, Real.sin_add, hcj, hsj, hcφ, hsφ]
  unfold Ellipse.controlPosition
  dsimp only
  have hu := real_quarter_parameter j s hj0 hle
  generalize (s - (j : ℝ) * (Real.pi / 2)) / (Real.pi / 2) = u at hu ⊢
  have hD := quarter_denominator_pos u (1 / Real.sqrt 2) hu.1 hu.2 hw
  generalize 1 / Real.sqrt 2 = w at hD ⊢
  generalize (Point.smul e.r1_ e.vec1_).get i = X
  generalize (Point.smul e.r2_ e.vec2_).get i = Y
  generalize e.centre_.get i = c
  have hD0 := hD.ne.symm
  interval_cases j <;>
    simp only [axis1Sign, axis2Sign, List.getD_cons_zero, List.getD_cons_succ, Nat.reduceMul,
      Nat.reduceAdd] <;>
    field_simp <;>
    ring

end arcReal
section roundTripArc

/-- C7 (amended): over the reals, for every valid ellipse of dimension 2 or
3 (orthonormal `vec1_`, `vec2_`, non-zero radii) whose interval `[a, b]` lies
in `[0, 2π]` or in `[-2π, 0]`: the canonical curve meets `pt1` and `pt2` at
parameters `clo_t1 < clo_t2` of `[0, 2π]`; and whenever the two
`closestPoint` calls return such parameters, the curve that
`createSplineCurve` returns (sub-curve between them, domain rescaled to
`[a, b]`, reversed if flagged, these operations taken as exact) equals
`Ellipse::point` at `a` and at `b`, and at every `t ∈ [a, b]`, the midpoint
included, it is `Ellipse::point(ψ)` for some `ψ ∈ [a, b]`: a point of the arc
from `a` to `b`, not in general the point of parameter `t`. -/
theorem createSplineCurve_round_trip (e : Ellipse ℝ)
    (hdim : e.dimension = 2 ∨ e.dimension = 3)
    (hv1 : e.vec1_.dimension = e.dimension) (hv2 : e.vec2_.dimension = e.dimension)
    (h11 : e.vec1_.dot e.vec1_ = 1) (h22 : e.vec2_.dot e.vec2_ = 1)
    (h12 : e.vec1_.dot e.vec2_ = 0) (hr1 : e.r1_ ≠ 0) (hr2 : e.r2_ ≠ 0)
    (hab : e.startparam_ < e.endparam_)
    (hrange : (0 ≤ e.startparam_ ∧ e.endparam_ ≤ 2 * Real.pi) ∨
      (-(2 * Real.pi) ≤ e.startparam_ ∧ e.endparam_ ≤ 0)) :
    (∃ clo_t1 clo_t2 : ℝ, 0 ≤ clo_t1 ∧ clo_t1 < clo_t2 ∧ clo_t2 ≤ 2 * Real.pi ∧
      (e.canonicalCurve (Libm.mk Real.pi Real.sqrt Real.cos Real.sin)).point clo_t1 =
        (e.closestPointTargets (Libm.mk Real.pi Real.sqrt Real.cos Real.sin)).1 ∧
      (e.canonicalCurve (Libm.mk Real.pi Real.sqrt Real.cos Real.sin)).point clo_t2 =
        (e.closestPointTargets (Libm.mk Real.pi Real.sqrt Real.cos Real.sin)).2) ∧
    ∀ clo_t1 clo_t2 : ℝ, 0 ≤ clo_t1 → clo_t1 < clo_t2 → clo_t2 ≤ 2 * Real.pi →
      (e.canonicalCurve (Libm.mk Real.pi Real.sqrt Real.cos Real.sin)).point clo_t1 =
        (e.closestPointTargets (Libm.mk Real.pi Real.sqrt Real.cos Real.sin)).1 →
      (e.canonicalCurve (Libm.mk Real.pi Real.sqrt Real.cos Real.sin)).point clo_t2 =
        (e.closestPointTargets (Libm.mk Real.pi Real.sqrt Real.cos Real.sin)).2 →
      e.createSplineCurvePoint (Libm.mk Real.pi Real.sqrt Real.cos Real.sin) clo_t1 clo_t2
          e.startparam_ =
        e.point (Libm.mk Real.pi Real.sqrt Real.cos Real.sin) e.startparam_ ∧
      e.createSplineCurvePoint (Libm.mk Real.pi Real.sqrt Real.cos Real.sin) clo_t1 clo_t2
          e.endparam_ =
        e.point (Libm.mk Real.pi Real.sqrt Real.cos Real.sin) e.endparam_ ∧
      ∀ t : ℝ, e.startparam_ ≤ t → t ≤ e.endparam_ →
        ∃ ψ : ℝ, e.startparam_ ≤ ψ ∧ ψ ≤ e.endparam_ ∧
          e.createSplineCurvePoint (Libm.mk Real.pi Real.sqrt Real.cos Real.sin)
              clo_t1 clo_t2 t =
            e.point (Libm.mk Real.pi Real.sqrt Real.cos Real.sin) ψ := by
  have hpi := Real.pi_pos
  obtain ⟨θ, hθc, hθ0, hθ2, hθmono, hθcurve⟩ := real_canonicalCurve_angle
  obtain ⟨P, hP⟩ : ∃ P : ℝ → Point ℝ, P = fun x =>
      ⟨(List.range e.dimension).map fun i =>
        e.centre_.get i + (Point.smul e.r1_ e.vec1_).get i * Real.cos x +
          (Point.smul e.r2_ e.vec2_).get i * Real.sin x⟩ := ⟨_, rfl⟩
  have hcurve : ∀ s, 0 ≤ s → s ≤ 2 * Real.pi →
      (e.canonicalCurve (Libm.mk Real.pi Real.sqrt Real.cos Real.sin)).point s = P (θ s) := by
    intro s h0 h1
    rw [hθcurve e hdim s h0 h1, hP]
  have hpoint : ∀ x, e.point (Libm.mk Real.pi Real.sqrt Real.cos Real.sin) x =
      P (e.getReversedParameter x) := by
    intro x
    rw [Ellipse.point_eq_position _ e hv1 hv2 x, hP]
  have hinj : ∀ x y, P x = P y → Real.cos x = Real.cos y ∧ Real.sin x = Real.sin y := by
    intro x y h
    rw [hP] at h
    exact position_inj e hdim hv1 hv2 h11 h22 h12 hr1 hr2 _ _ _ _ h
  obtain ⟨c, hc0, hc1, hper⟩ : ∃ c : ℝ, 0 ≤ e.startparam_ + c ∧
      e.endparam_ + c ≤ 2 * Real.pi ∧ ∀ x, P (x + c) = P x := by
    rcases hrange with ⟨h0, h1⟩ | ⟨h0, h1⟩
    · exact ⟨0, by linarith, by linarith, fun x => by rw [add_zero]⟩
    · refine ⟨2 * Real.pi, by linarith, by linarith, fun x => ?_⟩
      rw [hP]
      simp only [Real.cos_add_two_pi, Real.sin_add_two_pi]
  have hrevends : (e.getReversedParameter e.startparam_ = e.startparam_ ∧
        e.getReversedParameter e.endparam_ = e.endparam_ ∧
        e.closestPointTargets (Libm.mk Real.pi Real.sqrt Real.cos Real.sin) =
          (e.point (Libm.mk Real.pi Real.sqrt Real.cos Real.sin) e.startparam_,
            e.point (Libm.mk Real.pi Real.sqrt Real.cos Real.sin) e.endparam_)) ∨
      (e.getReversedParameter e.startparam_ = e.endparam_ ∧
        e.getReversedParameter e.endparam_ = e.startparam_ ∧
        e.closestPointTargets (Libm.mk Real.pi Real.sqrt Real.cos Real.sin) =
          (e.point (Libm.mk Real.pi Real.sqrt Real.cos Real.sin) e.endparam_,
            e.point (Libm.mk Real.pi Real.sqrt Real.cos Real.sin) e.startparam_)) := by
    unfold Ellipse.closestPointTargets Ellipse.getReversedParameter
    cases e.isReversed_
    · left
      exact ⟨rfl, rfl, rfl⟩
    · right
      refine ⟨?_, ?_, rfl⟩
      · simp only [if_true]
        ring
      · simp only [if_true]
        ring
  have htargets : e.closestPointTargets (Libm.mk Real.pi Real.sqrt Real.cos Real.sin) =
      (P e.startparam_, P e.endparam_) := by
    rcases hrevends with ⟨ha, hb, ht⟩ | ⟨ha, hb, ht⟩
    · rw [ht, hpoint, hpoint, ha, hb]
    · rw [ht, hpoint, hpoint, ha, hb]
  have hmono : ∀ s t, 0 ≤ s → s ≤ t → t ≤ 2 * Real.pi → θ s ≤ θ t := by
    intro s t h0 hst h1
    rcases hst.lt_or_eq with h | h
    · exact (hθmono s t h0 h h1).le
    · rw [h]
  have hθrange : ∀ s, 0 ≤ s → s ≤ 2 * Real.pi → 0 ≤ θ s ∧ θ s ≤ 2 * Real.pi := by
    intro s h0 h1
    have l := hmono 0 s le_rfl h0 h1
    have u := hmono s (2 * Real.pi) h0 h1 le_rfl
    rw [hθ0] at l
    rw [hθ2] at u
    exact ⟨l, u⟩
  rw [htargets]
  constructor
  · have hivt := intermediate_value_Icc (by linarith : (0 : ℝ) ≤ 2 * Real.pi) hθc.continuousOn
    rw [hθ0, hθ2] at hivt
    obtain ⟨s1, ⟨hs10, hs11⟩, hs1⟩ := hivt ⟨hc0, by linarith⟩
    obtain ⟨s2, ⟨hs20, hs21⟩, hs2⟩ := hivt ⟨by linarith, hc1⟩
    refine ⟨s1, s2, hs10, ?_, hs21, ?_, ?_⟩
    · by_contra h
      push_neg at h
      have := hmono s2 s1 hs20 h hs11
      linarith
    · rw [hcurve s1 hs10 hs11, hs1, hper]
    · rw [hcurve s2 hs20 hs21, hs2, hper]
  · intro clo_t1 clo_t2 h0 hlt h1 hm1 hm2
    have hm1' : (e.canonicalCurve (Libm.mk Real.pi Real.sqrt Real.cos Real.sin)).point clo_t1 =
        P e.startparam_ := hm1
    have hm2' : (e.canonicalCurve (Libm.mk Real.pi Real.sqrt Real.cos Real.sin)).point clo_t2 =
        P e.endparam_ := hm2
    have hlt' := hθmono clo_t1 clo_t2 h0 hlt h1
    obtain ⟨r10, r11⟩ := hθrange clo_t1 h0 (by linarith)
    obtain ⟨r20, r21⟩ := hθrange clo_t2 (by linarith) h1
    have ht1 : θ clo_t1 = e.startparam_ + c := by
      have hP1 : P (θ clo_t1) = P (e.startparam_ + c) := by
        rw [← hcurve clo_t1 h0 (by linarith), hm1', hper]
      obtain ⟨hcos, hsin⟩ := hinj _ _ hP1
      rcases angle_eq_of_cos_sin _ _ hcos hsin r10 r11 hc0 (by linarith) with h | ⟨_, h⟩ | ⟨h, _⟩
      · exact h
      · linarith
      · linarith
    have ht2 : θ clo_t2 = e.endparam_ + c := by
      have hP2 : P (θ clo_t2) = P (e.endparam_ + c) := by
        rw [← hcurve clo_t2 (by linarith) h1, hm2', hper]
      obtain ⟨hcos, hsin⟩ := hinj _ _ hP2
      rcases angle_eq_of_cos_sin _ _ hcos hsin r20 r21 (by linarith) hc1 with h | ⟨h, _⟩ | ⟨_, h⟩
      · exact h
      · linarith
      · linarith
    have hne : e.endparam_ - e.startparam_ ≠ 0 := by
      intro h
      linarith
    have hpos : 0 < e.endparam_ - e.startparam_ := by linarith
    have harc : ∀ x, e.startparam_ ≤ x → x ≤ e.endparam_ →
        ∃ ψ, e.startparam_ ≤ ψ ∧ ψ ≤ e.endparam_ ∧
          (e.canonicalCurve (Libm.mk Real.pi Real.sqrt Real.cos Real.sin)).point
            (clo_t1 + (x - e.startparam_) / (e.endparam_ - e.startparam_) *
              (clo_t2 - clo_t1)) = P ψ := by
      intro x hx0 hx1
      have hl0 : 0 ≤ (x - e.startparam_) / (e.endparam_ - e.startparam_) :=
        div_nonneg (by linarith) hpos.le
      have hl1 : (x - e.startparam_) / (e.endparam_ - e.startparam_) ≤ 1 := by
        rw [div_le_one hpos]
        linarith
      generalize (x - e.startparam_) / (e.endparam_ - e.startparam_) = l at hl0 hl1
      have hs0 : clo_t1 ≤ clo_t1 + l * (clo_t2 - clo_t1) := by
        have := mul_nonneg hl0 (by linarith : 0 ≤ clo_t2 - clo_t1)
        linarith
      have hs1 : clo_t1 + l * (clo_t2 - clo_t1) ≤ clo_t2 := by
        have := mul_nonneg (by linarith : 0 ≤ 1 - l) (by linarith : 0 ≤ clo_t2 - clo_t1)
        linarith
      have m1 := hmono clo_t1 _ h0 hs0 (by linarith)
      have m2 := hmono _ clo_t2 (by linarith) hs1 h1
      refine ⟨θ (clo_t1 + l * (clo_t2 - clo_t1)) - c, by linarith, by linarith, ?_⟩
      rw [hcurve _ (by linarith) (by linarith)]
      have := hper (θ (clo_t1 + l * (clo_t2 - clo_t1)) - c)
      rw [sub_add_cancel] at this
      exact this
    have hcsp : ∀ t, e.createSplineCurvePoint (Libm.mk Real.pi Real.sqrt Real.cos Real.sin)
        clo_t1 clo_t2 t =
        (e.canonicalCurve (Libm.mk Real.pi Real.sqrt Real.cos Real.sin)).point
          (clo_t1 + (e.getReversedParameter t - e.startparam_) /
            (e.endparam_ - e.startparam_) * (clo_t2 - clo_t1)) := fun _ => rfl
    have hA : (e.canonicalCurve (Libm.mk Real.pi Real.sqrt Real.cos Real.sin)).point
        (clo_t1 + (e.startparam_ - e.startparam_) / (e.endparam_ - e.startparam_) *
          (clo_t2 - clo_t1)) = P e.startparam_ := by
      rw [sub_self, zero_div, zero_mul, add_zero]
      exact hm1'
    have hB : (e.canonicalCurve (Libm.mk Real.pi Real.sqrt Real.cos Real.sin)).point
        (clo_t1 + (e.endparam_ - e.startparam_) / (e.endparam_ - e.startparam_) *
          (clo_t2 - clo_t1)) = P e.endparam_ := by
      rw [div_self hne, one_mul, add_sub_cancel]
      exact hm2'
    have hrevmem : ∀ t, e.startparam_ ≤ t → t ≤ e.endparam_ →
        e.startparam_ ≤ e.getReversedParameter t ∧ e.getReversedParameter t ≤ e.endparam_ := by
      intro t ht0 ht1
      unfold Ellipse.getReversedParameter
      split_ifs
      · constructor <;> linarith
      · exact ⟨ht0, ht1⟩
    have hrevinv : ∀ t, e.getReversedParameter (e.getReversedParameter t) = t := by
      intro t
      unfold Ellipse.getReversedParameter
      split_ifs
      · ring
      · rfl
    refine ⟨?_, ?_, ?_⟩
    · rw [hcsp, hpoint]
      rcases hrevends with ⟨ha, _, _⟩ | ⟨ha, _, _⟩
      · rw [ha]
        exact hA
      · rw [ha]
        exact hB
    · rw [hcsp, hpoint]
      rcases hrevends with ⟨_, hb, _⟩ | ⟨_, hb, _⟩
      · rw [hb]
        exact hB
      · rw [hb]
        exact hA
    · intro t ht0 ht1
      obtain ⟨hx0, hx1⟩ := hrevmem t ht0 ht1
      obtain ⟨ψ, hψ0, hψ1, hψ⟩ := harc _ hx0 hx1
      obtain ⟨hy0, hy1⟩ := hrevmem ψ hψ0 hψ1
      refine ⟨e.getReversedParameter ψ, hy0, hy1, ?_⟩
      rw [hcsp, hψ, hpoint, hrevinv]

/-- Witness for C7 (amended), over the reals: the arc `[π/4, π/2]` of the
unit circle; the canonical curve meets its two end points at ordered
parameters, and with `clo_t1 = π/4`, `clo_t2 = π/2` the returned curve at the
midpoint `3π/8` is a point of the arc. -/
theorem createSplineCurve_round_trip_witness :
    (∃ clo_t1 clo_t2 : ℝ, 0 ≤ clo_t1 ∧ clo_t1 < clo_t2 ∧ clo_t2 ≤ 2 * Real.pi ∧
      ((eighthArc (Libm.mk Real.pi Real.sqrt Real.cos Real.sin)).canonicalCurve
          (Libm.mk Real.pi Real.sqrt Real.cos Real.sin)).point clo_t1 =
        ((eighthArc (Libm.mk Real.pi Real.sqrt Real.cos Real.sin)).closestPointTargets
          (Libm.mk Real.pi Real.sqrt Real.cos Real.sin)).1 ∧
      ((eighthArc (Libm.mk Real.pi Real.sqrt Real.cos Real.sin)).canonicalCurve
          (Libm.mk Real.pi Real.sqrt Real.cos Real.sin)).point clo_t2 =
        ((eighthArc (Libm.mk Real.pi Real.sqrt Real.cos Real.sin)).closestPointTargets
          (Libm.mk Real.pi Real.sqrt Real.cos Real.sin)).2) ∧
    ∃ ψ : ℝ, (eighthArc (Libm.mk Real.pi Real.sqrt Real.cos Real.sin)).startparam_ ≤ ψ ∧
      ψ ≤ (eighthArc (Libm.mk Real.pi Real.sqrt Real.cos Real.sin)).endparam_ ∧
      (eighthArc (Libm.mk Real.pi Real.sqrt Real.cos Real.sin)).createSplineCurvePoint
          (Libm.mk Real.pi Real.sqrt Real.cos Real.sin) (Real.pi / 4) (Real.pi / 2)
          ((Real.pi / 4 + Real.pi / 2) / 2) =
        (eighthArc (Libm.mk Real.pi Real.sqrt Real.cos Real.sin)).point
          (Libm.mk Real.pi Real.sqrt Real.cos Real.sin) ψ := by
  have hpi := Real.pi_pos
  have h := createSplineCurve_round_trip
    (eighthArc (Libm.mk Real.pi Real.sqrt Real.cos Real.sin))
    (Or.inr rfl) rfl rfl
    (by simp [eighthArc, Point.dot]) (by simp [eighthArc, Point.dot])
    (by simp [eighthArc, Point.dot]) (by simp [eighthArc]) (by simp [eighthArc])
    (by
      show Real.pi / 4 < Real.pi / 2
      linarith)
    (Or.inl ⟨by
      show (0 : ℝ) ≤ Real.pi / 4
      linarith, by
      show Real.pi / 2 ≤ 2 * Real.pi
      linarith⟩)
  exact ⟨h.1,
    (h.2 (Real.pi / 4) (Real.pi / 2) (by linarith) (by linarith) (by linarith)
      real_eighthArc_curve_start real_eighthArc_curve_end).2.2
      ((Real.pi / 4 + Real.pi / 2) / 2)
      (by
        show Real.pi / 4 ≤ (Real.pi / 4 + Real.pi / 2) / 2
        linarith)
      (by
        show (Real.pi / 4 + Real.pi / 2) / 2 ≤ Real.pi / 2
        linarith)⟩

end roundTripArc

end Go
